import Mathlib

set_option maxRecDepth 16384

/-!
# A verified model of the `binary-codec` engine

This file gives a shallow embedding, in Lean, of the core of the
schema-driven binary codec: the JavaScript 32-bit integer semantics used by
the bit utilities, byte buffers (`Uint8Array`/`DataView`), UTF-8 text
encoding/decoding, the schema model (`Field`/`CodecSpec`), the seven
standard codecs (`raw`, `number`, `string`, `bitset`, `bitmask`, `array`,
`object`), the static validator and the two entry operations
`serialize`/`deserialize`.  The theorems at the end of the file settle the
specification's claims against these definitions.
-/

namespace BinaryCodec

/-! ## JavaScript 32-bit integer semantics

JS bitwise operators coerce their operands with `ToInt32`/`ToUint32` and
work on the resulting 32-bit two's-complement patterns.  All numbers that
reach these operators in the codec are integers, so we model them on `Int`.
-/

/-- The 32-bit pattern of an integer: `ToUint32` of the JS spec
(restricted to integral doubles). -/
def toUint32 (i : Int) : Nat := (i % 4294967296).toNat

/-- `ToInt32` of the JS spec (restricted to integral doubles). -/
def jsToInt32 (i : Int) : Int :=
  if i % 4294967296 < 2147483648 then i % 4294967296 else i % 4294967296 - 4294967296

/-- JS `a & b`. -/
def jsAnd (a b : Int) : Int := jsToInt32 ((toUint32 a) &&& (toUint32 b))

/-- JS `a | b`. -/
def jsOr (a b : Int) : Int := jsToInt32 ((toUint32 a) ||| (toUint32 b))

/-- JS `a << b` (shift count is `ToUint32(b) % 32`). -/
def jsShl (a b : Int) : Int := jsToInt32 ((toUint32 a) <<< (toUint32 b % 32))

/-- JS `a >> b`: arithmetic shift of the two's-complement value, i.e.
floor division by a power of two. -/
def jsShr (a b : Int) : Int := Int.fdiv (jsToInt32 a) ((2 : Int) ^ (toUint32 b % 32))

theorem toUint32_lt (i : Int) : toUint32 i < 4294967296 := by
  unfold toUint32; omega

theorem toUint32_ofNat (n : Nat) (h : n < 4294967296) : toUint32 (n : Int) = n := by
  unfold toUint32; omega

theorem toUint32_jsToInt32 (i : Int) : toUint32 (jsToInt32 i) = toUint32 i := by
  unfold jsToInt32 toUint32
  split <;> omega

theorem jsToInt32_of_lt (n : Nat) (h : n < 2147483648) : jsToInt32 (n : Int) = n := by
  unfold jsToInt32
  split <;> omega

/-! ## Byte buffers

A `Uint8Array` is modelled as a `List Nat` whose entries are bytes
(`< 256`).  Stores mask with `% 256` exactly as a `Uint8Array` store does.
-/

abbrev Buffer := List Nat

/-- Store one byte (JS `Uint8Array` stores mask the value to 8 bits). -/
def setByte (buf : Buffer) (i b : Nat) : Buffer := buf.set i (b % 256)

/-- Copy a run of bytes into the buffer starting at `off`
(`Uint8Array.prototype.set`). -/
def writeBytesAt (buf : Buffer) (off : Nat) (bs : List Nat) : Buffer :=
  match bs with
  | [] => buf
  | b :: rest => writeBytesAt (setByte buf off b) (off + 1) rest

/-- Read a run of `len` bytes starting at `off`. -/
def readBytesAt (buf : Buffer) (off len : Nat) : List Nat :=
  (buf.drop off).take len

theorem length_setByte (buf : Buffer) (i b : Nat) :
    (setByte buf i b).length = buf.length := by
  simp [setByte]

theorem length_writeBytesAt (buf : Buffer) (off : Nat) (bs : List Nat) :
    (writeBytesAt buf off bs).length = buf.length := by
  induction bs generalizing buf off with
  | nil => rfl
  | cons b rest ih => simp [writeBytesAt, ih, length_setByte]

theorem getElem?_setByte_ne (buf : Buffer) (i b j : Nat) (h : j ≠ i) :
    (setByte buf i b)[j]? = buf[j]? := by
  simp [setByte, List.getElem?_set_ne (Ne.symm h)]

theorem getElem?_writeBytesAt_lt (buf : Buffer) (off : Nat) (bs : List Nat)
    (j : Nat) (h : j < off) :
    (writeBytesAt buf off bs)[j]? = buf[j]? := by
  induction bs generalizing buf off with
  | nil => rfl
  | cons b rest ih =>
    rw [writeBytesAt, ih _ _ (by omega), getElem?_setByte_ne _ _ _ _ (by omega)]

theorem getElem?_writeBytesAt_ge (buf : Buffer) (off : Nat) (bs : List Nat)
    (j : Nat) (h : off + bs.length ≤ j) :
    (writeBytesAt buf off bs)[j]? = buf[j]? := by
  induction bs generalizing buf off with
  | nil => rfl
  | cons b rest ih =>
    rw [writeBytesAt, ih _ _ (by simp at h ⊢; omega),
      getElem?_setByte_ne _ _ _ _ (by simp at h; omega)]

theorem getElem?_writeBytesAt_inside (buf : Buffer) (off : Nat) (bs : List Nat)
    (k : Nat) (hk : k < bs.length) (hb : off + k < buf.length) :
    (writeBytesAt buf off bs)[off + k]? = some (bs[k] % 256) := by
  induction bs generalizing buf off k with
  | nil => simp at hk
  | cons b rest ih =>
    rw [writeBytesAt]
    cases k with
    | zero =>
      rw [getElem?_writeBytesAt_lt _ _ _ _ (by omega)]
      simp only [setByte, Nat.add_zero]
      rw [List.getElem?_set_eq_of_lt _ (by omega)]
      rfl
    | succ k' =>
      have h2 := ih (setByte buf off b) (off + 1) k' (by simp at hk; omega)
        (by rw [length_setByte]; omega)
      have heq : off + (k' + 1) = off + 1 + k' := by omega
      rw [heq, h2]
      rfl

theorem readBytesAt_length (buf : Buffer) (off len : Nat) (h : off + len ≤ buf.length) :
    (readBytesAt buf off len).length = len := by
  simp [readBytesAt]; omega

theorem getElem?_readBytesAt (buf : Buffer) (off len k : Nat) (hk : k < len) :
    (readBytesAt buf off len)[k]? = buf[off + k]? := by
  unfold readBytesAt
  rw [List.getElem?_take_of_lt hk, List.getElem?_drop]

/-! ## Fixed-width integer encodings (`DataView` get/set semantics) -/

/-- The bytes a `DataView` integer store writes, least-significant first. -/
def natToBytesLE : Nat → Nat → List Nat
  | 0, _ => []
  | w + 1, n => n % 256 :: natToBytesLE w (n / 256)

/-- Big-endian byte order (most-significant first). -/
def natToBytesBE (w n : Nat) : List Nat := (natToBytesLE w n).reverse

/-- The unsigned value of a little-endian byte run. -/
def bytesToNatLE : List Nat → Nat
  | [] => 0
  | b :: rest => b + 256 * bytesToNatLE rest

/-- The unsigned value of a big-endian byte run. -/
def bytesToNatBE (bs : List Nat) : Nat := bytesToNatLE bs.reverse

/-- Two's-complement interpretation of an unsigned `w`-byte value
(`DataView.getIntN`). -/
def asSigned (w n : Nat) : Int :=
  if n < 2 ^ (8 * w - 1) then (n : Int) else (n : Int) - 2 ^ (8 * w)

theorem length_natToBytesLE (w n : Nat) : (natToBytesLE w n).length = w := by
  induction w generalizing n with
  | zero => rfl
  | succ w ih => simp [natToBytesLE, ih]

theorem natToBytesLE_lt (w n : Nat) : ∀ b ∈ natToBytesLE w n, b < 256 := by
  induction w generalizing n with
  | zero => simp [natToBytesLE]
  | succ w ih =>
    simp only [natToBytesLE, List.mem_cons]
    rintro b (rfl | hb)
    · omega
    · exact ih _ _ hb

theorem bytesToNatLE_natToBytesLE (w n : Nat) :
    bytesToNatLE (natToBytesLE w n) = n % 256 ^ w := by
  induction w generalizing n with
  | zero => simp [natToBytesLE, bytesToNatLE, Nat.mod_one]
  | succ w ih =>
    rw [natToBytesLE, bytesToNatLE, ih, pow_succ', Nat.mod_mul]

/-! ## UTF-8 text codec

The string codec delegates to the host's `TextEncoder` / `TextDecoder`
(`utf-8`, non-fatal).  We model them by the WHATWG UTF-8 encoder and the
WHATWG UTF-8 decoder with U+FFFD replacement on invalid input.
-/

/-- UTF-8 encoding of one code point (`TextEncoder` on a well-formed
string only meets scalar values). -/
def utf8EncodeCP (c : Nat) : List Nat :=
  if c < 128 then [c]
  else if c < 2048 then [192 + c / 64, 128 + c % 64]
  else if c < 65536 then [224 + c / 4096, 128 + c / 64 % 64, 128 + c % 64]
  else [240 + c / 262144, 128 + c / 4096 % 64, 128 + c / 64 % 64, 128 + c % 64]

/-- `TextEncoder.encode` over the code points of the string. -/
def utf8Encode (s : List Char) : List Nat :=
  s.foldr (fun c acc => utf8EncodeCP c.toNat ++ acc) []

/-- Lower bound for the second byte of a 3-byte sequence (WHATWG). -/
def utf8Lo3 (b : Nat) : Nat := if b = 224 then 160 else 128

/-- Upper bound for the second byte of a 3-byte sequence (WHATWG). -/
def utf8Hi3 (b : Nat) : Nat := if b = 237 then 159 else 191

/-- Lower bound for the second byte of a 4-byte sequence (WHATWG). -/
def utf8Lo4 (b : Nat) : Nat := if b = 240 then 144 else 128

/-- Upper bound for the second byte of a 4-byte sequence (WHATWG). -/
def utf8Hi4 (b : Nat) : Nat := if b = 244 then 143 else 191

/-- `TextDecoder('utf-8', {fatal:false}).decode`: the WHATWG UTF-8
decoder; invalid bytes yield U+FFFD and are re-consumed per the spec. -/
def utf8Decode : List Nat → List Char
  | [] => []
  | b :: rest =>
    if b < 128 then Char.ofNat b :: utf8Decode rest
    else if 194 ≤ b ∧ b ≤ 223 then
      match rest with
      | b2 :: rest2 =>
        if 128 ≤ b2 ∧ b2 ≤ 191 then
          Char.ofNat ((b - 192) * 64 + (b2 - 128)) :: utf8Decode rest2
        else Char.ofNat 65533 :: utf8Decode (b2 :: rest2)
      | [] => [Char.ofNat 65533]
    else if 224 ≤ b ∧ b ≤ 239 then
      match rest with
      | b2 :: rest2 =>
        if utf8Lo3 b ≤ b2 ∧ b2 ≤ utf8Hi3 b then
          match rest2 with
          | b3 :: rest3 =>
            if 128 ≤ b3 ∧ b3 ≤ 191 then
              Char.ofNat ((b - 224) * 4096 + (b2 - 128) * 64 + (b3 - 128)) :: utf8Decode rest3
            else Char.ofNat 65533 :: utf8Decode (b3 :: rest3)
          | [] => [Char.ofNat 65533]
        else Char.ofNat 65533 :: utf8Decode (b2 :: rest2)
      | [] => [Char.ofNat 65533]
    else if 240 ≤ b ∧ b ≤ 244 then
      match rest with
      | b2 :: rest2 =>
        if utf8Lo4 b ≤ b2 ∧ b2 ≤ utf8Hi4 b then
          match rest2 with
          | b3 :: rest3 =>
            if 128 ≤ b3 ∧ b3 ≤ 191 then
              match rest3 with
              | b4 :: rest4 =>
                if 128 ≤ b4 ∧ b4 ≤ 191 then
                  Char.ofNat ((b - 240) * 262144 + (b2 - 128) * 4096 +
                    (b3 - 128) * 64 + (b4 - 128)) :: utf8Decode rest4
                else Char.ofNat 65533 :: utf8Decode (b4 :: rest4)
              | [] => [Char.ofNat 65533]
            else Char.ofNat 65533 :: utf8Decode (b3 :: rest3)
          | [] => [Char.ofNat 65533]
        else Char.ofNat 65533 :: utf8Decode (b2 :: rest2)
      | [] => [Char.ofNat 65533]
    else Char.ofNat 65533 :: utf8Decode rest

/-- JS `text.replace(/\0+$/, '')`. -/
def trimTrailingNulls (s : List Char) : List Char :=
  (s.reverse.dropWhile (fun c => c = Char.ofNat 0)).reverse

/-- Decoding a UTF-8 encoded scalar value recovers it and continues with
the remaining bytes. -/
theorem utf8Decode_encodeCP (c : Nat) (tail : List Nat)
    (hv : c < 55296 ∨ (57343 < c ∧ c < 1114112)) :
    utf8Decode (utf8EncodeCP c ++ tail) = Char.ofNat c :: utf8Decode tail := by
  rcases Nat.lt_or_ge c 128 with h1 | h1
  · rw [utf8EncodeCP, if_pos h1, List.cons_append, List.nil_append,
      utf8Decode.eq_def]
    simp only []
    rw [if_pos h1]
  rcases Nat.lt_or_ge c 2048 with h2 | h2
  · rw [utf8EncodeCP, if_neg (by omega), if_pos h2, List.cons_append,
      List.cons_append, List.nil_append, utf8Decode.eq_def]
    simp only []
    rw [if_neg (show ¬(192 + c / 64 < 128) by omega),
      if_pos (show 194 ≤ 192 + c / 64 ∧ 192 + c / 64 ≤ 223 by omega),
      if_pos (show 128 ≤ 128 + c % 64 ∧ 128 + c % 64 ≤ 191 by omega)]
    congr 2
    omega
  rcases Nat.lt_or_ge c 65536 with h3 | h3
  · rw [utf8EncodeCP, if_neg (by omega), if_neg (by omega), if_pos h3,
      List.cons_append, List.cons_append, List.cons_append, List.nil_append,
      utf8Decode.eq_def]
    simp only []
    have hlo : utf8Lo3 (224 + c / 4096) ≤ 128 + c / 64 % 64 := by
      rw [utf8Lo3]; split <;> omega
    have hhi : 128 + c / 64 % 64 ≤ utf8Hi3 (224 + c / 4096) := by
      rw [utf8Hi3]; split <;> omega
    rw [if_neg (show ¬(224 + c / 4096 < 128) by omega),
      if_neg (show ¬(194 ≤ 224 + c / 4096 ∧ 224 + c / 4096 ≤ 223) by omega),
      if_pos (show 224 ≤ 224 + c / 4096 ∧ 224 + c / 4096 ≤ 239 by omega),
      if_pos (And.intro hlo hhi),
      if_pos (show 128 ≤ 128 + c % 64 ∧ 128 + c % 64 ≤ 191 by omega)]
    congr 2
    omega
  · rw [utf8EncodeCP, if_neg (by omega), if_neg (by omega), if_neg (by omega),
      List.cons_append, List.cons_append, List.cons_append, List.cons_append,
      List.nil_append, utf8Decode.eq_def]
    simp only []
    have hlo : utf8Lo4 (240 + c / 262144) ≤ 128 + c / 4096 % 64 := by
      rw [utf8Lo4]; split <;> omega
    have hhi : 128 + c / 4096 % 64 ≤ utf8Hi4 (240 + c / 262144) := by
      rw [utf8Hi4]; split <;> omega
    rw [if_neg (show ¬(240 + c / 262144 < 128) by omega),
      if_neg (show ¬(194 ≤ 240 + c / 262144 ∧ 240 + c / 262144 ≤ 223) by omega),
      if_neg (show ¬(224 ≤ 240 + c / 262144 ∧ 240 + c / 262144 ≤ 239) by omega),
      if_pos (show 240 ≤ 240 + c / 262144 ∧ 240 + c / 262144 ≤ 244 by omega),
      if_pos (And.intro hlo hhi),
      if_pos (show 128 ≤ 128 + c / 64 % 64 ∧ 128 + c / 64 % 64 ≤ 191 by omega),
      if_pos (show 128 ≤ 128 + c % 64 ∧ 128 + c % 64 ≤ 191 by omega)]
    congr 2
    omega

/-- A `Char`'s code point is a Unicode scalar value. -/
theorem char_scalar (c : Char) :
    c.toNat < 55296 ∨ (57343 < c.toNat ∧ c.toNat < 1114112) := by
  rcases c.valid with h | h
  · left; exact_mod_cast h
  · right; exact ⟨by exact_mod_cast h.1, by exact_mod_cast h.2⟩

/-- Decoding the encoding of a string recovers it, continuing with the
remaining bytes. -/
theorem utf8Decode_encode_append (s : List Char) (tail : List Nat) :
    utf8Decode (utf8Encode s ++ tail) = s ++ utf8Decode tail := by
  induction s with
  | nil => rfl
  | cons c cs ih =>
    show utf8Decode ((utf8EncodeCP c.toNat ++ utf8Encode cs) ++ tail) = _
    rw [List.append_assoc, utf8Decode_encodeCP _ _ (char_scalar c), ih,
      Char.ofNat_toNat]
    rfl

/-- NUL padding decodes to NUL characters. -/
theorem utf8Decode_replicate_zero (k : Nat) :
    utf8Decode (List.replicate k 0) = List.replicate k (Char.ofNat 0) := by
  induction k with
  | zero => rfl
  | succ k ih =>
    rw [List.replicate_succ, List.replicate_succ, utf8Decode.eq_def]
    simp only []
    rw [if_pos (by omega)]
    rw [ih]

theorem trimTrailingNulls_append_replicate (s : List Char) (k : Nat) :
    trimTrailingNulls (s ++ List.replicate k (Char.ofNat 0)) = trimTrailingNulls s := by
  unfold trimTrailingNulls
  rw [List.reverse_append, List.reverse_replicate]
  congr 1
  induction k with
  | zero => rfl
  | succ k ih =>
    rw [List.replicate_succ, List.cons_append, List.dropWhile_cons_of_pos (by simp)]
    exact ih

theorem trimTrailingNulls_of_no_trailing (s : List Char)
    (h : ∀ c, s.getLast? = some c → c ≠ Char.ofNat 0) :
    trimTrailingNulls s = s := by
  unfold trimTrailingNulls
  rcases hr : s.reverse with _ | ⟨a, t⟩
  · simpa using congrArg List.reverse hr
  · have ha : s.getLast? = some a := by
      rw [← List.head?_reverse, hr]; rfl
    rw [List.dropWhile_cons_of_neg (by simpa using h a ha), ← hr,
      List.reverse_reverse]

/-! ## Schema model (`types.ts`)

Fields are a tagged tree.  `byteOffset` is relative to the enclosing
container; `littleEndian` is optional (`none` = not specified).  Array
items carry no `name`/`byteOffset`.  TypeScript records have unique keys,
so bitmask maps and field lists are association lists.
-/

/-- `NumberType` (`number.ts`). -/
inductive NumberType where
  | uint | int | float
deriving DecidableEq, Repr

/-- A `BitPosition` or `[start, end]` `BitRange` (kept in source order;
the codecs interpret the pair themselves). -/
inductive BitsSpec where
  | pos (p : Nat)
  | range (a b : Nat)
deriving DecidableEq, Repr

/-- A `BitField` of a bitmask map (`boolean` bits are a single position
per the `BooleanBitField` type). -/
inductive BitFieldSpec where
  | boolean (p : Nat)
  | uint (bits : BitsSpec)
  | enum (bits : BitsSpec) (values : List String)
deriving DecidableEq, Repr

mutual
/-- The variant-specific part of a field description. -/
inductive FieldBody where
  | raw : FieldBody
  | number (numberType : NumberType) : FieldBody
  | str (trimNull : Bool) : FieldBody
  | bitset : FieldBody
  | bitmask (map : List (String × BitFieldSpec)) : FieldBody
  | array (item : ItemSpec) : FieldBody
  | object (fields : FieldList) : FieldBody

/-- An array `item`: a field description without `name`/`byteOffset`. -/
inductive ItemSpec where
  | mk (byteLength : Nat) (littleEndian : Option Bool) (body : FieldBody) : ItemSpec

/-- A named field (`MetaField` attributes plus the variant data). -/
inductive Field where
  | mk (name : String) (byteOffset byteLength : Nat) (littleEndian : Option Bool)
      (body : FieldBody) : Field

/-- An ordered field list (part of the mutual tree so that the codecs
recurse structurally). -/
inductive FieldList where
  | nil : FieldList
  | cons (f : Field) (fs : FieldList) : FieldList
end

def ItemSpec.byteLength : ItemSpec → Nat
  | .mk len _ _ => len

def ItemSpec.littleEndian : ItemSpec → Option Bool
  | .mk _ le _ => le

def ItemSpec.body : ItemSpec → FieldBody
  | .mk _ _ b => b

def Field.name : Field → String
  | .mk n _ _ _ _ => n

def Field.byteOffset : Field → Nat
  | .mk _ o _ _ _ => o

def Field.byteLength : Field → Nat
  | .mk _ _ l _ _ => l

def Field.littleEndian : Field → Option Bool
  | .mk _ _ _ le _ => le

def Field.body : Field → FieldBody
  | .mk _ _ _ _ b => b

def FieldList.toList : FieldList → List Field
  | .nil => []
  | .cons f fs => f :: fs.toList

def FieldList.length (fs : FieldList) : Nat := fs.toList.length

/-- The root `CodecSpec`. -/
structure CodecSpec where
  byteLength : Nat
  littleEndian : Option Bool
  fields : FieldList

/-- A decoded/encoded JS value.  `f32` keeps the raw bit pattern of a
32-bit float read uninterpreted (IEEE semantics are not modelled);
`undef` is JS `undefined` (an absent record member / out-of-range enum). -/
inductive Value where
  | bytes (bs : List Nat)
  | num (i : Int)
  | f32 (bits : Nat)
  | str (s : List Char)
  | bool (b : Bool)
  | bits (bs : List Bool)
  | arr (vs : List Value)
  | obj (kvs : List (String × Value))
  | undef

/-- JS property access `value[key]` on a record value (absent keys and
non-objects give `undefined`). -/
def jsGet (kvs : List (String × Value)) (k : String) : Value :=
  match kvs.lookup k with
  | some v => v
  | none => Value.undef

/-- Coerce a record-typed operand. -/
def asObjEntries : Value → List (String × Value)
  | .obj kvs => kvs
  | _ => []

/-- Coerce an array-typed operand. -/
def asArr : Value → List Value
  | .arr vs => vs
  | _ => []

/-- Coerce a bitset-typed operand (JS indexing past a non-array yields
`undefined`, which is falsy — the same as the empty list here). -/
def asBits : Value → List Bool
  | .bits bs => bs
  | _ => []

/-- Coerce a numeric operand (`Int` fragment). -/
def asNum : Value → Int
  | .num i => i
  | _ => 0

/-- `ValidationLevel` (`validation/types.ts`). -/
inductive ValidationLevel where
  | fatal | error | warning | info
deriving DecidableEq, Repr

/-- A `ValidationResult` (the human-readable `message` is elided; no
claim concerns it). -/
structure ValidationResult where
  level : ValidationLevel
  path : String
  code : String
deriving DecidableEq, Repr

/-- Errors the engine can raise: `RangeError` (out-of-bounds buffer
access), `TypeError` (member access on `undefined`), a generic
`Error(msg)`, a `ValidationError` carrying the fatal diagnostics, and a
marker for a JS loop that never terminates. -/
inductive JsErr where
  | rangeError
  | typeError
  | jsError (msg : String)
  | validationError (fatals : List ValidationResult)
  | nonTermination
deriving DecidableEq, Repr

/-! ## Primitive codecs -/

/-- The `DataView` accessor selected by `typeToDataViewMethod`. -/
inductive DVKind where
  | uint8 | int8 | uint16 | int16 | uint32 | int32 | float32
deriving DecidableEq, Repr

/-- The `get` method name bound to each entry of `typeToDataViewMethod`. -/
def dvGetName : DVKind → String
  | .uint8 => "getUint8"
  | .int8 => "getInt8"
  | .uint16 => "getUint16"
  | .int16 => "getInt16"
  | .uint32 => "getUint32"
  | .int32 => "getInt32"
  | .float32 => "getFloat32"

/-- The `set` method name bound to each entry of `typeToDataViewMethod`. -/
def dvSetName : DVKind → String
  | .uint8 => "setUint8"
  | .int8 => "setInt8"
  | .uint16 => "setUint16"
  | .int16 => "setInt16"
  | .uint32 => "setUint32"
  | .int32 => "setInt32"
  | .float32 => "setFloat32"

/-- The lookup `typeToDataViewMethod[numberType + byteLength*8]`
(`number.ts`): `none` is JS `undefined` (no such key). -/
def typeToDataViewMethod : NumberType → Nat → Option DVKind
  | .uint, 1 => some .uint8
  | .int, 1 => some .int8
  | .uint, 2 => some .uint16
  | .int, 2 => some .int16
  | .uint, 4 => some .uint32
  | .int, 4 => some .int32
  | .float, 4 => some .float32
  | _, _ => none

/-- The byte width of a `DataView` accessor. -/
def dvWidth : DVKind → Nat
  | .uint8 | .int8 => 1
  | .uint16 | .int16 => 2
  | .uint32 | .int32 | .float32 => 4

/-- The bytes of the region in the order fixed by the endianness flag
(little-endian reverses the stored big-endian significance order). -/
def dvBytes (w : Nat) (le : Bool) (n : Nat) : List Nat :=
  if le then natToBytesLE w n else natToBytesBE w n

/-- The unsigned value of a region under an endianness flag. -/
def dvNat (le : Bool) (bs : List Nat) : Nat :=
  if le then bytesToNatLE bs else bytesToNatBE bs

/-- One `DataView.getX` call: bounds-checked read of `dvWidth k` bytes.
One-byte accessors take no endianness argument (the flag is ignored). -/
def dvGet (k : DVKind) (off : Nat) (le : Bool) (buf : Buffer) : Except JsErr Value :=
  let w := dvWidth k
  if off + w ≤ buf.length then
    let n := dvNat (if w = 1 then false else le) (readBytesAt buf off w)
    match k with
    | .uint8 | .uint16 | .uint32 => .ok (.num n)
    | .int8 => .ok (.num (asSigned 1 n))
    | .int16 => .ok (.num (asSigned 2 n))
    | .int32 => .ok (.num (asSigned 4 n))
    | .float32 => .ok (.f32 n)
  else .error .rangeError

/-- The unsigned pattern a `DataView.setX` call stores for a value.
Integer stores apply `ToUintN` (modular for integral doubles; `true`
converts to 1, `undefined`/`NaN` to 0).  A `float32` store of an `f32`
value stores its pattern back exactly; float stores of other numbers
round to single precision, which is floating-point semantics outside
this embedding (no theorem depends on that case). -/
def dvStoredNat (k : DVKind) (v : Value) : Nat :=
  match k with
  | .float32 =>
    match v with
    | .f32 b => b % 4294967296
    | _ => 0
  | _ =>
    match v with
    | .num i => (i % ((2 : Int) ^ (8 * dvWidth k))).toNat
    | .bool b => if b then 1 else 0
    | _ => 0

/-- One `DataView.setX` call: bounds-checked store of `dvWidth k` bytes. -/
def dvSet (k : DVKind) (off : Nat) (le : Bool) (v : Value) (buf : Buffer) :
    Except JsErr Buffer :=
  let w := dvWidth k
  if off + w ≤ buf.length then
    .ok (writeBytesAt buf off (dvBytes w (if w = 1 then false else le) (dvStoredNat k v)))
  else .error .rangeError

/-- `numberCodec.read`: resolve the accessor pair, dereference its `get`
member (a `TypeError` when the lookup produced `undefined`), the dead
`!method` guard, then the call. -/
def numberRead (t : NumberType) (off len : Nat) (le : Bool) (buf : Buffer) :
    Except JsErr Value :=
  match typeToDataViewMethod t len with
  | none => .error .typeError
  | some k =>
    if (dvGetName k).length = 0 then .error (.jsError "Unsupported number type")
    else dvGet k off le buf

/-- `numberCodec.write`: mirror of `numberRead`. -/
def numberWrite (t : NumberType) (off len : Nat) (le : Bool) (v : Value)
    (buf : Buffer) : Except JsErr Buffer :=
  match typeToDataViewMethod t len with
  | none => .error .typeError
  | some k =>
    if (dvSetName k).length = 0 then .error (.jsError "Unsupported number type")
    else dvSet k off le v buf

/-- `rawCodec.read`: `new Uint8Array(view.buffer, byteOffset, byteLength)`
(a `RangeError` when the slice leaves the buffer).  The JS value is a
zero-copy view; its byte contents are modelled. -/
def rawRead (buf : Buffer) (off len : Nat) : Except JsErr (List Nat) :=
  if off + len ≤ buf.length then .ok (readBytesAt buf off len)
  else .error .rangeError

/-- `rawCodec.write`: `new Uint8Array(view.buffer, byteOffset,
value.length).set(value)` — the window is sized by the INPUT length, not
the field's `byteLength`; the constructor throws `RangeError` exactly
when `byteOffset + value.length` exceeds the buffer. -/
def rawWrite (buf : Buffer) (off : Nat) (value : List Nat) : Except JsErr Buffer :=
  if off + value.length ≤ buf.length then .ok (writeBytesAt buf off value)
  else .error .rangeError

/-- Coerce a `Uint8Array`-typed operand.  `undefined.length` throws; the
typed interface only ever passes byte arrays here. -/
def asBytesE : Value → Except JsErr (List Nat)
  | .bytes bs => .ok bs
  | _ => .error .typeError

/-- Coerce a string-typed operand (`TextEncoder` stringification of
non-string inputs does not arise through the typed interface). -/
def asStr : Value → List Char
  | .str s => s
  | _ => []

/-- `stringCodec.read`: raw read, UTF-8 decode, optional NUL trim. -/
def stringRead (off len : Nat) (trimNull : Bool) (buf : Buffer) :
    Except JsErr Value := do
  let bs ← rawRead buf off len
  let text := utf8Decode bs
  .ok (.str (if trimNull then trimTrailingNulls text else text))

/-- `stringCodec.write`: encode, truncate to `byteLength`, zero-fill the
window, copy the slice in.  The window construction throws `RangeError`
when the field region leaves the buffer. -/
def stringWrite (off len : Nat) (v : Value) (buf : Buffer) : Except JsErr Buffer :=
  let bytes := utf8Encode (asStr v)
  let slice := bytes.take len
  if off + len ≤ buf.length then
    let zeroed := writeBytesAt buf off (List.replicate len 0)
    .ok (writeBytesAt zeroed off slice)
  else .error .rangeError

/-! ## Bit utilities and the bitmask codec -/

/-- `extractBits(value, start, end)` (`bitUtils.ts`). -/
def extractBits (value : Int) (start _end : Nat) : Int :=
  let high := max start _end
  let low := min start _end
  let bitLength := high - low + 1
  let mask := jsShl 1 bitLength - 1
  jsAnd (jsShr value low) mask

/-- `extractBitValue`: a range uses `extractBits`, a single position uses
`(value >> bits) & 1`. -/
def extractBitValue (value : Int) (bits : BitsSpec) : Int :=
  match bits with
  | .range a b => extractBits value a b
  | .pos p => jsAnd (jsShr value p) 1

/-- The `bits` attribute of a map entry. -/
def BitFieldSpec.bits : BitFieldSpec → BitsSpec
  | .boolean p => .pos p
  | .uint bits => bits
  | .enum bits _ => bits

/-- `extractBitFields`: interpret each entry's raw bits as a boolean, an
enum member (`undefined` when the index is out of range), or a number. -/
def extractBitFields (value : Int) (map : List (String × BitFieldSpec)) :
    List (String × Value) :=
  map.map (fun e =>
    let bitValue := extractBitValue value e.2.bits
    match e.2 with
    | .boolean _ => (e.1, .bool (decide (bitValue ≠ 0)))
    | .enum _ values =>
      (e.1, if h : 0 ≤ bitValue ∧ bitValue.toNat < values.length
        then .str (values.get ⟨bitValue.toNat, h.2⟩).toList
        else Value.undef)
    | .uint _ => (e.1, .num bitValue))

/-- `Array.prototype.indexOf` on a string list. -/
def jsIndexOf (values : List String) (s : String) : Int :=
  match values.findIdx? (fun v => v = s) with
  | some i => (i : Int)
  | none => -1

/-- One step of the `combineBitFields` reducer: skip absent keys, coerce
the member to a number (`uint` uses it as-is, `boolean` via `Number`,
`enum` via `values.indexOf`), mask to the bit width, shift into place and
OR into the accumulator. -/
def combineStep (value : List (String × Value)) (total : Int)
    (e : String × BitFieldSpec) : Int :=
  match jsGet value e.1 with
  | Value.undef => total
  | fv =>
    let numericVal : Int :=
      match e.2 with
      | .uint _ =>
        match fv with
        | .num i => i
        | .bool b => if b then 1 else 0
        | _ => 0
      | .boolean _ =>
        match fv with
        | .num i => i
        | .bool b => if b then 1 else 0
        | _ => 0
      | .enum _ values =>
        match fv with
        | .str s => jsIndexOf values (String.mk s)
        | _ => -1
    let hl : Nat × Nat :=
      match e.2.bits with
      | .pos p => (p, p)
      | .range a b => (a, b)
    let bitWidth : Int := (hl.1 : Int) - (hl.2 : Int) + 1
    let maxAllowed := jsShl 1 bitWidth - 1
    let safeValue := jsAnd numericVal maxAllowed
    jsOr total (jsShl safeValue (hl.2 : Int))

/-- `combineBitFields`: fold the reducer over the map entries. -/
def combineBitFields (value : List (String × Value))
    (map : List (String × BitFieldSpec)) : Int :=
  map.foldl (combineStep value) 0

/-! ## Composite codecs: the recursive interpreters

The default registry binds each `type` to its standard codec, and every
codec resolves nested types through the registry's resolver; in this
closed model that dispatch is structural.  The buffer is threaded through
every call so that mutation — or its absence — is part of the result.
-/

/-- `for (let i = 0; i < count; i++) result.push(step(i))`. -/
def readLoop {α : Type} (step : Nat → Buffer → Except JsErr (α × Buffer)) :
    Nat → Nat → Buffer → Except JsErr (List α × Buffer)
  | _, 0, buf => .ok ([], buf)
  | i, rem + 1, buf => do
    let (v, buf1) ← step i buf
    let (vs, buf2) ← readLoop step (i + 1) rem buf1
    .ok (v :: vs, buf2)

/-- `for (let i = 0; i < count; i++) step(i)` over the buffer. -/
def writeLoop (step : Nat → Buffer → Except JsErr Buffer) :
    Nat → Nat → Buffer → Except JsErr Buffer
  | _, 0, buf => .ok buf
  | i, rem + 1, buf => do
    let buf1 ← step i buf
    writeLoop step (i + 1) rem buf1

/-- The iteration count of the array codec's loop
`for (i = 0; i < byteLength / item.byteLength; i++)`: JS float division
makes that `⌈len / itemLen⌉` iterations; `0/0` is `NaN` (zero
iterations) and `len/0` is `Infinity` (the loop never ends). -/
def arrayIter (len itemLen : Nat) : Except JsErr Nat :=
  if itemLen = 0 then (if len = 0 then .ok 0 else .error .nonTermination)
  else .ok ((len + itemLen - 1) / itemLen)

/-- One index of the bitset read loop: read the byte through the number
codec, take bit `i % 8` (bit 0 = least significant). -/
def bitsetReadStep (off i : Nat) (buf : Buffer) : Except JsErr (Bool × Buffer) := do
  let byte ← numberRead .uint (off + i / 8) 1 false buf
  .ok (decide (jsAnd (jsShr (asNum byte) (i % 8 : Nat)) 1 ≠ 0), buf)

/-- One index of the bitset write loop: skip falsy bits, else
read-modify-write `pre | (1 << bitIndex)` on the target byte. -/
def bitsetSetStep (off : Nat) (value : List Bool) (i : Nat) (buf : Buffer) :
    Except JsErr Buffer :=
  if value.getD i false then do
    let pre ← numberRead .uint (off + i / 8) 1 false buf
    numberWrite .uint (off + i / 8) 1 false
      (.num (jsOr (asNum pre) (jsShl 1 (i % 8 : Nat)))) buf
  else .ok buf

mutual
/-- The standard codecs' `read` behavior for one field body at a resolved
offset, length and endianness. -/
def readBody : FieldBody → Nat → Nat → Bool → Buffer → Except JsErr (Value × Buffer)
  | .raw, off, len, _, buf => do
    let bs ← rawRead buf off len
    .ok (.bytes bs, buf)
  | .number t, off, len, le, buf => do
    let v ← numberRead t off len le buf
    .ok (v, buf)
  | .str trimNull, off, len, _, buf => do
    let v ← stringRead off len trimNull buf
    .ok (v, buf)
  | .bitset, off, len, _, buf => do
    let (bs, buf1) ← readLoop (bitsetReadStep off) 0 (len * 8) buf
    .ok (.bits bs, buf1)
  | .bitmask map, off, len, le, buf => do
    let v ← numberRead .uint off len le buf
    .ok (.obj (extractBitFields (asNum v) map), buf)
  | .array (.mk itemLen itemLE ibody), off, len, _, buf => do
    let count ← arrayIter len itemLen
    let (vs, buf1) ← readLoop
      (fun i b => readBody ibody (off + i * itemLen) itemLen (itemLE.getD false) b)
      0 count buf
    .ok (.arr vs, buf1)
  | .object fields, off, _, le, buf => do
    let (kvs, buf1) ← readFields fields off le buf
    .ok (.obj kvs, buf1)

/-- `objectCodec.read`: each field reads at `base + field.byteOffset`
with its own `littleEndian` if set, else the inherited one; the results
are assembled in field order. -/
def readFields : FieldList → Nat → Bool → Buffer →
    Except JsErr (List (String × Value) × Buffer)
  | .nil, _, _, buf => .ok ([], buf)
  | .cons (.mk name fOff fLen fLE fBody) fs, base, le, buf => do
    let (v, buf1) ← readBody fBody (base + fOff) fLen (fLE.getD le) buf
    let (kvs, buf2) ← readFields fs base le buf1
    .ok ((name, v) :: kvs, buf2)
end

mutual
/-- The standard codecs' `write` behavior for one field body. -/
def writeBody : FieldBody → Nat → Nat → Bool → Value → Buffer → Except JsErr Buffer
  | .raw, off, _, _, v, buf => do
    let bs ← asBytesE v
    rawWrite buf off bs
  | .number t, off, len, le, v, buf => numberWrite t off len le v buf
  | .str _, off, len, _, v, buf => stringWrite off len v buf
  | .bitset, off, len, _, v, buf => do
    let buf1 ← writeLoop (fun i b => numberWrite .uint (off + i) 1 false (.num 0) b)
      0 len buf
    writeLoop (bitsetSetStep off (asBits v)) 0 (len * 8) buf1
  | .bitmask map, off, len, le, v, buf =>
    numberWrite .uint off len le (.num (combineBitFields (asObjEntries v) map)) buf
  | .array (.mk itemLen itemLE ibody), off, len, _, v, buf => do
    let count ← arrayIter len itemLen
    writeLoop
      (fun i b => writeBody ibody (off + i * itemLen) itemLen (itemLE.getD false)
        ((asArr v).getD i Value.undef) b)
      0 count buf
  | .object fields, off, _, le, v, buf => writeFields fields off le (asObjEntries v) buf

/-- `objectCodec.write`: a field whose member is `undefined` is skipped
(`continue`); present members are written at `base + field.byteOffset`. -/
def writeFields : FieldList → Nat → Bool → List (String × Value) → Buffer →
    Except JsErr Buffer
  | .nil, _, _, _, buf => .ok buf
  | .cons (.mk name fOff fLen fLE fBody) fs, base, le, kvs, buf =>
    match jsGet kvs name with
    | Value.undef => writeFields fs base le kvs buf
    | v => do
      let buf1 ← writeBody fBody (base + fOff) fLen (fLE.getD le) v buf
      writeFields fs base le kvs buf1
end

/-! ## Static validation (`validator.ts` and the codecs' `validate` hooks)

The registered `bitmask` codec defines no `validate`/`validateData` hook,
and `raw`/`number`/`string`/`bitset` hooks are leaf checks.  `array` and
`object` recurse through the resolver.  In this closed model every `type`
resolves, so the `UNKNOWN_FIELD_TYPE` catch branches are unreachable, and
`Nat` offsets/lengths make the negative-offset check unreachable.
-/

/-- `validCombinations[numberType].includes(byteLength)`. -/
def numberValidCombo : NumberType → Nat → Bool
  | .uint, l => l == 1 || l == 2 || l == 4
  | .int, l => l == 1 || l == 2 || l == 4
  | .float, l => l == 4

mutual
/-- The resolved codec's `validate(spec, path, ctx)` hook for one field
body (the string codec's encoding probe always succeeds for the modelled
UTF-8 encoding). -/
def validateBody : FieldBody → Nat → String → List ValidationResult
  | .raw, len, path =>
    if len = 0 then [⟨.fatal, path ++ ".byteLength", "INVALID_RAW_LENGTH"⟩] else []
  | .number t, len, path =>
    if numberValidCombo t len then [] else [⟨.fatal, path, "INVALID_NUMBER_TYPE_LENGTH"⟩]
  | .str _, _, _ => []
  | .bitset, len, path =>
    if len = 0 then [⟨.fatal, path ++ ".byteLength", "INVALID_BITSET_LENGTH"⟩] else []
  | .bitmask _, _, _ => []
  | .array (.mk itemLen _ ibody), len, path =>
    if itemLen = 0 then
      [⟨.fatal, path ++ ".item.byteLength", "INVALID_ARRAY_ITEM_LENGTH"⟩]
    else
      (if len % itemLen ≠ 0 then [⟨.warning, path, "ARRAY_LENGTH_NOT_DIVISIBLE"⟩] else [])
        ++ (validateBody ibody itemLen "").map (fun r =>
          { r with path := if r.path ≠ "" then path ++ ".item" ++ r.path else path ++ ".item" })
  | .object fields, len, path =>
    (match fields with
      | .nil => [⟨.warning, path ++ ".fields", "EMPTY_OBJECT_FIELDS"⟩]
      | _ => [])
      ++ validateObjectFields fields 0 len path

/-- `objectCodec.validate`'s per-field loop: bounds check against the
object's `byteLength`, then the nested codec's own `validate` with the
adjusted path prefix. -/
def validateObjectFields : FieldList → Nat → Nat → String → List ValidationResult
  | .nil, _, _, _ => []
  | .cons (.mk _ fOff fLen _ fBody) fs, i, containerLen, path =>
    let fieldPath := path ++ ".fields[" ++ toString i ++ "]"
    (if fOff + fLen > containerLen then
      [⟨.fatal, fieldPath, "OBJECT_FIELD_OUT_OF_BOUNDS"⟩] else [])
      ++ (validateBody fBody fLen "").map (fun r =>
        { r with path := if r.path ≠ "" then fieldPath ++ r.path else fieldPath })
      ++ validateObjectFields fs (i + 1) containerLen path
end

/-- `validateBasicSpec`: the fields member is always a list here, so only
the positive-length check can fire. -/
def validateBasicSpec (spec : CodecSpec) : List ValidationResult :=
  if spec.byteLength = 0 then [⟨.fatal, "byteLength", "INVALID_BYTE_LENGTH"⟩] else []

/-- `validateBasicField`: name, positive length, and the span check
against the root spec's `byteLength`. -/
def validateBasicField (f : Field) (path : String) (spec : CodecSpec) :
    List ValidationResult :=
  (if f.name = "" then [⟨.fatal, path ++ ".name", "MISSING_FIELD_NAME"⟩] else [])
    ++ (if f.byteLength = 0 then
      [⟨.fatal, path ++ ".byteLength", "INVALID_FIELD_LENGTH"⟩] else [])
    ++ (if f.byteOffset + f.byteLength > spec.byteLength then
      [⟨.fatal, path, "FIELD_OUT_OF_BOUNDS"⟩] else [])

/-- The per-field part of `validateCodecSpec`: basic checks then the
codec's `validate` hook, at path `fields[i]`. -/
def validateSpecFields : FieldList → Nat → CodecSpec → List ValidationResult
  | .nil, _, _ => []
  | .cons f fs, i, spec =>
    let path := "fields[" ++ toString i ++ "]"
    validateBasicField f path spec ++ validateBody f.body f.byteLength path
      ++ validateSpecFields fs (i + 1) spec

/-- The overlap test of `validateFieldInteractions`. -/
def fieldsOverlap (f1 f2 : Field) : Bool :=
  decide (f1.byteOffset < f2.byteOffset + f2.byteLength) &&
    decide (f2.byteOffset < f1.byteOffset + f1.byteLength)

/-- The inner loop (`j` over the fields after `i`). -/
def overlapWith (f1 : Field) (i : Nat) : List Field → Nat → List ValidationResult
  | [], _ => []
  | f2 :: rest, j =>
    (if fieldsOverlap f1 f2 then
      [⟨.warning, "fields[" ++ toString i ++ "], fields[" ++ toString j ++ "]",
        "FIELD_OVERLAP"⟩] else [])
      ++ overlapWith f1 i rest (j + 1)

/-- The outer loop of the overlap check. -/
def validateOverlapsFrom : List Field → Nat → List ValidationResult
  | [], _ => []
  | f :: rest, i =>
    overlapWith f i rest (i + 1) ++ validateOverlapsFrom rest (i + 1)

/-- The duplicate-name check (a growing seen-set). -/
def validateDuplicates : List Field → Nat → List String → List ValidationResult
  | [], _, _ => []
  | f :: rest, i, seen =>
    (if f.name ∈ seen then
      [⟨.error, "fields[" ++ toString i ++ "].name", "DUPLICATE_FIELD_NAME"⟩] else [])
      ++ validateDuplicates rest (i + 1) (f.name :: seen)

/-- `validateCodecSpec(spec, registry)`. -/
def validateCodecSpec (spec : CodecSpec) : List ValidationResult :=
  validateBasicSpec spec ++ validateSpecFields spec.fields 0 spec
    ++ validateOverlapsFrom spec.fields.toList 0
    ++ validateDuplicates spec.fields.toList 0 []

/-- `validateBufferSize(spec, buffer)`. -/
def validateBufferSize (spec : CodecSpec) (buffer : Buffer) : List ValidationResult :=
  if buffer.length < spec.byteLength then [⟨.fatal, "buffer", "BUFFER_TOO_SMALL"⟩] else []

/-- `validateRuntimeData(spec, value, registry)` resolves the object
codec and calls its `validateData` hook if present; the registered object
codec defines none, so the call yields no diagnostics. -/
def validateRuntimeData (_spec : CodecSpec) (_value : Value) : List ValidationResult :=
  []

/-- `processValidationResults`: the optional `onValidation` sink and the
logger are side effects with no bearing on the result; with fatal results
present and `throwOnFatal`, a `ValidationError` carrying exactly the
fatal subset is thrown. -/
def processValidationResults (results : List ValidationResult)
    (throwOnFatal : Bool) : Except JsErr Unit :=
  let fatals := results.filter (fun r => r.level == .fatal)
  if fatals ≠ [] ∧ throwOnFatal then .error (.validationError fatals) else .ok ()

/-! ## Entry operations (`entries/index.ts`) -/

/-- `deserialize(codecSpec, buffer, registry, options)`: static plus
buffer-size validation, then the object codec reads the whole spec at
offset 0 over a view of the whole buffer.  The final buffer is returned
alongside the value so that (absence of) mutation is observable. -/
def deserialize (spec : CodecSpec) (buffer : Buffer) (validate throwOnFatal : Bool) :
    Except JsErr (Value × Buffer) := do
  if validate then
    processValidationResults (validateCodecSpec spec ++ validateBufferSize spec buffer)
      throwOnFatal
  readBody (.object spec.fields) 0 spec.byteLength (spec.littleEndian.getD false) buffer

/-- `serialize(codecSpec, value, registry, options)`: static plus
runtime-data validation, then the object codec writes into a
zero-initialized buffer of `spec.byteLength` bytes. -/
def serialize (spec : CodecSpec) (value : Value) (validate throwOnFatal : Bool) :
    Except JsErr Buffer := do
  if validate then
    processValidationResults (validateCodecSpec spec ++ validateRuntimeData spec value)
      throwOnFatal
  writeBody (.object spec.fields) 0 spec.byteLength (spec.littleEndian.getD false) value
    (List.replicate spec.byteLength 0)

/-! ## Read purity: no read path stores into the buffer -/

@[simp] theorem ok_bind {ε α β : Type} (a : α) (f : α → Except ε β) :
    (Except.ok a >>= f) = f a := rfl

@[simp] theorem error_bind {ε α β : Type} (e : ε) (f : α → Except ε β) :
    ((Except.error e : Except ε α) >>= f) = .error e := rfl

theorem readLoop_pure {α : Type} (step : Nat → Buffer → Except JsErr (α × Buffer))
    (hstep : ∀ i b p, step i b = .ok p → p.2 = b) :
    ∀ (i rem : Nat) (buf : Buffer) (p : List α × Buffer),
      readLoop step i rem buf = .ok p → p.2 = buf := by
  intro i rem
  induction rem generalizing i with
  | zero =>
    intro buf p h
    simp only [readLoop] at h
    cases h
    rfl
  | succ rem ih =>
    intro buf p h
    simp only [readLoop] at h
    cases h1 : step i buf with
    | error e => rw [h1] at h; simp at h
    | ok q =>
      rw [h1] at h
      obtain ⟨v1, buf1⟩ := q
      simp only [ok_bind] at h
      cases h2 : readLoop step (i + 1) rem buf1 with
      | error e => rw [h2] at h; simp at h
      | ok q2 =>
        rw [h2] at h
        obtain ⟨vs, buf2⟩ := q2
        simp only [ok_bind, Except.ok.injEq] at h
        have e1 := hstep i buf _ h1
        have e2 := ih (i + 1) buf1 _ h2
        simp only [← h]
        simp at e1 e2
        rw [e2, e1]

mutual
theorem readBody_pure (body : FieldBody) (off len : Nat) (le : Bool) (buf : Buffer)
    (v : Value) (buf' : Buffer) (h : readBody body off len le buf = .ok (v, buf')) :
    buf' = buf := by
  match body with
  | .raw =>
    simp only [readBody] at h
    cases h1 : rawRead buf off len <;> rw [h1] at h <;> simp at h
    exact h.2.symm
  | .number t =>
    simp only [readBody] at h
    cases h1 : numberRead t off len le buf <;> rw [h1] at h <;> simp at h
    exact h.2.symm
  | .str trimNull =>
    simp only [readBody] at h
    cases h1 : stringRead off len trimNull buf <;> rw [h1] at h <;> simp at h
    exact h.2.symm
  | .bitset =>
    simp only [readBody] at h
    cases h1 : readLoop (bitsetReadStep off) 0 (len * 8) buf with
    | error e => rw [h1] at h; simp at h
    | ok q =>
      rw [h1] at h
      obtain ⟨bs, buf1⟩ := q
      simp only [ok_bind, Except.ok.injEq, Prod.mk.injEq] at h
      have := readLoop_pure _ (fun i b p hp => by
        obtain ⟨pv, pb⟩ := p
        simp only [bitsetReadStep] at hp
        cases h2 : numberRead .uint (off + i / 8) 1 false b <;> rw [h2] at hp <;> simp at hp
        exact hp.2.symm) 0 (len * 8) buf _ h1
      simp at this
      rw [← h.2, this]
  | .bitmask map =>
    simp only [readBody] at h
    cases h1 : numberRead .uint off len le buf <;> rw [h1] at h <;> simp at h
    exact h.2.symm
  | .array (.mk itemLen itemLE ibody) =>
    simp only [readBody] at h
    cases h1 : arrayIter len itemLen with
    | error e => rw [h1] at h; simp at h
    | ok count =>
      rw [h1] at h
      simp only [ok_bind] at h
      cases h2 : readLoop
          (fun i b => readBody ibody (off + i * itemLen) itemLen (itemLE.getD false) b)
          0 count buf with
      | error e => rw [h2] at h; simp at h
      | ok q =>
        rw [h2] at h
        obtain ⟨vs, buf1⟩ := q
        simp only [ok_bind, Except.ok.injEq, Prod.mk.injEq] at h
        have := readLoop_pure _ (fun i b p hp => by
          obtain ⟨pv, pb⟩ := p
          exact readBody_pure ibody (off + i * itemLen) itemLen (itemLE.getD false) b pv pb hp)
          0 count buf _ h2
        simp at this
        rw [← h.2, this]
  | .object fields =>
    simp only [readBody] at h
    cases h1 : readFields fields off le buf with
    | error e => rw [h1] at h; simp at h
    | ok q =>
      rw [h1] at h
      obtain ⟨kvs, buf1⟩ := q
      simp only [ok_bind, Except.ok.injEq, Prod.mk.injEq] at h
      have := readFields_pure fields off le buf kvs buf1 h1
      rw [← h.2, this]

theorem readFields_pure (fields : FieldList) (base : Nat) (le : Bool) (buf : Buffer)
    (kvs : List (String × Value)) (buf' : Buffer)
    (h : readFields fields base le buf = .ok (kvs, buf')) : buf' = buf := by
  match fields with
  | .nil =>
    simp only [readFields] at h
    cases h
    rfl
  | .cons (.mk name fOff fLen fLE fBody) fs =>
    simp only [readFields] at h
    cases h1 : readBody fBody (base + fOff) fLen (fLE.getD le) buf with
    | error e => rw [h1] at h; simp at h
    | ok q =>
      rw [h1] at h
      obtain ⟨v1, buf1⟩ := q
      simp only [ok_bind] at h
      cases h2 : readFields fs base le buf1 with
      | error e => rw [h2] at h; simp at h
      | ok q2 =>
        rw [h2] at h
        obtain ⟨kvs2, buf2⟩ := q2
        simp only [ok_bind, Except.ok.injEq, Prod.mk.injEq] at h
        have e1 := readBody_pure fBody (base + fOff) fLen (fLE.getD le) buf v1 buf1 h1
        have e2 := readFields_pure fs base le buf1 kvs2 buf2 h2
        rw [← h.2, e2, e1]
end

/-! ## Byte-level write/read lemmas -/

theorem map_mod256_of_lt (bs : List Nat) (h : ∀ b ∈ bs, b < 256) :
    bs.map (fun b => b % 256) = bs := by
  induction bs with
  | nil => rfl
  | cons b rest ih =>
    simp only [List.map_cons, List.cons.injEq]
    exact ⟨Nat.mod_eq_of_lt (h b (by simp)), ih (fun x hx => h x (by simp [hx]))⟩

theorem readBytesAt_writeBytesAt (buf : Buffer) (off : Nat) (bs : List Nat)
    (h : off + bs.length ≤ buf.length) :
    readBytesAt (writeBytesAt buf off bs) off bs.length = bs.map (fun b => b % 256) := by
  apply List.ext_getElem?
  intro k
  by_cases hk : k < bs.length
  · rw [getElem?_readBytesAt _ _ _ _ hk,
      getElem?_writeBytesAt_inside _ _ _ _ hk (by omega), List.getElem?_map,
      List.getElem?_eq_getElem hk]
    rfl
  · rw [List.getElem?_eq_none, List.getElem?_eq_none]
    · simp only [List.length_map]; omega
    · rw [readBytesAt_length _ _ _ (by rw [length_writeBytesAt]; omega)]; omega

theorem dvBytes_length (w : Nat) (le : Bool) (n : Nat) : (dvBytes w le n).length = w := by
  unfold dvBytes natToBytesBE
  split <;> simp [length_natToBytesLE]

theorem dvBytes_lt (w : Nat) (le : Bool) (n : Nat) : ∀ b ∈ dvBytes w le n, b < 256 := by
  unfold dvBytes natToBytesBE
  split
  · exact natToBytesLE_lt w n
  · intro b hb
    exact natToBytesLE_lt w n b (List.mem_reverse.mp hb)

theorem dvNat_dvBytes (w : Nat) (le : Bool) (n : Nat) :
    dvNat le (dvBytes w le n) = n % 256 ^ w := by
  unfold dvNat dvBytes natToBytesBE bytesToNatBE
  split
  · exact bytesToNatLE_natToBytesLE w n
  · rw [List.reverse_reverse]
    exact bytesToNatLE_natToBytesLE w n

theorem pow256_eq (w : Nat) : 256 ^ w = 2 ^ (8 * w) := by
  rw [show (256 : Nat) = 2 ^ 8 from rfl, ← pow_mul]

/-- `ToUintN` of an unsigned in-range integral double is itself. -/
theorem stored_uint_eq (w : Nat) (i : Int) (h0 : 0 ≤ i) (h1 : i < 2 ^ (8 * w)) :
    (((i % ((2 : Int) ^ (8 * w))).toNat : Nat) : Int) = i := by
  rw [Int.emod_eq_of_lt h0 h1, Int.toNat_of_nonneg h0]

/-- Reading back a stored two's-complement value recovers it. -/
theorem asSigned_stored (w : Nat) (hw : 1 ≤ w) (i : Int)
    (hlo : -(2 ^ (8 * w - 1)) ≤ i) (hhi : i < 2 ^ (8 * w - 1)) :
    asSigned w ((i % ((2 : Int) ^ (8 * w))).toNat) = i := by
  have hM : (2 : Int) ^ (8 * w) = 2 * 2 ^ (8 * w - 1) := by
    rw [← pow_succ']
    congr 1
    omega
  have hK : (0 : Int) < 2 ^ (8 * w - 1) := by positivity
  have hcast : ((2 ^ (8 * w - 1) : Nat) : Int) = (2 : Int) ^ (8 * w - 1) := by push_cast; rfl
  unfold asSigned
  rcases le_or_lt 0 i with h0 | h0
  · rw [Int.emod_eq_of_lt h0 (by linarith)]
    rw [if_pos ?_]
    · exact Int.toNat_of_nonneg h0
    · have : i.toNat < ((2 ^ (8 * w - 1) : Nat) : Int) := by rw [hcast]; omega
      exact_mod_cast this
  · have hmod : i % ((2 : Int) ^ (8 * w)) = i + 2 ^ (8 * w) := by
      have h1 : (i + 2 ^ (8 * w) * 1) % ((2 : Int) ^ (8 * w)) = i % ((2 : Int) ^ (8 * w)) :=
        Int.add_mul_emod_self_left i ((2 : Int) ^ (8 * w)) 1
      rw [mul_one] at h1
      rw [← h1, Int.emod_eq_of_lt (by linarith) (by linarith)]
    rw [hmod]
    rw [if_neg ?_]
    · rw [Int.toNat_of_nonneg (by linarith)]
      linarith
    · intro hcon
      have : ((i + 2 ^ (8 * w)).toNat : Int) < ((2 ^ (8 * w - 1) : Nat) : Int) := by
        exact_mod_cast hcon
      rw [hcast, Int.toNat_of_nonneg (by linarith)] at this
      linarith

/-! ## Number codec round trip -/

/-- The value range an integer `DataView` accessor round-trips. -/
def kindFits (k : DVKind) (i : Int) : Prop :=
  match k with
  | .uint8 | .uint16 | .uint32 => 0 ≤ i ∧ i < 2 ^ (8 * dvWidth k)
  | .int8 | .int16 | .int32 =>
    -(2 ^ (8 * dvWidth k - 1)) ≤ i ∧ i < 2 ^ (8 * dvWidth k - 1)
  | .float32 => False

theorem dvSet_get_roundtrip (k : DVKind) (off : Nat) (le : Bool) (buf : Buffer)
    (i : Int) (hfit : kindFits k i) (hb : off + dvWidth k ≤ buf.length) :
    ∃ buf', dvSet k off le (.num i) buf = .ok buf' ∧
      buf'.length = buf.length ∧
      (∀ j, j < off ∨ off + dvWidth k ≤ j → buf'[j]? = buf[j]?) ∧
      dvGet k off le buf' = .ok (.num i) := by
  set w := dvWidth k with hw
  set le' := if w = 1 then false else le with hle'
  set n := dvStoredNat k (.num i) with hn
  refine ⟨writeBytesAt buf off (dvBytes w le' n), ?_, ?_, ?_, ?_⟩
  · unfold dvSet
    rw [if_pos hb]
  · exact length_writeBytesAt _ _ _
  · intro j hj
    rcases hj with hj | hj
    · exact getElem?_writeBytesAt_lt _ _ _ _ hj
    · exact getElem?_writeBytesAt_ge _ _ _ _ (by rw [dvBytes_length]; omega)
  · have hnlt : n < 2 ^ (8 * w) := by
      have hklt : k ≠ .float32 := by
        cases k <;> simp_all [kindFits]
      have : n = (i % ((2 : Int) ^ (8 * w))).toNat := by
        rw [hn]
        cases k <;> simp [dvStoredNat, hw] <;> exact absurd hfit (by simp [kindFits])
      rw [this]
      have h1 : (0 : Int) < 2 ^ (8 * w) := by positivity
      have h2 := Int.emod_lt_of_pos i h1
      have h3 := Int.emod_nonneg i (ne_of_gt h1)
      have : ((2 ^ (8 * w) : Nat) : Int) = (2 : Int) ^ (8 * w) := by push_cast; rfl
      omega
    unfold dvGet
    rw [if_pos (by rw [length_writeBytesAt]; omega)]
    have hread : readBytesAt (writeBytesAt buf off (dvBytes w le' n)) off w
        = dvBytes w le' n := by
      have h1 := readBytesAt_writeBytesAt buf off (dvBytes w le' n)
        (by rw [dvBytes_length]; omega)
      rw [dvBytes_length] at h1
      rw [h1, map_mod256_of_lt _ (dvBytes_lt w le' n)]
    rw [← hw, ← hle', hread, dvNat_dvBytes, pow256_eq,
      Nat.mod_eq_of_lt hnlt]
    have hcast : ∀ m : Nat, ((2 ^ m : Nat) : Int) = (2 : Int) ^ m := by
      intro m; push_cast; rfl
    cases k with
    | uint8 =>
      simp only [dvStoredNat, hn]
      rw [stored_uint_eq _ _ hfit.1 (by exact_mod_cast hfit.2)]
    | uint16 =>
      simp only [dvStoredNat, hn]
      rw [stored_uint_eq _ _ hfit.1 (by exact_mod_cast hfit.2)]
    | uint32 =>
      simp only [dvStoredNat, hn]
      rw [stored_uint_eq _ _ hfit.1 (by exact_mod_cast hfit.2)]
    | int8 =>
      simp only [dvStoredNat, hn, dvWidth]
      rw [asSigned_stored 1 (by decide) _ (by exact_mod_cast hfit.1) (by exact_mod_cast hfit.2)]
    | int16 =>
      simp only [dvStoredNat, hn, dvWidth]
      rw [asSigned_stored 2 (by decide) _ (by exact_mod_cast hfit.1) (by exact_mod_cast hfit.2)]
    | int32 =>
      simp only [dvStoredNat, hn, dvWidth]
      rw [asSigned_stored 4 (by decide) _ (by exact_mod_cast hfit.1) (by exact_mod_cast hfit.2)]
    | float32 => exact absurd hfit (by simp [kindFits])

/-! ## Bit-pattern lemmas for the JS operators -/

theorem toUint32_natCast (n : Nat) : toUint32 (n : Int) = n % 4294967296 := by
  unfold toUint32; omega

theorem toUint32_jsOr (a b : Int) : toUint32 (jsOr a b) = toUint32 a ||| toUint32 b := by
  unfold jsOr
  rw [toUint32_jsToInt32, toUint32_natCast]
  have ha : toUint32 a < 2 ^ 32 := by have := toUint32_lt a; omega
  have hb : toUint32 b < 2 ^ 32 := by have := toUint32_lt b; omega
  have h := Nat.or_lt_two_pow ha hb
  omega

theorem toUint32_jsAnd (a b : Int) : toUint32 (jsAnd a b) = toUint32 a &&& toUint32 b := by
  unfold jsAnd
  rw [toUint32_jsToInt32, toUint32_natCast]
  have h1 : toUint32 a &&& toUint32 b ≤ toUint32 a := Nat.and_le_left
  have h2 := toUint32_lt a
  omega

theorem toUint32_jsShl (a b : Int) :
    toUint32 (jsShl a b) = ((toUint32 a) <<< (toUint32 b % 32)) % 4294967296 := by
  unfold jsShl
  rw [toUint32_jsToInt32, toUint32_natCast]

theorem toUint32_small_nat (n : Nat) (h : n < 4294967296) : toUint32 (n : Int) = n := by
  rw [toUint32_natCast]; omega

/-- `(1 << w) - 1` has the all-ones pattern of width `w` (for `w ≤ 31`;
at `w = 32` the shift count wraps and the mask collapses to `0`). -/
theorem mask_pattern (w : Nat) (h31 : w ≤ 31) :
    toUint32 (jsShl 1 (w : Int) - 1) = 2 ^ w - 1 := by
  have hpow : (2 : Nat) ^ w ≤ 2147483648 := by
    calc (2 : Nat) ^ w ≤ 2 ^ 31 := Nat.pow_le_pow_right (by norm_num) h31
    _ = 2147483648 := by norm_num
  have h1 : toUint32 1 = 1 := by decide
  have hsh : jsShl 1 (w : Int) = jsToInt32 ((2 ^ w : Nat) : Int) := by
    unfold jsShl
    rw [h1, toUint32_natCast]
    congr 2
    rw [Nat.mod_eq_of_lt (by omega), Nat.mod_eq_of_lt (by omega), Nat.one_shiftLeft]
  rw [hsh]
  have hge : 0 < (2 : Nat) ^ w := Nat.two_pow_pos w
  generalize hN : (2 : Nat) ^ w = N at hpow hge ⊢
  unfold jsToInt32 toUint32
  split <;> omega

/-- `v & ((1 << w) - 1)` yields the low `w` bits of `v`'s pattern, as a
nonnegative value. -/
theorem jsAnd_mask (v : Int) (w : Nat) (h31 : w ≤ 31) :
    jsAnd v (jsShl 1 (w : Int) - 1) = ((toUint32 v % 2 ^ w : Nat) : Int) := by
  unfold jsAnd
  rw [mask_pattern w h31, Nat.and_pow_two_sub_one_eq_mod]
  have hlt : toUint32 v % 2 ^ w < 2147483648 := by
    have h1 : toUint32 v % 2 ^ w < 2 ^ w := Nat.mod_lt _ (Nat.two_pow_pos w)
    have h2 : (2 : Nat) ^ w ≤ 2 ^ 31 := Nat.pow_le_pow_right (by norm_num) h31
    have h3 : (2 : Nat) ^ 31 = 2147483648 := by norm_num
    omega
  exact jsToInt32_of_lt _ hlt

/-- `v & 1` is bit 0 of `v`'s pattern. -/
theorem jsAnd_one (v : Int) : jsAnd v 1 = ((toUint32 v % 2 : Nat) : Int) := by
  unfold jsAnd
  have h1 : toUint32 1 = 2 ^ 1 - 1 := by decide
  rw [h1, Nat.and_pow_two_sub_one_eq_mod]
  have hlt : toUint32 v % 2 ^ 1 < 2147483648 := by
    have := Nat.mod_lt (toUint32 v) (show 0 < 2 ^ 1 by norm_num)
    omega
  have h2 : toUint32 v % 2 ^ 1 = toUint32 v % 2 := by norm_num
  rw [jsToInt32_of_lt _ hlt, h2]

/-- Arithmetic right shift agrees with a logical shift of the pattern on
the low `32 - l` bits. -/
theorem jsShr_pattern_mod (v : Int) (l w : Nat) (hl : l ≤ 31) (hlw : l + w ≤ 32) :
    toUint32 (jsShr v (l : Int)) % 2 ^ w = ((toUint32 v) >>> l) % 2 ^ w := by
  have hsh : toUint32 (l : Int) % 32 = l := by rw [toUint32_natCast]; omega
  unfold jsShr
  rw [hsh, Nat.shiftRight_eq_div_pow]
  set P := toUint32 v with hP
  have hPlt : P < 4294967296 := toUint32_lt v
  have hT : jsToInt32 v = (P : Int) ∨ jsToInt32 v = (P : Int) - 4294967296 := by
    unfold jsToInt32
    unfold toUint32 at hP
    split <;> [left; right] <;> omega
  have hdiv : ∀ n : Nat, ((n : Int)).fdiv ((2 : Int) ^ l) = ((n / 2 ^ l : Nat) : Int) := by
    intro n
    rw [Int.fdiv_eq_ediv _ (by positivity)]
    push_cast
    rfl
  set Q := P / 2 ^ l with hQ
  set D := (2 : Nat) ^ (32 - l) with hD
  have hDl : D * 2 ^ l = 4294967296 := by
    rw [hD, ← pow_add]
    have h32 : 32 - l + l = 32 := by omega
    rw [h32]
    norm_num
  have hQD : Q < D := by
    rw [hQ]
    refine Nat.div_lt_of_lt_mul ?_
    have h2 : 2 ^ l * D = 4294967296 := by rw [Nat.mul_comm]; exact hDl
    omega
  have hwD : (2 : Nat) ^ w ∣ D := by
    rw [hD]
    exact pow_dvd_pow 2 (by omega)
  have hw32 : (2 : Nat) ^ w ∣ 4294967296 := by
    have h32 : (4294967296 : Nat) = 2 ^ 32 := by norm_num
    rw [h32]
    exact pow_dvd_pow 2 (by omega)
  clear_value P Q D
  rcases hT with hT | hT
  · rw [hT, hdiv, toUint32_small_nat _ (by
      have := Nat.div_le_self P (2 ^ l); omega), hQ]
  · -- negative two's-complement branch: the floor division subtracts the
    -- exact multiple `2 ^ (32 - l)`, which vanishes modulo `2 ^ w`
    have hsplit : ((P : Int) - 4294967296).fdiv ((2 : Int) ^ l)
        = ((Q : Nat) : Int) - ((D : Nat) : Int) := by
      have hc : (-4294967296 : Int) = ((2 : Int) ^ l) * (-(D : Int)) := by
        have hcast : ((D * 2 ^ l : Nat) : Int) = (4294967296 : Int) := by
          exact_mod_cast congrArg (Nat.cast : Nat → Int) hDl
        push_cast at hcast
        linarith
      rw [Int.fdiv_eq_ediv _ (by positivity), sub_eq_add_neg, hc,
        Int.add_mul_ediv_left _ _ (by positivity : (0:Int) < 2 ^ l).ne']
      rw [show ((P : Int)) / 2 ^ l = ((Q : Nat) : Int) from by
        rw [hQ, ← hdiv P, Int.fdiv_eq_ediv _ (by positivity)]]
      ring
    rw [hT, hsplit]
    have hDle : (D : Nat) ≤ 4294967296 := by
      have h1 : D ≤ D * 2 ^ l := Nat.le_mul_of_pos_right D (Nat.two_pow_pos l)
      omega
    have hmod : (((Q : Nat) : Int) - D) % 4294967296 = ((Q : Nat) : Int) - D + 4294967296 := by
      have h1 : (((Q : Nat) : Int) - D + 4294967296 * 1) % 4294967296
          = (((Q : Nat) : Int) - D) % 4294967296 :=
        Int.add_mul_emod_self_left (((Q : Nat) : Int) - D) 4294967296 1
      rw [mul_one] at h1
      have hQD2 : ((Q : Nat) : Int) < ((D : Nat) : Int) := by exact_mod_cast hQD
      have hDle2 : ((D : Nat) : Int) ≤ 4294967296 := by exact_mod_cast hDle
      rw [← h1, Int.emod_eq_of_lt (by omega) (by omega)]
    unfold toUint32
    rw [hmod]
    have htn : (((Q : Nat) : Int) - D + 4294967296).toNat = Q + (4294967296 - D) := by omega
    rw [htn]
    obtain ⟨c1, hc1⟩ := hwD
    obtain ⟨c2, hc2⟩ := hw32
    have hc3 : 4294967296 - D = 2 ^ w * (c2 - c1) := by
      rw [hc1, hc2, Nat.mul_sub]
    rw [hc3, Nat.add_mul_mod_self_left]

/-! ## Bitmask round trip -/

/-- The `(high, low)` pair the write path derives from a `bits`
attribute (source order, no clamping). -/
def bitsHighLow : BitsSpec → Nat × Nat
  | .pos p => (p, p)
  | .range a b => (a, b)

/-- The bit width `high - low + 1` of a well-ordered range. -/
def bitsWidth (bits : BitsSpec) : Nat :=
  (bitsHighLow bits).1 - (bitsHighLow bits).2 + 1

/-- A range that round-trips: well-ordered, within the field's bits, and
of width at most 31 (a width-32 range collapses under `1 << 32`). -/
def bitsOK (len : Nat) (bits : BitsSpec) : Bool :=
  decide ((bitsHighLow bits).2 ≤ (bitsHighLow bits).1) &&
    decide ((bitsHighLow bits).1 < 8 * len) &&
    decide (bitsWidth bits ≤ 31)

/-- Non-overlapping bit ranges. -/
def bitsDisjoint (x y : BitsSpec) : Bool :=
  decide ((bitsHighLow x).1 < (bitsHighLow y).2) ||
    decide ((bitsHighLow y).1 < (bitsHighLow x).2)

/-- Every entry in range, pairwise-distinct keys and disjoint ranges. -/
def mapEntriesOK (len : Nat) : List (String × BitFieldSpec) → Bool
  | [] => true
  | e :: rest =>
    bitsOK len e.2.bits
      && rest.all (fun e2 => decide (e.1 ≠ e2.1) && bitsDisjoint e.2.bits e2.2.bits)
      && mapEntriesOK len rest

/-- The raw bit value the write path derives from a fitting member. -/
def entryRaw (kvs : List (String × Value)) (e : String × BitFieldSpec) : Nat :=
  match e.2, jsGet kvs e.1 with
  | .boolean _, .bool b => if b then 1 else 0
  | .uint _, .num i => i.toNat
  | .enum _ vals, .str s => (jsIndexOf vals (String.mk s)).toNat
  | _, _ => 0

/-- A member value that survives the write/read cycle for its entry. -/
def bitEntryFits (e : String × BitFieldSpec) (v : Value) : Bool :=
  match e.2, v with
  | .boolean _, .bool _ => true
  | .uint _, .num i => decide (0 ≤ i) && decide (i < 2 ^ bitsWidth e.2.bits)
  | .enum _ vals, .str s =>
    (match vals.findIdx? (fun x => x = String.mk s) with
      | some idx => decide (idx < 2 ^ bitsWidth e.2.bits)
      | none => false)
  | _, _ => false

theorem toUint32_small_int (i : Int) (h0 : 0 ≤ i) (h : i < 4294967296) :
    toUint32 i = i.toNat := by
  unfold toUint32; omega

/-- The masked, shifted contribution of one raw value, at pattern level. -/
theorem combine_core (total numericVal : Int) (h l : Nat) (hlow : l ≤ h)
    (hwid : h - l + 1 ≤ 31) (hlen32 : h < 32) (n : Nat)
    (hn : numericVal = (n : Int)) (hnlt : n < 2 ^ (h - l + 1)) :
    toUint32 (jsOr total (jsShl (jsAnd numericVal (jsShl 1 ((h : Int) - (l : Int) + 1) - 1))
      (l : Int))) = (n <<< l) ||| toUint32 total := by
  have hcastw : ((h : Int) - (l : Int) + 1) = ((h - l + 1 : Nat) : Int) := by
    push_cast [Nat.cast_sub hlow]
    ring
  rw [hcastw, jsAnd_mask _ _ hwid]
  have hpow31 : (2 : Nat) ^ (h - l + 1) ≤ 2147483648 := by
    calc (2:Nat) ^ (h - l + 1) ≤ 2 ^ 31 := Nat.pow_le_pow_right (by norm_num) hwid
    _ = 2147483648 := by norm_num
  have hmod : toUint32 numericVal % 2 ^ (h - l + 1) = n := by
    rw [hn, toUint32_small_nat n (by omega)]
    exact Nat.mod_eq_of_lt hnlt
  rw [hmod, toUint32_jsOr]
  have hshl : n <<< l < 4294967296 := by
    rw [Nat.shiftLeft_eq]
    have h1 : n * 2 ^ l < 2 ^ (h - l + 1) * 2 ^ l :=
      (Nat.mul_lt_mul_right (Nat.two_pow_pos l)).mpr hnlt
    rw [← pow_add] at h1
    have h2 : h - l + 1 + l ≤ 32 := by omega
    have h3 : (2:Nat) ^ (h - l + 1 + l) ≤ 2 ^ 32 := Nat.pow_le_pow_right (by norm_num) h2
    have h4 : (2:Nat) ^ 32 = 4294967296 := by norm_num
    omega
  have hshlpat : toUint32 (jsShl ((n : Nat) : Int) ((l : Nat) : Int)) = n <<< l := by
    rw [toUint32_jsShl, toUint32_natCast, toUint32_natCast]
    have hl32 : l % 4294967296 % 32 = l := by omega
    have hnC : n % 4294967296 = n := by omega
    rw [hl32, hnC, Nat.mod_eq_of_lt hshl]
  rw [hshlpat]
  exact Nat.lor_comm _ _

/-- One fitting `combineBitFields` step ORs the raw value, shifted to its
position, into the accumulator's pattern. -/
theorem combineStep_pattern (kvs : List (String × Value)) (total : Int)
    (e : String × BitFieldSpec) (len : Nat)
    (hbits : bitsOK len e.2.bits = true) (hlen : 8 * len ≤ 32)
    (hfit : bitEntryFits e (jsGet kvs e.1) = true) :
    toUint32 (combineStep kvs total e)
      = (entryRaw kvs e <<< (bitsHighLow e.2.bits).2) ||| toUint32 total
      ∧ entryRaw kvs e < 2 ^ bitsWidth e.2.bits := by
  obtain ⟨k, bf⟩ := e
  cases bf with
  | boolean p =>
    simp only [BitFieldSpec.bits, bitsOK, bitsHighLow, bitsWidth, decide_eq_true_eq,
      Bool.and_eq_true] at hbits
    rcases hv : jsGet kvs k with _ | _ | _ | _ | b | _ | _ | _ | _ <;>
      simp [bitEntryFits, hv] at hfit
    constructor
    · simp only [combineStep, entryRaw, hv, bitsHighLow, BitFieldSpec.bits]
      exact combine_core total _ p p le_rfl (by omega) (by omega)
        (if b then 1 else 0) (by cases b <;> simp) (by cases b <;> simp)
    · simp only [entryRaw, hv, bitsWidth, bitsHighLow, BitFieldSpec.bits]
      cases b <;> simp
  | uint bits =>
    simp only [BitFieldSpec.bits, bitsOK, decide_eq_true_eq, Bool.and_eq_true] at hbits
    rcases hv : jsGet kvs k with _ | i | _ | _ | _ | _ | _ | _ | _ <;>
      simp [bitEntryFits, hv, BitFieldSpec.bits] at hfit
    have hnlt : i.toNat < 2 ^ bitsWidth bits := by
      have h1 := hfit.2
      have h2 : ((2 ^ bitsWidth bits : Nat) : Int) = (2 : Int) ^ bitsWidth bits := by
        push_cast; rfl
      omega
    constructor
    · cases bits with
      | pos p =>
        simp only [combineStep, entryRaw, hv, bitsHighLow, BitFieldSpec.bits]
        simp only [bitsHighLow, bitsWidth] at hbits hnlt
        exact combine_core total _ p p le_rfl (by omega) (by omega)
          i.toNat (by omega) hnlt
      | range a b =>
        simp only [combineStep, entryRaw, hv, bitsHighLow, BitFieldSpec.bits]
        simp only [bitsHighLow, bitsWidth] at hbits hnlt
        exact combine_core total _ a b hbits.1.1 (by omega) (by omega)
          i.toNat (by omega) hnlt
    · simp only [entryRaw, hv, BitFieldSpec.bits]
      exact hnlt
  | enum bits vals =>
    simp only [BitFieldSpec.bits, bitsOK, decide_eq_true_eq, Bool.and_eq_true] at hbits
    rcases hv : jsGet kvs k with _ | _ | _ | s | _ | _ | _ | _ | _ <;>
      simp [bitEntryFits, hv, BitFieldSpec.bits] at hfit
    rcases hidx : vals.findIdx? (fun x => x = String.mk s) with _ | idx <;>
      rw [hidx] at hfit
    · exact absurd hfit (by simp)
    simp only [decide_eq_true_eq] at hfit
    have hio : jsIndexOf vals (String.mk s) = (idx : Int) := by
      unfold jsIndexOf
      rw [hidx]
    constructor
    · cases bits with
      | pos p =>
        simp only [combineStep, entryRaw, hv, bitsHighLow, BitFieldSpec.bits, hio]
        simp only [bitsHighLow, bitsWidth] at hbits hfit
        exact combine_core total _ p p le_rfl (by omega) (by omega)
          idx (by omega) (by simpa using hfit)
      | range a b =>
        simp only [combineStep, entryRaw, hv, bitsHighLow, BitFieldSpec.bits, hio]
        simp only [bitsHighLow, bitsWidth] at hbits hfit
        exact combine_core total _ a b hbits.1.1 (by omega) (by omega)
          idx (by omega) (by simpa using hfit)
    · simp only [entryRaw, hv, BitFieldSpec.bits, hio]
      simpa using hfit
theorem bitsOK_facts {len : Nat} {bits : BitsSpec} (h : bitsOK len bits = true) :
    (bitsHighLow bits).2 ≤ (bitsHighLow bits).1 ∧ (bitsHighLow bits).1 < 8 * len ∧
      bitsWidth bits = (bitsHighLow bits).1 - (bitsHighLow bits).2 + 1 ∧
      bitsWidth bits ≤ 31 := by
  simp only [bitsOK, Bool.and_eq_true, decide_eq_true_eq] at h
  exact ⟨h.1.1, h.1.2, rfl, h.2⟩

/-- Bits outside every entry's range are untouched by the fold. -/
theorem combine_fold_preserves (kvs : List (String × Value)) (len : Nat)
    (hlen : 8 * len ≤ 32) :
    ∀ (map : List (String × BitFieldSpec)) (total : Int),
      mapEntriesOK len map = true →
      (∀ e ∈ map, bitEntryFits e (jsGet kvs e.1) = true) →
      ∀ j : Nat, (∀ e ∈ map, j < (bitsHighLow e.2.bits).2 ∨ (bitsHighLow e.2.bits).1 < j) →
        Nat.testBit (toUint32 (List.foldl (combineStep kvs) total map)) j
          = Nat.testBit (toUint32 total) j := by
  intro map
  induction map with
  | nil => intro total _ _ j _; rfl
  | cons e rest ih =>
    intro total hmap hfit j hout
    simp only [mapEntriesOK, Bool.and_eq_true] at hmap
    have hstep := combineStep_pattern kvs total e len hmap.1.1 hlen
      (hfit e (by simp))
    obtain ⟨hlh0, hhi0, hwd0, hw310⟩ := bitsOK_facts hmap.1.1
    rw [List.foldl_cons, ih (combineStep kvs total e) hmap.2
      (fun e2 he2 => hfit e2 (by simp [he2])) j
      (fun e2 he2 => hout e2 (by simp [he2]))]
    rw [hstep.1, Nat.testBit_lor, Nat.testBit_shiftLeft]
    rcases hout e (by simp) with hj | hj
    · rw [decide_eq_false (by omega)]
      rfl
    · by_cases hle : (bitsHighLow e.2.bits).2 ≤ j
      · rw [decide_eq_true hle]
        have hbig : Nat.testBit (entryRaw kvs e) (j - (bitsHighLow e.2.bits).2) = false := by
          apply Nat.testBit_lt_two_pow
          calc entryRaw kvs e < 2 ^ bitsWidth e.2.bits := hstep.2
          _ ≤ 2 ^ (j - (bitsHighLow e.2.bits).2) := by
            apply Nat.pow_le_pow_right (by norm_num)
            omega
        rw [hbig]
        rfl
      · rw [decide_eq_false hle]
        rfl

theorem mapEntriesOK_mem {len : Nat} {map : List (String × BitFieldSpec)}
    (h : mapEntriesOK len map = true) {e : String × BitFieldSpec} (he : e ∈ map) :
    bitsOK len e.2.bits = true := by
  induction map with
  | nil => simp at he
  | cons e0 rest ih =>
    simp only [mapEntriesOK, Bool.and_eq_true] at h
    rcases List.mem_cons.mp he with rfl | he'
    · exact h.1.1
    · exact ih h.2 he'

/-- Within an entry's range, the folded pattern carries exactly that
entry's raw bits. -/
theorem combine_fold_testBit (kvs : List (String × Value)) (len : Nat)
    (hlen : 8 * len ≤ 32) :
    ∀ (map : List (String × BitFieldSpec)) (total : Int),
      mapEntriesOK len map = true →
      (∀ e ∈ map, bitEntryFits e (jsGet kvs e.1) = true) →
      ∀ e ∈ map, ∀ j : Nat, j < bitsWidth e.2.bits →
        Nat.testBit (toUint32 total) ((bitsHighLow e.2.bits).2 + j) = false →
        Nat.testBit (toUint32 (List.foldl (combineStep kvs) total map))
            ((bitsHighLow e.2.bits).2 + j)
          = Nat.testBit (entryRaw kvs e) j := by
  intro map
  induction map with
  | nil => intro total _ _ e he; simp at he
  | cons e0 rest ih =>
    intro total hmap hfit e he j hj htot
    simp only [mapEntriesOK, Bool.and_eq_true] at hmap
    have hok0 : bitsOK len e0.2.bits = true := hmap.1.1
    have hstep := combineStep_pattern kvs total e0 len hok0 hlen (hfit e0 (by simp))
    rcases List.mem_cons.mp he with rfl | he'
    · -- the head entry: the tail never touches its range
      obtain ⟨hlh0, hhi0, hwd0, hw310⟩ := bitsOK_facts hok0
      have hwle : (bitsHighLow e.2.bits).2 + j ≤ (bitsHighLow e.2.bits).1 := by
        omega
      rw [List.foldl_cons, combine_fold_preserves kvs len hlen rest
        (combineStep kvs total e) hmap.2
        (fun e2 he2 => hfit e2 (by simp [he2])) _
        (fun e2 he2 => by
          have hall := hmap.1.2
          rw [List.all_eq_true] at hall
          have := hall e2 he2
          simp only [Bool.and_eq_true, decide_eq_true_eq, bitsDisjoint,
            Bool.or_eq_true] at this
          rcases this.2 with hd | hd
          · left; omega
          · right; omega)]
      rw [hstep.1, Nat.testBit_lor, Nat.testBit_shiftLeft,
        decide_eq_true (by omega : (bitsHighLow e.2.bits).2 ≤ (bitsHighLow e.2.bits).2 + j)]
      have hsub : (bitsHighLow e.2.bits).2 + j - (bitsHighLow e.2.bits).2 = j := by omega
      rw [hsub, htot, Bool.or_false, Bool.true_and]
    · -- an entry of the tail: the head contribution misses its range
      have hokE : bitsOK len e.2.bits = true := mapEntriesOK_mem hmap.2 he'
      obtain ⟨hlhE, hhiE, hwdE, hw31E⟩ := bitsOK_facts hokE
      obtain ⟨hlh0, hhi0, hwd0, hw310⟩ := bitsOK_facts hok0
      have hwleE : (bitsHighLow e.2.bits).2 + j ≤ (bitsHighLow e.2.bits).1 := by
        omega
      have hall := hmap.1.2
      rw [List.all_eq_true] at hall
      have hdisj := hall e he'
      simp only [Bool.and_eq_true, decide_eq_true_eq, bitsDisjoint,
        Bool.or_eq_true] at hdisj
      rw [List.foldl_cons]
      refine ih (combineStep kvs total e0) hmap.2
        (fun e2 he2 => hfit e2 (by simp [he2])) e he' j hj ?_
      rw [hstep.1, Nat.testBit_lor, Nat.testBit_shiftLeft]
      rcases hdisj.2 with hd | hd
      · -- head range ends below e's range
        rw [decide_eq_true (by omega : (bitsHighLow e0.2.bits).2 ≤ (bitsHighLow e.2.bits).2 + j)]
        have hbig : Nat.testBit (entryRaw kvs e0)
            ((bitsHighLow e.2.bits).2 + j - (bitsHighLow e0.2.bits).2) = false := by
          apply Nat.testBit_lt_two_pow
          calc entryRaw kvs e0 < 2 ^ bitsWidth e0.2.bits := hstep.2
          _ ≤ 2 ^ ((bitsHighLow e.2.bits).2 + j - (bitsHighLow e0.2.bits).2) := by
            apply Nat.pow_le_pow_right (by norm_num)
            omega
        rw [hbig, htot]
        rfl
      · -- head range starts above e's range
        rw [decide_eq_false (by omega), htot]
        rfl

/-! ## Bitmask extraction: reading the packed value back -/

theorem findIdx?_some_spec {α : Type} (p : α → Bool) :
    ∀ (l : List α) (i : Nat), List.findIdx? p l 0 = some i →
      ∃ h : i < l.length, p (l.get ⟨i, h⟩) = true := by
  intro l
  induction l with
  | nil => intro i h; exact Option.noConfusion h
  | cons x xs ih =>
    intro i h
    rw [List.findIdx?_cons] at h
    by_cases hp : p x = true
    · rw [if_pos hp] at h
      cases h
      exact ⟨by simp, by simpa using hp⟩
    · rw [if_neg hp, List.findIdx?_succ] at h
      rcases h2 : List.findIdx? p xs 0 with _ | j <;> rw [h2] at h
      · exact Option.noConfusion h
      · have h3 : some (j + 1) = some i := h
        cases h3
        obtain ⟨hlt, hpi⟩ := ih j h2
        refine ⟨by simp only [List.length_cons]; omega, ?_⟩
        simp only [List.get_eq_getElem, List.getElem_cons_succ]
        exact hpi

/-- `ToUintN` agrees with the low `m` bits of the 32-bit pattern
(`m ≤ 32`). -/
theorem stored_mod_pattern (C : Int) (m : Nat) (hm : m ≤ 32) :
    (C % ((2 : Int) ^ m)).toNat = toUint32 C % 2 ^ m := by
  have hdvd : ((2 : Int) ^ m) ∣ ((2 : Int) ^ 32) := pow_dvd_pow 2 hm
  have h1 : C % ((2 : Int) ^ m) = (C % ((2 : Int) ^ 32)) % ((2 : Int) ^ m) :=
    (Int.emod_emod_of_dvd C hdvd).symm
  have h32 : ((2 : Int) ^ 32) = 4294967296 := by norm_num
  unfold toUint32
  rw [h1, h32]
  have hnn : 0 ≤ C % 4294967296 := Int.emod_nonneg _ (by norm_num)
  obtain ⟨n, hn⟩ : ∃ n : Nat, C % 4294967296 = (n : Int) :=
    ⟨(C % 4294967296).toNat, (Int.toNat_of_nonneg hnn).symm⟩
  rw [hn]
  have hpow : ((2 : Int) ^ m) = ((2 ^ m : Nat) : Int) := by push_cast; rfl
  rw [hpow, ← Int.natCast_mod, Int.toNat_natCast, Int.toNat_natCast]

/-- `extractBitValue` yields the pattern's bit range `[low .. high]` as a
nonnegative value (for a well-formed range). -/
theorem extractBitValue_pattern (v : Int) (bits : BitsSpec) (len : Nat)
    (hb : bitsOK len bits = true) (hlen : 8 * len ≤ 32) :
    extractBitValue v bits
      = (((toUint32 v >>> (bitsHighLow bits).2) % 2 ^ bitsWidth bits : Nat) : Int) := by
  obtain ⟨hlh, hhi, hwd, hw31⟩ := bitsOK_facts hb
  cases bits with
  | pos p =>
    simp only [bitsHighLow] at hlh hhi hwd ⊢
    simp only [extractBitValue]
    have hw : bitsWidth (.pos p) = 1 := by simp [bitsWidth, bitsHighLow]
    rw [hw, pow_one, jsAnd_one]
    congr 1
    have h := jsShr_pattern_mod v p 1 (by omega) (by omega)
    simpa using h
  | range a b =>
    simp only [bitsHighLow] at hlh hhi hwd ⊢
    simp only [extractBitValue, extractBits]
    have hmax : max a b = a := by omega
    have hmin : min a b = b := by omega
    rw [hmax, hmin]
    have hwd2 : bitsWidth (.range a b) = a - b + 1 := by simp [bitsWidth, bitsHighLow]
    rw [hwd2] at hw31 ⊢
    rw [jsAnd_mask _ _ hw31, jsShr_pattern_mod v b (a - b + 1) (by omega) (by omega)]

/-- Extracting an entry's range from any value whose low bits match the
packed pattern yields the entry's raw value. -/
theorem combine_extract (kvs : List (String × Value)) (len : Nat) (hlen : 8 * len ≤ 32)
    (map : List (String × BitFieldSpec)) (hmap : mapEntriesOK len map = true)
    (hfit : ∀ e ∈ map, bitEntryFits e (jsGet kvs e.1) = true)
    (e : String × BitFieldSpec) (he : e ∈ map) (P : Nat)
    (hP : ∀ j, j < 8 * len → Nat.testBit P j
      = Nat.testBit (toUint32 (combineBitFields kvs map)) j) :
    (P >>> (bitsHighLow e.2.bits).2) % 2 ^ bitsWidth e.2.bits = entryRaw kvs e := by
  have hraw : entryRaw kvs e < 2 ^ bitsWidth e.2.bits :=
    (combineStep_pattern kvs 0 e len (mapEntriesOK_mem hmap he) hlen (hfit e he)).2
  obtain ⟨hlh, hhi, hwd, hw31⟩ := bitsOK_facts (mapEntriesOK_mem hmap he)
  apply Nat.eq_of_testBit_eq
  intro j
  rw [Nat.testBit_mod_two_pow, Nat.testBit_shiftRight]
  by_cases hj : j < bitsWidth e.2.bits
  · rw [decide_eq_true hj, Bool.true_and, hP _ (by omega)]
    exact combine_fold_testBit kvs len hlen map 0 hmap hfit e he j hj
      (by rw [show toUint32 0 = 0 from rfl]; exact Nat.zero_testBit _)
  · rw [decide_eq_false hj, Bool.false_and]
    exact (Nat.testBit_lt_two_pow (lt_of_lt_of_le hraw
      (Nat.pow_le_pow_right (by norm_num) (by omega)))).symm

/-- Interpreting a fitting stored pattern recovers exactly the members
the write path packed. -/
theorem extractBitFields_recover (kvs : List (String × Value)) (len : Nat)
    (hlen : 8 * len ≤ 32) (map : List (String × BitFieldSpec))
    (hmap : mapEntriesOK len map = true)
    (hfit : ∀ e ∈ map, bitEntryFits e (jsGet kvs e.1) = true)
    (S : Int)
    (hS : ∀ j, j < 8 * len → Nat.testBit (toUint32 S) j
      = Nat.testBit (toUint32 (combineBitFields kvs map)) j) :
    extractBitFields S map = map.map (fun e => (e.1, jsGet kvs e.1)) := by
  unfold extractBitFields
  apply List.map_congr_left
  intro e he
  have hx : extractBitValue S e.2.bits = ((entryRaw kvs e : Nat) : Int) := by
    rw [extractBitValue_pattern S e.2.bits len (mapEntriesOK_mem hmap he) hlen,
      combine_extract kvs len hlen map hmap hfit e he _ hS]
  obtain ⟨k, bf⟩ := e
  have hfe := hfit (k, bf) he
  cases bf with
  | boolean p =>
    rcases hv : jsGet kvs k with _ | _ | _ | _ | b | _ | _ | _ | _ <;>
      simp [bitEntryFits, hv] at hfe
    simp only [hx, entryRaw, hv]
    cases b <;> simp
  | uint bits =>
    rcases hv : jsGet kvs k with _ | i | _ | _ | _ | _ | _ | _ | _ <;>
      simp [bitEntryFits, hv, BitFieldSpec.bits] at hfe
    simp only [hx, entryRaw, hv, Prod.mk.injEq, true_and]
    rw [Int.toNat_of_nonneg hfe.1]
  | enum bits vals =>
    rcases hv : jsGet kvs k with _ | _ | _ | s | _ | _ | _ | _ | _ <;>
      simp [bitEntryFits, hv, BitFieldSpec.bits] at hfe
    rcases hidx : vals.findIdx? (fun x => x = String.mk s) with _ | idx <;>
      rw [hidx] at hfe
    · exact absurd hfe (by simp)
    simp only [decide_eq_true_eq] at hfe
    obtain ⟨hltx, hpx⟩ := findIdx?_some_spec _ vals idx hidx
    have hvget : vals.get ⟨idx, hltx⟩ = String.mk s := by simpa using hpx
    have hio : jsIndexOf vals (String.mk s) = (idx : Int) := by
      unfold jsIndexOf
      rw [hidx]
    simp only [hx, entryRaw, hv, hio, Int.toNat_natCast, Prod.mk.injEq, true_and]
    rw [dif_pos ⟨by positivity, by simpa using hltx⟩]
    have : vals.get ⟨idx, by simpa using hltx⟩ = String.mk s := hvget
    rw [this]
    rfl

/-! ## Region congruence: reads only look at their region -/

theorem readBytesAt_congr (buf1 buf2 : Buffer) (off len : Nat)
    (hlen : buf2.length = buf1.length)
    (h : ∀ j, off ≤ j → j < off + len → buf2[j]? = buf1[j]?) :
    readBytesAt buf2 off len = readBytesAt buf1 off len := by
  apply List.ext_getElem?
  intro k
  by_cases hk : k < len
  · rw [getElem?_readBytesAt _ _ _ _ hk, getElem?_readBytesAt _ _ _ _ hk]
    exact h (off + k) (by omega) (by omega)
  · unfold readBytesAt
    rw [List.getElem?_eq_none (by simp only [List.length_take, List.length_drop]; omega),
      List.getElem?_eq_none (by simp only [List.length_take, List.length_drop]; omega)]

theorem dvGet_congr (k : DVKind) (off : Nat) (le : Bool) (buf1 buf2 : Buffer)
    (hlen : buf2.length = buf1.length)
    (h : ∀ j, off ≤ j → j < off + dvWidth k → buf2[j]? = buf1[j]?) :
    dvGet k off le buf2 = dvGet k off le buf1 := by
  unfold dvGet
  dsimp only []
  rw [hlen, readBytesAt_congr buf1 buf2 off (dvWidth k) hlen h]

/-! ## The number codec's round trip, at the codec level -/

/-- A float-pattern store/load round trip (the `f32` value keeps the
stored 32-bit pattern). -/
theorem dvSet_get_f32 (off : Nat) (le : Bool) (buf : Buffer) (b : Nat)
    (hb32 : b < 4294967296) (hb : off + 4 ≤ buf.length) :
    ∃ buf', dvSet .float32 off le (.f32 b) buf = .ok buf' ∧
      buf'.length = buf.length ∧
      (∀ j, j < off ∨ off + 4 ≤ j → buf'[j]? = buf[j]?) ∧
      dvGet .float32 off le buf' = .ok (.f32 b) := by
  have hst : dvStoredNat .float32 (.f32 b) = b := by
    simp only [dvStoredNat]
    omega
  refine ⟨writeBytesAt buf off (dvBytes 4 le b), ?_, length_writeBytesAt _ _ _, ?_, ?_⟩
  · unfold dvSet
    dsimp only []
    rw [show dvWidth DVKind.float32 = 4 from rfl,
      if_pos (show off + 4 ≤ buf.length from hb),
      if_neg (show ¬((4 : Nat) = 1) by norm_num), hst]
  · intro j hj
    rcases hj with hj | hj
    · exact getElem?_writeBytesAt_lt _ _ _ _ hj
    · exact getElem?_writeBytesAt_ge _ _ _ _ (by rw [dvBytes_length]; omega)
  · unfold dvGet
    dsimp only []
    have hread : readBytesAt (writeBytesAt buf off (dvBytes 4 le b)) off 4
        = dvBytes 4 le b := by
      have h1 := readBytesAt_writeBytesAt buf off (dvBytes 4 le b)
        (by rw [dvBytes_length]; omega)
      rw [dvBytes_length] at h1
      rw [h1, map_mod256_of_lt _ (dvBytes_lt 4 le b)]
    rw [show dvWidth DVKind.float32 = 4 from rfl,
      if_pos (by rw [length_writeBytesAt]; omega),
      if_neg (show ¬((4 : Nat) = 1) by norm_num), hread, dvNat_dvBytes]
    have h4 : (256 : Nat) ^ 4 = 4294967296 := by norm_num
    rw [h4, Nat.mod_eq_of_lt hb32]

/-- The value shapes the number codec round-trips for a `(type, length)`
combination. -/
def numFits (t : NumberType) (len : Nat) (v : Value) : Bool :=
  match t, v with
  | .uint, .num i =>
    numberValidCombo .uint len && decide (0 ≤ i) && decide (i < 2 ^ (8 * len))
  | .int, .num i =>
    numberValidCombo .int len && decide (-(2 ^ (8 * len - 1)) ≤ i)
      && decide (i < 2 ^ (8 * len - 1))
  | .float, .f32 b => (len == 4) && decide (b < 4294967296)
  | _, _ => false

theorem numberWrite_rt (t : NumberType) (off len : Nat) (le : Bool) (v : Value)
    (buf : Buffer) (h : numFits t len v = true) (hb : off + len ≤ buf.length) :
    ∃ buf', numberWrite t off len le v buf = .ok buf' ∧
      buf'.length = buf.length ∧
      (∀ j, j < off ∨ off + len ≤ j → buf'[j]? = buf[j]?) ∧
      (∀ buf2 : Buffer, buf2.length = buf'.length →
        (∀ j, off ≤ j → j < off + len → buf2[j]? = buf'[j]?) →
        numberRead t off len le buf2 = .ok v) := by
  cases t with
  | uint =>
    rcases v with _ | i | _ | _ | _ | _ | _ | _ | _ <;> simp [numFits] at h
    obtain ⟨⟨hc, h0⟩, h1⟩ := h
    have hcombo : len = 1 ∨ len = 2 ∨ len = 4 := by
      simp [numberValidCombo] at hc
      omega
    have hk : ∃ k, typeToDataViewMethod .uint len = some k ∧ dvWidth k = len ∧
        kindFits k i := by
      rcases hcombo with rfl | rfl | rfl
      · exact ⟨.uint8, rfl, rfl, h0, by exact_mod_cast h1⟩
      · exact ⟨.uint16, rfl, rfl, h0, by exact_mod_cast h1⟩
      · exact ⟨.uint32, rfl, rfl, h0, by exact_mod_cast h1⟩
    obtain ⟨k, hm, hw, hfit⟩ := hk
    obtain ⟨buf', hset, hlen', hframe, hget⟩ :=
      dvSet_get_roundtrip k off le buf i hfit (by omega)
    refine ⟨buf', ?_, hlen', by rw [hw] at hframe; exact hframe, ?_⟩
    · unfold numberWrite
      rw [hm]
      dsimp only []
      rw [if_neg (show ¬((dvSetName k).length = 0) by cases k <;> decide)]
      exact hset
    · intro buf2 hl2 hag
      unfold numberRead
      rw [hm]
      dsimp only []
      rw [if_neg (show ¬((dvGetName k).length = 0) by cases k <;> decide)]
      rw [dvGet_congr k off le buf' buf2 hl2 (by rw [hw]; exact hag)]
      exact hget
  | int =>
    rcases v with _ | i | _ | _ | _ | _ | _ | _ | _ <;> simp [numFits] at h
    obtain ⟨⟨hc, h0⟩, h1⟩ := h
    have hcombo : len = 1 ∨ len = 2 ∨ len = 4 := by
      simp [numberValidCombo] at hc
      omega
    have hk : ∃ k, typeToDataViewMethod .int len = some k ∧ dvWidth k = len ∧
        kindFits k i := by
      rcases hcombo with rfl | rfl | rfl
      · exact ⟨.int8, rfl, rfl, by exact_mod_cast h0, by exact_mod_cast h1⟩
      · exact ⟨.int16, rfl, rfl, by exact_mod_cast h0, by exact_mod_cast h1⟩
      · exact ⟨.int32, rfl, rfl, by exact_mod_cast h0, by exact_mod_cast h1⟩
    obtain ⟨k, hm, hw, hfit⟩ := hk
    obtain ⟨buf', hset, hlen', hframe, hget⟩ :=
      dvSet_get_roundtrip k off le buf i hfit (by omega)
    refine ⟨buf', ?_, hlen', by rw [hw] at hframe; exact hframe, ?_⟩
    · unfold numberWrite
      rw [hm]
      dsimp only []
      rw [if_neg (show ¬((dvSetName k).length = 0) by cases k <;> decide)]
      exact hset
    · intro buf2 hl2 hag
      unfold numberRead
      rw [hm]
      dsimp only []
      rw [if_neg (show ¬((dvGetName k).length = 0) by cases k <;> decide)]
      rw [dvGet_congr k off le buf' buf2 hl2 (by rw [hw]; exact hag)]
      exact hget
  | float =>
    rcases v with _ | _ | b | _ | _ | _ | _ | _ | _ <;> simp [numFits] at h
    obtain ⟨rfl, h1⟩ := h
    obtain ⟨buf', hset, hlen', hframe, hget⟩ := dvSet_get_f32 off le buf b h1 hb
    refine ⟨buf', ?_, hlen', hframe, ?_⟩
    · unfold numberWrite
      rw [show typeToDataViewMethod .float 4 = some .float32 from rfl]
      dsimp only []
      rw [if_neg (show ¬((dvSetName DVKind.float32).length = 0) by decide)]
      exact hset
    · intro buf2 hl2 hag
      unfold numberRead
      rw [show typeToDataViewMethod .float 4 = some .float32 from rfl]
      dsimp only []
      rw [if_neg (show ¬((dvGetName DVKind.float32).length = 0) by decide)]
      rw [dvGet_congr .float32 off le buf' buf2 hl2 (by exact hag)]
      exact hget

/-! ## The raw codec's round trip -/

theorem raw_rt (off len : Nat) (bs : List Nat) (buf : Buffer)
    (hlen : bs.length = len) (hbyte : ∀ b ∈ bs, b < 256) (hb : off + len ≤ buf.length) :
    ∃ buf', rawWrite buf off bs = .ok buf' ∧ buf'.length = buf.length ∧
      (∀ j, j < off ∨ off + len ≤ j → buf'[j]? = buf[j]?) ∧
      (∀ buf2 : Buffer, buf2.length = buf'.length →
        (∀ j, off ≤ j → j < off + len → buf2[j]? = buf'[j]?) →
        rawRead buf2 off len = .ok bs) := by
  subst hlen
  refine ⟨writeBytesAt buf off bs, ?_, length_writeBytesAt _ _ _, ?_, ?_⟩
  · unfold rawWrite
    rw [if_pos hb]
  · intro j hj
    rcases hj with hj | hj
    · exact getElem?_writeBytesAt_lt _ _ _ _ hj
    · exact getElem?_writeBytesAt_ge _ _ _ _ hj
  · intro buf2 hl2 hag
    unfold rawRead
    rw [if_pos (by rw [hl2, length_writeBytesAt]; omega)]
    rw [readBytesAt_congr (writeBytesAt buf off bs) buf2 off bs.length
        (by rw [hl2, length_writeBytesAt]) hag,
      readBytesAt_writeBytesAt buf off bs (by omega), map_mod256_of_lt bs hbyte]

/-! ## The string codec's round trip -/

theorem utf8EncodeCP_lt (c : Nat) (hc : c < 1114112) : ∀ b ∈ utf8EncodeCP c, b < 256 := by
  unfold utf8EncodeCP
  split
  · intro b hb
    simp only [List.mem_singleton] at hb
    omega
  split
  · intro b hb
    simp only [List.mem_cons, List.not_mem_nil, or_false] at hb
    rcases hb with rfl | rfl <;> omega
  split
  · intro b hb
    simp only [List.mem_cons, List.not_mem_nil, or_false] at hb
    rcases hb with rfl | rfl | rfl <;> omega
  · intro b hb
    simp only [List.mem_cons, List.not_mem_nil, or_false] at hb
    rcases hb with rfl | rfl | rfl | rfl <;> omega

theorem utf8Encode_lt (s : List Char) : ∀ b ∈ utf8Encode s, b < 256 := by
  induction s with
  | nil => simp [utf8Encode]
  | cons c cs ih =>
    intro b hb
    have hc : utf8Encode (c :: cs) = utf8EncodeCP c.toNat ++ utf8Encode cs := rfl
    rw [hc, List.mem_append] at hb
    rcases hb with hb | hb
    · exact utf8EncodeCP_lt c.toNat (by rcases char_scalar c with h | h <;> omega) b hb
    · exact ih b hb

theorem stringWrite_ok (off len : Nat) (v : Value) (buf : Buffer)
    (hb : off + len ≤ buf.length) :
    stringWrite off len v buf
      = .ok (writeBytesAt (writeBytesAt buf off (List.replicate len 0)) off
          ((utf8Encode (asStr v)).take len)) := by
  unfold stringWrite
  rw [if_pos hb]

/-- The bytes the string codec leaves in its region: the (truncated)
encoding followed by NUL fill. -/
theorem string_region (off len : Nat) (bytes : List Nat) (buf : Buffer)
    (hb : off + len ≤ buf.length) (hbyte : ∀ b ∈ bytes, b < 256) :
    readBytesAt (writeBytesAt (writeBytesAt buf off (List.replicate len 0)) off
        (bytes.take len)) off len
      = bytes.take len ++ List.replicate (len - (bytes.take len).length) 0 := by
  have hTL : (bytes.take len).length ≤ len := by
    rw [List.length_take]
    omega
  have hlen0 : (writeBytesAt buf off (List.replicate len 0)).length = buf.length :=
    length_writeBytesAt _ _ _
  apply List.ext_getElem?
  intro k
  by_cases hk : k < len
  · rw [getElem?_readBytesAt _ _ _ _ hk]
    by_cases hkT : k < (bytes.take len).length
    · rw [getElem?_writeBytesAt_inside _ _ _ _ hkT (by omega), List.getElem?_append_left hkT,
        List.getElem?_eq_getElem hkT]
      have hmem : (bytes.take len)[k] ∈ bytes := List.take_subset _ _ (List.getElem_mem _)
      rw [Nat.mod_eq_of_lt (hbyte _ hmem)]
    · rw [getElem?_writeBytesAt_ge _ _ _ _ (by omega),
        getElem?_writeBytesAt_inside _ _ _ _ (by simp only [List.length_replicate]; omega)
          (by omega),
        List.getElem?_append_right (by omega), List.getElem?_replicate]
      rw [if_pos (by omega), List.getElem_replicate]
  · rw [List.getElem?_eq_none, List.getElem?_eq_none]
    · simp only [List.length_append, List.length_replicate]
      omega
    · rw [readBytesAt_length]
      · omega
      · rw [length_writeBytesAt, hlen0]
        omega

theorem string_rt (off len : Nat) (s : List Char) (buf : Buffer)
    (henc : (utf8Encode s).length ≤ len)
    (hlast : ∀ c, s.getLast? = some c → c ≠ Char.ofNat 0)
    (hb : off + len ≤ buf.length) :
    ∃ buf', stringWrite off len (.str s) buf = .ok buf' ∧
      buf'.length = buf.length ∧
      (∀ j, j < off ∨ off + len ≤ j → buf'[j]? = buf[j]?) ∧
      (∀ buf2 : Buffer, buf2.length = buf'.length →
        (∀ j, off ≤ j → j < off + len → buf2[j]? = buf'[j]?) →
        stringRead off len true buf2 = .ok (.str s)) := by
  have htake : (utf8Encode s).take len = utf8Encode s := List.take_of_length_le henc
  refine ⟨writeBytesAt (writeBytesAt buf off (List.replicate len 0)) off
    ((utf8Encode s).take len), stringWrite_ok off len (.str s) buf hb,
    by rw [length_writeBytesAt, length_writeBytesAt], ?_, ?_⟩
  · intro j hj
    have hTL : ((utf8Encode s).take len).length ≤ len := by
      rw [List.length_take]
      omega
    rcases hj with hj | hj
    · rw [getElem?_writeBytesAt_lt _ _ _ _ hj, getElem?_writeBytesAt_lt _ _ _ _ hj]
    · rw [getElem?_writeBytesAt_ge _ _ _ _ (by omega),
        getElem?_writeBytesAt_ge _ _ _ _ (by simp only [List.length_replicate]; omega)]
  · intro buf2 hl2 hag
    have hreg := string_region off len (utf8Encode s) buf hb (utf8Encode_lt s)
    unfold stringRead rawRead
    rw [if_pos (by rw [hl2, length_writeBytesAt, length_writeBytesAt]; omega)]
    have hcongr := readBytesAt_congr _ buf2 off len hl2 hag
    rw [hcongr]
    show Except.ok (Value.str (trimTrailingNulls (utf8Decode _))) = _
    rw [hreg, htake, utf8Decode_encode_append, utf8Decode_replicate_zero,
      trimTrailingNulls_append_replicate, trimTrailingNulls_of_no_trailing s hlast]

/-! ## The bitset codec's round trip -/

theorem getD_set_self (l : Buffer) (p x : Nat) (hp : p < l.length) :
    (l.set p x).getD p 0 = x := by
  rw [List.getD_eq_getElem?_getD, List.getElem?_set, if_pos rfl, if_pos hp,
    Option.getD_some]

theorem getD_of_getElem? (l : Buffer) (p c : Nat) (h : l[p]? = some c) :
    l.getD p 0 = c := by
  rw [List.getD_eq_getElem?_getD, h, Option.getD_some]

/-- One single-byte unsigned store (`DataView.setUint8` through the
number codec). -/
theorem byteWrite_eq (p : Nat) (le : Bool) (n : Nat) (b : Buffer) :
    numberWrite .uint p 1 le (.num (n : Int)) b
      = if p + 1 ≤ b.length then .ok (b.set p (n % 256)) else .error .rangeError := by
  have hst : dvStoredNat .uint8 (.num (n : Int)) = n % 256 := by
    simp only [dvStoredNat]
    rw [show dvWidth DVKind.uint8 = 1 from rfl]
    have h8 : ((2 : Int) ^ (8 * 1)) = 256 := by norm_num
    rw [h8]
    omega
  have hbytes : ∀ (le' : Bool) (m : Nat), dvBytes 1 le' m = [m % 256] := by
    intro le' m
    unfold dvBytes natToBytesBE natToBytesLE
    split <;> simp [natToBytesLE]
  unfold numberWrite
  rw [show typeToDataViewMethod .uint 1 = some .uint8 from rfl]
  dsimp only []
  rw [if_neg (show ¬((dvSetName DVKind.uint8).length = 0) by decide)]
  unfold dvSet
  dsimp only []
  rw [show dvWidth DVKind.uint8 = 1 from rfl, hst, hbytes]
  by_cases hp : p + 1 ≤ b.length
  · rw [if_pos hp, if_pos hp]
    have hw1 : ∀ (bb : Buffer) (q x : Nat), writeBytesAt bb q [x] = bb.set q (x % 256) := by
      intro bb q x
      rfl
    rw [hw1]
    have hm : n % 256 % 256 % 256 = n % 256 := by omega
    rw [hm]
  · rw [if_neg hp, if_neg hp]

theorem readBytesAt_one (b : Buffer) (p : Nat) (hp : p < b.length) :
    readBytesAt b p 1 = [b.getD p 0] := by
  apply List.ext_getElem?
  intro k
  cases k with
  | zero =>
    rw [getElem?_readBytesAt _ _ _ _ (by norm_num)]
    show b[p + 0]? = some (b.getD p 0)
    rw [show p + 0 = p from rfl, List.getElem?_eq_getElem hp,
      List.getD_eq_getElem?_getD, List.getElem?_eq_getElem hp, Option.getD_some]
  | succ k =>
    rw [List.getElem?_eq_none, List.getElem?_eq_none]
    · simp
    · rw [readBytesAt_length _ _ _ (by omega)]
      omega

/-- One single-byte unsigned load. -/
theorem byteRead_eq (p : Nat) (le : Bool) (b : Buffer) (hp : p + 1 ≤ b.length) :
    numberRead .uint p 1 le b = .ok (.num (b.getD p 0)) := by
  unfold numberRead
  rw [show typeToDataViewMethod .uint 1 = some .uint8 from rfl]
  dsimp only []
  rw [if_neg (show ¬((dvGetName DVKind.uint8).length = 0) by decide)]
  unfold dvGet
  dsimp only []
  rw [show dvWidth DVKind.uint8 = 1 from rfl, if_pos hp,
    readBytesAt_one b p (by omega)]
  have hdv : ∀ le' : Bool, dvNat le' [b.getD p 0] = b.getD p 0 := by
    intro le'
    unfold dvNat bytesToNatBE
    split <;> simp [bytesToNatLE]
  rw [hdv]

theorem jsShl_one (r : Nat) (hr : r ≤ 30) : jsShl 1 ((r : Nat) : Int) = ((2 ^ r : Nat) : Int) := by
  unfold jsShl
  rw [show toUint32 1 = 1 from rfl, toUint32_natCast]
  have h1 : r % 4294967296 % 32 = r := by omega
  rw [h1, Nat.one_shiftLeft]
  refine jsToInt32_of_lt _ ?_
  have h2 : (2 : Nat) ^ r ≤ 2 ^ 30 := Nat.pow_le_pow_right (by norm_num) hr
  have h3 : (2 : Nat) ^ 30 = 1073741824 := by norm_num
  omega

theorem jsOr_nats (a b : Nat) (ha : a < 2147483648) (hb : b < 2147483648) :
    jsOr ((a : Nat) : Int) ((b : Nat) : Int) = ((a ||| b : Nat) : Int) := by
  unfold jsOr
  rw [toUint32_small_nat a (by omega), toUint32_small_nat b (by omega)]
  refine jsToInt32_of_lt _ ?_
  have h1 : a < 2 ^ 31 := by norm_num; omega
  have h2 : b < 2 ^ 31 := by norm_num; omega
  have h3 := Nat.or_lt_two_pow h1 h2
  have h4 : (2 : Nat) ^ 31 = 2147483648 := by norm_num
  omega

/-- One bitset read step on a buffer whose target byte is `c`. -/
theorem bitsetReadStep_eval (off i : Nat) (buf : Buffer) (c : Nat)
    (hbyte : buf.getD (off + i / 8) 0 = c) (hc : c < 256)
    (hp : off + i / 8 < buf.length) :
    bitsetReadStep off i buf = .ok (c.testBit (i % 8), buf) := by
  unfold bitsetReadStep
  rw [byteRead_eq _ _ _ (by omega), hbyte]
  show Except.ok (decide (jsAnd (jsShr ((c : Nat) : Int) ((i % 8 : Nat) : Int)) 1 ≠ 0), buf) = _
  rw [jsAnd_one]
  have h := jsShr_pattern_mod ((c : Nat) : Int) (i % 8) 1 (by omega) (by omega)
  rw [pow_one] at h
  rw [h, toUint32_small_nat c (by omega)]
  have hdm := @Nat.testBit_to_div_mod (i % 8) c
  cases hcb : c.testBit (i % 8) with
  | false =>
    rw [hcb] at hdm
    have h2 : c / 2 ^ (i % 8) % 2 = 0 := by
      rcases Nat.mod_two_eq_zero_or_one (c / 2 ^ (i % 8)) with h2 | h2
      · exact h2
      · rw [h2] at hdm
        simp at hdm
    have h3 : (c >>> (i % 8)) % 2 = 0 := by
      rw [Nat.shiftRight_eq_div_pow]
      exact h2
    rw [h3]
    simp
  | true =>
    rw [hcb] at hdm
    have h2 : c / 2 ^ (i % 8) % 2 = 1 := of_decide_eq_true hdm.symm
    have h3 : (c >>> (i % 8)) % 2 = 1 := by
      rw [Nat.shiftRight_eq_div_pow]
      exact h2
    rw [h3]
    simp

/-- The OR of the set bits of `value` at indices `base + r ..
base + r + rem - 1`, each at weight `2 ^ (index - base)`. -/
def bitsByteFrom (value : List Bool) (base r rem : Nat) : Nat :=
  match rem with
  | 0 => 0
  | rem + 1 =>
    (if value.getD (base + r) false then 2 ^ r else 0)
      ||| bitsByteFrom value base (r + 1) rem

theorem bitsByteFrom_testBit (value : List Bool) (base : Nat) :
    ∀ (rem r t : Nat),
      Nat.testBit (bitsByteFrom value base r rem) t
        = (decide (r ≤ t) && decide (t < r + rem) && value.getD (base + t) false) := by
  intro rem
  induction rem with
  | zero =>
    intro r t
    rw [bitsByteFrom, Nat.zero_testBit]
    rcases Nat.lt_or_ge t r with h | h
    · rw [decide_eq_false (show ¬(r ≤ t) by omega)]
      simp
    · rw [decide_eq_false (show ¬(t < r + 0) by omega)]
      simp
  | succ rem ih =>
    intro r t
    rw [bitsByteFrom, Nat.testBit_lor, ih (r + 1) t]
    rcases Nat.lt_trichotomy t r with h | h | h
    · rw [decide_eq_false (show ¬(r ≤ t) by omega),
        decide_eq_false (show ¬(r + 1 ≤ t) by omega)]
      have hfalse : Nat.testBit (if value.getD (base + r) false then 2 ^ r else 0) t
          = false := by
        split
        · rw [Nat.testBit_two_pow, decide_eq_false (by omega)]
        · exact Nat.zero_testBit t
      rw [hfalse]
      simp
    · subst h
      rw [decide_eq_true (le_refl t), decide_eq_true (show t < t + (rem + 1) by omega),
        decide_eq_false (show ¬(t + 1 ≤ t) by omega)]
      have hpow : Nat.testBit (if value.getD (base + t) false then 2 ^ t else 0) t
          = value.getD (base + t) false := by
        split
        · next hh => rw [Nat.testBit_two_pow, decide_eq_true rfl, hh]
        · next hh => rw [Nat.zero_testBit]; exact (Bool.not_eq_true _ ▸ hh).symm
      rw [hpow]
      simp
    · rw [decide_eq_true (show r ≤ t by omega), decide_eq_true (show r + 1 ≤ t by omega)]
      have hfalse : Nat.testBit (if value.getD (base + r) false then 2 ^ r else 0) t
          = false := by
        split
        · rw [Nat.testBit_two_pow, decide_eq_false (by omega)]
        · exact Nat.zero_testBit t
      rw [hfalse]
      have harith : r + 1 + rem = r + (rem + 1) := by omega
      rw [harith]
      simp

theorem bitsByteFrom_lt (value : List Bool) (base : Nat) :
    ∀ (rem r : Nat), r + rem ≤ 8 → bitsByteFrom value base r rem < 256 := by
  intro rem
  induction rem with
  | zero => intro r _; rw [bitsByteFrom]; norm_num
  | succ rem ih =>
    intro r hr
    have h256 : (2 : Nat) ^ 8 = 256 := by norm_num
    rw [bitsByteFrom, ← h256]
    refine Nat.or_lt_two_pow ?_ ?_
    · split
      · exact Nat.pow_lt_pow_right (by norm_num) (by omega)
      · positivity
    · rw [h256]
      exact ih (r + 1) (by omega)

/-- One bitset write step at absolute index `8 * m + r`. -/
theorem bitsetSetStep_eval (off : Nat) (value : List Bool) (m r : Nat) (hr : r < 8)
    (buf : Buffer) (c : Nat) (hc : c < 256)
    (hbyte : buf.getD (off + m) 0 = c) (hp : off + m < buf.length) :
    bitsetSetStep off value (8 * m + r) buf
      = .ok (if value.getD (8 * m + r) false then buf.set (off + m) (c ||| 2 ^ r)
          else buf) := by
  unfold bitsetSetStep
  have hdiv : (8 * m + r) / 8 = m := by omega
  have hmod : (8 * m + r) % 8 = r := by omega
  by_cases hbit : value.getD (8 * m + r) false
  · rw [if_pos hbit, if_pos hbit, hdiv, byteRead_eq _ _ _ (by omega), hbyte]
    show numberWrite .uint (off + m) 1 false
      (.num (jsOr ((c : Nat) : Int) (jsShl 1 (((8 * m + r) % 8 : Nat) : Int)))) buf = _
    rw [hmod, jsShl_one r (by omega),
      jsOr_nats c (2 ^ r) (by omega)
        (by have : (2:Nat) ^ r ≤ 2 ^ 7 := Nat.pow_le_pow_right (by norm_num) (by omega)
            norm_num at this
            omega),
      byteWrite_eq, if_pos (by omega)]
    have hlt : c ||| 2 ^ r < 256 := by
      have h256 : (2 : Nat) ^ 8 = 256 := by norm_num
      rw [← h256]
      exact Nat.or_lt_two_pow (by omega)
        (Nat.pow_lt_pow_right (by norm_num) (by omega))
    rw [Nat.mod_eq_of_lt hlt]
  · rw [if_neg hbit, if_neg hbit]

/-- Run the set loop over the bit indices of one byte. -/
theorem bitset_byte_steps (off m : Nat) (value : List Bool) :
    ∀ (rem r c : Nat) (buf : Buffer), r + rem ≤ 8 → c < 256 →
      off + m < buf.length → buf.getD (off + m) 0 = c →
      ∃ buf', writeLoop (bitsetSetStep off value) (8 * m + r) rem buf = .ok buf' ∧
        buf'.length = buf.length ∧
        (∀ j, j ≠ off + m → buf'[j]? = buf[j]?) ∧
        buf'.getD (off + m) 0 = c ||| bitsByteFrom value (8 * m) r rem := by
  intro rem
  induction rem with
  | zero =>
    intro r c buf _ hc hp hbyte
    exact ⟨buf, rfl, rfl, fun j _ => rfl, by rw [bitsByteFrom, Nat.or_zero]; exact hbyte⟩
  | succ rem ih =>
    intro r c buf hr8 hc hp hbyte
    rw [writeLoop, bitsetSetStep_eval off value m r (by omega) buf c hc hbyte hp]
    by_cases hbit : value.getD (8 * m + r) false
    · rw [if_pos hbit]
      have hlt : c ||| 2 ^ r < 256 := by
        have h256 : (2 : Nat) ^ 8 = 256 := by norm_num
        rw [← h256]
        exact Nat.or_lt_two_pow (by omega)
          (Nat.pow_lt_pow_right (by norm_num) (by omega))
      obtain ⟨buf', hloop, hlen, hframe, hbyte'⟩ := ih (r + 1) (c ||| 2 ^ r)
        (buf.set (off + m) (c ||| 2 ^ r)) (by omega) hlt
        (by rw [List.length_set]; omega) (getD_set_self _ _ _ hp)
      rw [show 8 * m + r + 1 = 8 * m + (r + 1) from by omega]
      refine ⟨buf', by simpa using hloop, by rw [hlen, List.length_set], ?_, ?_⟩
      · intro j hj
        rw [hframe j hj, List.getElem?_set, if_neg (by omega)]
      · rw [hbyte', bitsByteFrom, if_pos hbit, ← Nat.lor_assoc]
    · rw [if_neg hbit]
      obtain ⟨buf', hloop, hlen, hframe, hbyte'⟩ := ih (r + 1) c buf (by omega) hc hp hbyte
      rw [show 8 * m + r + 1 = 8 * m + (r + 1) from by omega]
      refine ⟨buf', by simpa using hloop, hlen, hframe, ?_⟩
      rw [hbyte', bitsByteFrom, if_neg hbit, Nat.zero_or]

/-- Splitting a write loop. -/
theorem writeLoop_add (step : Nat → Buffer → Except JsErr Buffer) :
    ∀ (a b i : Nat) (buf : Buffer),
      writeLoop step i (a + b) buf
        = (writeLoop step i a buf) >>= writeLoop step (i + a) b := by
  intro a
  induction a with
  | zero =>
    intro b i buf
    rw [show (0 : Nat) + b = b from by omega]
    show writeLoop step i b buf = (Except.ok buf) >>= writeLoop step (i + 0) b
    rw [ok_bind]
    rfl
  | succ a ih =>
    intro b i buf
    rw [show a + 1 + b = (a + b) + 1 from by omega]
    rw [writeLoop, writeLoop]
    cases hstep : step i buf with
    | error e => rfl
    | ok buf1 =>
      simp only [ok_bind]
      rw [ih b (i + 1) buf1]
      rw [show i + 1 + a = i + (a + 1) from by omega]

/-- The whole set pass, byte by byte, over zeroed bytes. -/
theorem bitset_set_chunks (off : Nat) (value : List Bool) :
    ∀ (cnt k : Nat) (buf : Buffer), off + k + cnt ≤ buf.length →
      (∀ m, k ≤ m → m < k + cnt → buf[off + m]? = some 0) →
      ∃ buf', writeLoop (bitsetSetStep off value) (8 * k) (cnt * 8) buf = .ok buf' ∧
        buf'.length = buf.length ∧
        (∀ j, (j < off + k ∨ off + k + cnt ≤ j) → buf'[j]? = buf[j]?) ∧
        (∀ m, k ≤ m → m < k + cnt →
          buf'[off + m]? = some (bitsByteFrom value (8 * m) 0 8)) := by
  intro cnt
  induction cnt with
  | zero =>
    intro k buf _ _
    exact ⟨buf, rfl, rfl, fun j _ => rfl, fun m hm1 hm2 => by omega⟩
  | succ cnt ih =>
    intro k buf hb hz
    have hsplit : (cnt + 1) * 8 = 8 + cnt * 8 := by omega
    rw [hsplit, writeLoop_add]
    obtain ⟨buf1, hloop1, hlen1, hframe1, hbyte1⟩ := bitset_byte_steps off k value 8 0 0
      buf (by omega) (by omega) (by omega)
      (getD_of_getElem? _ _ _ (hz k (by omega) (by omega)))
    rw [show 8 * k + 0 = 8 * k from by omega] at hloop1
    rw [hloop1, ok_bind]
    obtain ⟨buf', hloop2, hlen2, hframe2, hbyte2⟩ := ih (k + 1) buf1
      (by omega) (fun m hm1 hm2 => by
        rw [hframe1 _ (by omega)]
        exact hz m (by omega) (by omega))
    rw [show 8 * k + 8 = 8 * (k + 1) from by omega, hloop2]
    refine ⟨buf', rfl, by rw [hlen2, hlen1], ?_, ?_⟩
    · intro j hj
      rw [hframe2 j (by omega), hframe1 j (by omega)]
    · intro m hm1 hm2
      rcases Nat.eq_or_lt_of_le hm1 with heq | hm
      · rw [hframe2 _ (by omega)]
        have hp : off + m < buf1.length := by omega
        have hb1 : buf1.getD (off + m) 0 = bitsByteFrom value (8 * m) 0 8 := by
          rw [Nat.zero_or] at hbyte1
          rw [← heq]
          exact hbyte1
        rcases hg : buf1[off + m]? with _ | c
        · rw [List.getElem?_eq_none_iff] at hg
          omega
        · have hc := getD_of_getElem? _ _ _ hg
          rw [hb1] at hc
          rw [hc]
      · exact hbyte2 m (by omega) (by omega)

/-- A pure read loop whose steps all succeed collects the step values. -/
theorem readLoop_const {α : Type} (step : Nat → Buffer → Except JsErr (α × Buffer))
    (buf : Buffer) (f : Nat → α) :
    ∀ (rem i : Nat), (∀ t, t < rem → step (i + t) buf = .ok (f (i + t), buf)) →
      readLoop step i rem buf
        = .ok ((List.range rem).map (fun t => f (i + t)), buf) := by
  intro rem
  induction rem with
  | zero => intro i _; rfl
  | succ rem ih =>
    intro i h
    rw [readLoop]
    have h0 := h 0 (by omega)
    rw [show i + 0 = i from by omega] at h0
    simp only [h0, ok_bind]
    have hih := ih (i + 1) (fun t ht => by
      rw [show i + 1 + t = i + (t + 1) from by omega]
      exact h (t + 1) (by omega))
    rw [hih]
    simp only [ok_bind]
    rw [List.range_succ_eq_map, List.map_cons, List.map_map]
    refine congrArg (fun l => Except.ok (l, buf)) ?_
    refine congrArg (fun l => _ :: l) ?_
    apply List.map_congr_left
    intro t _
    show f (i + 1 + t) = f (i + Nat.succ t)
    rw [show i + 1 + t = i + Nat.succ t from by omega]

theorem map_getD_range (l : List Bool) (n : Nat) (hn : l.length = n) :
    (List.range n).map (fun t => l.getD t false) = l := by
  apply List.ext_getElem?
  intro k
  by_cases hk : k < n
  · rw [List.getElem?_map, List.getElem?_range hk]
    show some (l.getD k false) = l[k]?
    rw [List.getD_eq_getElem?_getD, List.getElem?_eq_getElem (by omega), Option.getD_some]
  · rw [List.getElem?_eq_none (by simp [List.length_range]; omega),
      List.getElem?_eq_none (by omega)]

/-- The zero pass of the bitset write: every byte of the region is
cleared. -/
theorem bitset_zero_pass (off : Nat) :
    ∀ (rem s : Nat) (buf : Buffer), off + s + rem ≤ buf.length →
      ∃ buf', writeLoop (fun i b => numberWrite .uint (off + i) 1 false (.num 0) b)
          s rem buf = .ok buf' ∧
        buf'.length = buf.length ∧
        (∀ j, buf'[j]? = if off + s ≤ j ∧ j < off + s + rem then some 0 else buf[j]?) := by
  intro rem
  induction rem with
  | zero =>
    intro s buf _
    exact ⟨buf, rfl, rfl, fun j => by rw [if_neg (by omega)]⟩
  | succ rem ih =>
    intro s buf h
    simp only [writeLoop]
    have hw := byteWrite_eq (off + s) false 0 buf
    rw [show ((0 : Nat) : Int) = (0 : Int) from by norm_num,
      show (0 : Nat) % 256 = 0 from by norm_num] at hw
    rw [hw, if_pos (by omega), ok_bind]
    obtain ⟨buf', hloop, hlen', hmap⟩ := ih (s + 1) (buf.set (off + s) 0)
      (by rw [List.length_set]; omega)
    rw [show off + (s + 1) = off + s + 1 from by omega] at hmap
    refine ⟨buf', hloop, by rw [hlen', List.length_set], ?_⟩
    intro j
    rw [hmap j]
    by_cases hj : off + s + 1 ≤ j ∧ j < off + s + 1 + rem
    · rw [if_pos hj, if_pos (by omega)]
    · rw [if_neg hj, List.getElem?_set]
      by_cases hje : off + s = j
      · rw [if_pos hje, if_pos (by omega), if_pos (by omega)]
      · rw [if_neg hje, if_neg (by omega)]

/-- The bitset codec's write/read round trip. -/
theorem bitset_rt (off len : Nat) (le : Bool) (bs : List Bool) (buf : Buffer)
    (hlen : bs.length = len * 8) (hb : off + len ≤ buf.length) :
    ∃ buf', writeBody .bitset off len le (.bits bs) buf = .ok buf' ∧
      buf'.length = buf.length ∧
      (∀ j, j < off ∨ off + len ≤ j → buf'[j]? = buf[j]?) ∧
      (∀ buf2 : Buffer, buf2.length = buf'.length →
        (∀ j, off ≤ j → j < off + len → buf2[j]? = buf'[j]?) →
        readBody .bitset off len le buf2 = .ok (.bits bs, buf2)) := by
  have hstep1 : writeBody .bitset off len le (.bits bs) buf
      = (writeLoop (fun i b => numberWrite .uint (off + i) 1 false (.num 0) b) 0 len buf
          >>= writeLoop (bitsetSetStep off bs) 0 (len * 8)) := rfl
  obtain ⟨buf1, hz, hlen1, hmap1⟩ := bitset_zero_pass off len 0 buf (by omega)
  obtain ⟨buf', hsets, hlen2, hframe2, hbytes2⟩ := bitset_set_chunks off bs len 0 buf1
    (by omega) (fun m hm0 hmlt => by
      rw [hmap1 (off + m), if_pos (by omega)])
  rw [show (8 : Nat) * 0 = 0 from by omega] at hsets
  refine ⟨buf', ?_, by rw [hlen2, hlen1], ?_, ?_⟩
  · rw [hstep1, hz, ok_bind]
    exact hsets
  · intro j hj
    rw [hframe2 j (by omega), hmap1 j, if_neg (by omega)]
  · intro buf2 hl2 hag
    have hbytes : ∀ m, m < len → buf2[off + m]? = some (bitsByteFrom bs (8 * m) 0 8) := by
      intro m hm
      rw [hag (off + m) (by omega) (by omega)]
      exact hbytes2 m (by omega) (by omega)
    have hread := readLoop_const (bitsetReadStep off) buf2 (fun i => bs.getD i false)
      (len * 8) 0 (fun t ht => by
        rw [show 0 + t = t from by omega]
        have hdiv : t / 8 < len := by omega
        have hbyteT := hbytes (t / 8) hdiv
        have hc := getD_of_getElem? _ _ _ hbyteT
        rw [bitsetReadStep_eval off t buf2 _ hc
          (bitsByteFrom_lt bs (8 * (t / 8)) 8 0 (by omega))
          (by rw [hl2, hlen2, hlen1]; omega)]
        rw [bitsByteFrom_testBit bs (8 * (t / 8)) 8 0 (t % 8)]
        rw [decide_eq_true (show (0 : Nat) ≤ t % 8 by omega),
          decide_eq_true (show t % 8 < 0 + 8 by omega)]
        rw [show 8 * (t / 8) + t % 8 = t from by omega]
        simp)
    show (do
      let p ← readLoop (bitsetReadStep off) 0 (len * 8) buf2
      Except.ok (Value.bits p.1, p.2)) = _
    rw [hread, ok_bind]
    rw [show (fun t => bs.getD (0 + t) false) = (fun t => bs.getD t false) from by
      funext t
      rw [Nat.zero_add]]
    rw [map_getD_range bs (len * 8) hlen]

/-! ## The bitmask codec's round trip -/

theorem mapEntriesOK_pairwise (len : Nat) (map : List (String × BitFieldSpec))
    (h : mapEntriesOK len map = true) : map.Pairwise (fun a b => a.1 ≠ b.1) := by
  induction map with
  | nil => exact List.Pairwise.nil
  | cons e rest ih =>
    simp only [mapEntriesOK, Bool.and_eq_true] at h
    refine List.Pairwise.cons ?_ (ih h.2)
    intro e2 he2
    have hall := h.1.2
    rw [List.all_eq_true] at hall
    have h2 := hall e2 he2
    simp only [Bool.and_eq_true, decide_eq_true_eq] at h2
    exact h2.1

/-- With the member keys matching the map keys in order, rebuilding each
entry from `jsGet` reproduces the record. -/
theorem map_jsGet_eq_self (map : List (String × BitFieldSpec)) :
    ∀ (kvs : List (String × Value)),
      kvs.map Prod.fst = map.map Prod.fst →
      map.Pairwise (fun a b => a.1 ≠ b.1) →
      map.map (fun e => (e.1, jsGet kvs e.1)) = kvs := by
  induction map with
  | nil =>
    intro kvs hkeys _
    cases kvs with
    | nil => rfl
    | cons a t => simp at hkeys
  | cons e rest ih =>
    intro kvs hkeys hpw
    cases kvs with
    | nil => simp at hkeys
    | cons kv kvt =>
      simp only [List.map_cons, List.cons.injEq] at hkeys
      obtain ⟨hk, ht⟩ := hkeys
      have hpwc := List.pairwise_cons.mp hpw
      obtain ⟨k1, v1⟩ := kv
      simp only [] at hk
      have hhead : jsGet ((k1, v1) :: kvt) e.1 = v1 := by
        unfold jsGet
        rw [← hk]
        simp [List.lookup]
      have htail : rest.map (fun e2 => (e2.1, jsGet ((k1, v1) :: kvt) e2.1))
          = rest.map (fun e2 => (e2.1, jsGet kvt e2.1)) := by
        apply List.map_congr_left
        intro e2 he2
        have hne : e.1 ≠ e2.1 := hpwc.1 e2 he2
        have hne2 : k1 ≠ e2.1 := by rw [hk]; exact hne
        unfold jsGet
        simp only [List.lookup]
        have hbeq : (e2.1 == k1) = false := by
          simpa using (Ne.symm hne2)
        rw [hbeq]
      rw [List.map_cons, hhead, htail, ih kvt ht hpwc.2, ← hk]

/-- Storing any integral double through an unsigned accessor and loading
it back yields `ToUintN` of the value. -/
theorem dvSet_getUint_mod (k : DVKind) (hk : k = .uint8 ∨ k = .uint16 ∨ k = .uint32)
    (off : Nat) (le : Bool) (buf : Buffer) (C : Int) (hb : off + dvWidth k ≤ buf.length) :
    ∃ buf', dvSet k off le (.num C) buf = .ok buf' ∧
      buf'.length = buf.length ∧
      (∀ j, j < off ∨ off + dvWidth k ≤ j → buf'[j]? = buf[j]?) ∧
      dvGet k off le buf'
        = .ok (.num (((C % ((2 : Int) ^ (8 * dvWidth k))).toNat : Nat) : Int)) := by
  set w := dvWidth k with hw
  set le' := if w = 1 then false else le with hle'
  have hst : dvStoredNat k (.num C) = (C % ((2 : Int) ^ (8 * w))).toNat := by
    rcases hk with rfl | rfl | rfl <;> rfl
  set S := (C % ((2 : Int) ^ (8 * w))).toNat with hS
  have hSlt : S < 2 ^ (8 * w) := by
    have h1 : (0 : Int) < 2 ^ (8 * w) := by positivity
    have h2 := Int.emod_lt_of_pos C h1
    have h3 := Int.emod_nonneg C (ne_of_gt h1)
    have h4 : ((2 ^ (8 * w) : Nat) : Int) = (2 : Int) ^ (8 * w) := by push_cast; rfl
    omega
  refine ⟨writeBytesAt buf off (dvBytes w le' S), ?_, length_writeBytesAt _ _ _, ?_, ?_⟩
  · unfold dvSet
    rw [if_pos hb, hst]
  · intro j hj
    rcases hj with hj | hj
    · exact getElem?_writeBytesAt_lt _ _ _ _ hj
    · exact getElem?_writeBytesAt_ge _ _ _ _ (by rw [dvBytes_length]; omega)
  · unfold dvGet
    rw [if_pos (by rw [length_writeBytesAt]; omega)]
    have hread : readBytesAt (writeBytesAt buf off (dvBytes w le' S)) off w
        = dvBytes w le' S := by
      have h1 := readBytesAt_writeBytesAt buf off (dvBytes w le' S)
        (by rw [dvBytes_length]; omega)
      rw [dvBytes_length] at h1
      rw [h1, map_mod256_of_lt _ (dvBytes_lt w le' S)]
    rw [← hw, ← hle', hread, dvNat_dvBytes, pow256_eq, Nat.mod_eq_of_lt hSlt]
    rcases hk with rfl | rfl | rfl <;> rfl

theorem bitmask_rt (map : List (String × BitFieldSpec)) (off len : Nat) (le : Bool)
    (kvs : List (String × Value)) (buf : Buffer)
    (hlen : len = 1 ∨ len = 2 ∨ len = 4)
    (hmap : mapEntriesOK len map = true)
    (hfit : ∀ e ∈ map, bitEntryFits e (jsGet kvs e.1) = true)
    (hkeys : kvs.map Prod.fst = map.map Prod.fst)
    (hb : off + len ≤ buf.length) :
    ∃ buf', writeBody (.bitmask map) off len le (.obj kvs) buf = .ok buf' ∧
      buf'.length = buf.length ∧
      (∀ j, j < off ∨ off + len ≤ j → buf'[j]? = buf[j]?) ∧
      (∀ buf2 : Buffer, buf2.length = buf'.length →
        (∀ j, off ≤ j → j < off + len → buf2[j]? = buf'[j]?) →
        readBody (.bitmask map) off len le buf2 = .ok (.obj kvs, buf2)) := by
  have h832 : 8 * len ≤ 32 := by omega
  set C := combineBitFields kvs map with hC
  have hkind : ∃ k, typeToDataViewMethod .uint len = some k ∧ dvWidth k = len ∧
      (k = DVKind.uint8 ∨ k = DVKind.uint16 ∨ k = DVKind.uint32) := by
    rcases hlen with rfl | rfl | rfl
    · exact ⟨.uint8, rfl, rfl, Or.inl rfl⟩
    · exact ⟨.uint16, rfl, rfl, Or.inr (Or.inl rfl)⟩
    · exact ⟨.uint32, rfl, rfl, Or.inr (Or.inr rfl)⟩
  obtain ⟨k, hm, hw, hku⟩ := hkind
  obtain ⟨buf', hset, hlen', hframe, hget⟩ := dvSet_getUint_mod k hku off le buf C
    (by omega)
  rw [hw] at hframe hget
  refine ⟨buf', ?_, hlen', hframe, ?_⟩
  · show numberWrite .uint off len le (.num C) buf = .ok buf'
    unfold numberWrite
    rw [hm]
    dsimp only []
    rw [if_neg (show ¬((dvSetName k).length = 0) by cases k <;> decide)]
    exact hset
  · intro buf2 hl2 hag
    have hget2 : dvGet k off le buf2
        = .ok (.num (((C % ((2 : Int) ^ (8 * len))).toNat : Nat) : Int)) := by
      rw [dvGet_congr k off le buf' buf2 hl2 (by rw [hw]; exact hag)]
      exact hget
    show (do
      let v ← numberRead .uint off len le buf2
      Except.ok (Value.obj (extractBitFields (asNum v) map), buf2)) = _
    unfold numberRead
    rw [hm]
    dsimp only []
    rw [if_neg (show ¬((dvGetName k).length = 0) by cases k <;> decide), hget2, ok_bind]
    set S := (C % ((2 : Int) ^ (8 * len))).toNat with hSdef
    have hSlt : S < 2 ^ (8 * len) := by
      have h1 : (0 : Int) < 2 ^ (8 * len) := by positivity
      have h2 := Int.emod_lt_of_pos C h1
      have h3 := Int.emod_nonneg C (ne_of_gt h1)
      have h4 : ((2 ^ (8 * len) : Nat) : Int) = (2 : Int) ^ (8 * len) := by push_cast; rfl
      omega
    have hSmod : S = toUint32 C % 2 ^ (8 * len) := stored_mod_pattern C (8 * len) h832
    have hS : ∀ j, j < 8 * len → Nat.testBit (toUint32 ((S : Nat) : Int)) j
        = Nat.testBit (toUint32 C) j := by
      intro j hj
      rw [toUint32_small_nat S (by
        have hle : (2 : Nat) ^ (8 * len) ≤ 2 ^ 32 := Nat.pow_le_pow_right (by norm_num) h832
        have h32 : (2 : Nat) ^ 32 = 4294967296 := by norm_num
        omega)]
      rw [hSmod, Nat.testBit_mod_two_pow, decide_eq_true hj, Bool.true_and]
    have hrec := extractBitFields_recover kvs len h832 map hmap hfit ((S : Nat) : Int) hS
    show Except.ok (Value.obj (extractBitFields ((S : Nat) : Int) map), buf2) = _
    rw [hrec, map_jsGet_eq_self map kvs hkeys (mapEntriesOK_pairwise len map hmap)]

/-! ## Round-trip preconditions

`rtBody body len v` says the value `v` survives the write/read cycle of
`body`'s codec in a `len`-byte region: nothing truncates, every record
member is present, strings are NUL-trimmable, and bitmask members fit
their bit ranges.  `rtFields` additionally keeps sibling fields inside
the container, pairwise separate and distinctly named.
-/

/-- The field's region and name are apart from every later field's. -/
def fieldSepFrom (f : Field) : FieldList → Bool
  | .nil => true
  | .cons g gs =>
    (decide (f.byteOffset + f.byteLength ≤ g.byteOffset)
        || decide (g.byteOffset + g.byteLength ≤ f.byteOffset))
      && decide (f.name ≠ g.name) && fieldSepFrom f gs

mutual
/-- A value the body's codec round-trips within a `len`-byte region. -/
def rtBody : FieldBody → Nat → Value → Bool
  | .raw, len, v =>
    match v with
    | .bytes bs => decide (bs.length = len) && bs.all (fun b => decide (b < 256))
    | _ => false
  | .number t, len, v => numFits t len v
  | .str trimNull, len, v =>
    match v with
    | .str s =>
      trimNull && decide ((utf8Encode s).length ≤ len)
        && (match s.getLast? with
            | some c => decide (c ≠ Char.ofNat 0)
            | none => true)
    | _ => false
  | .bitset, len, v =>
    match v with
    | .bits bs => decide (bs.length = len * 8)
    | _ => false
  | .bitmask map, len, v =>
    match v with
    | .obj kvs =>
      (decide (len = 1) || decide (len = 2) || decide (len = 4))
        && mapEntriesOK len map
        && map.all (fun e => bitEntryFits e (jsGet kvs e.1))
        && decide (kvs.map Prod.fst = map.map Prod.fst)
    | _ => false
  | .array (.mk itemLen _ ibody), len, v =>
    match v with
    | .arr vs =>
      decide (itemLen ≠ 0) && decide (len = vs.length * itemLen)
        && vs.foldr (fun x acc => rtBody ibody itemLen x && acc) true
    | _ => false
  | .object fields, len, v =>
    match v with
    | .obj kvs =>
      decide (kvs.map Prod.fst = fields.toList.map Field.name)
        && rtFields fields len kvs
    | _ => false

/-- Every field fits the container, is separate from its successors, and
has a fitting member in the record. -/
def rtFields : FieldList → Nat → List (String × Value) → Bool
  | .nil, _, _ => true
  | .cons (.mk name fOff fLen fLE fBody) fs, containerLen, kvs =>
    decide (fOff + fLen ≤ containerLen)
      && fieldSepFrom (.mk name fOff fLen fLE fBody) fs
      && rtBody fBody fLen (jsGet kvs name)
      && rtFields fs containerLen kvs
end

/-- No codec round-trips an absent member. -/
theorem rtBody_undef (body : FieldBody) (len : Nat) : rtBody body len Value.undef = false := by
  match body with
  | .raw => rfl
  | .number t => cases t <;> rfl
  | .str tn => rfl
  | .bitset => rfl
  | .bitmask m => rfl
  | .array (.mk a b c) => rfl
  | .object fl => rfl

theorem foldr_all_rtBody (ibody : FieldBody) (itemLen : Nat) :
    ∀ (vs : List Value),
      vs.foldr (fun x acc => rtBody ibody itemLen x && acc) true = true →
      ∀ x ∈ vs, rtBody ibody itemLen x = true := by
  intro vs
  induction vs with
  | nil => intro _ x hx; simp at hx
  | cons a t ih =>
    intro h x hx
    simp only [List.foldr_cons, Bool.and_eq_true] at h
    rcases List.mem_cons.mp hx with rfl | hx
    · exact h.1
    · exact ih h.2 x hx

theorem fieldSepFrom_spec (f : Field) (fs : FieldList) (h : fieldSepFrom f fs = true) :
    ∀ g ∈ fs.toList,
      (f.byteOffset + f.byteLength ≤ g.byteOffset
        ∨ g.byteOffset + g.byteLength ≤ f.byteOffset) ∧ f.name ≠ g.name := by
  match fs with
  | .nil => intro g hg; simp [FieldList.toList] at hg
  | .cons g0 gs =>
    intro g hg
    simp only [fieldSepFrom, Bool.and_eq_true, Bool.or_eq_true, decide_eq_true_eq] at h
    simp only [FieldList.toList, List.mem_cons] at hg
    rcases hg with rfl | hg
    · exact ⟨h.1.1, h.1.2⟩
    · exact fieldSepFrom_spec f gs h.2 g hg

theorem rtFields_bounds (containerLen : Nat) (kvs : List (String × Value))
    (fields : FieldList) (h : rtFields fields containerLen kvs = true) :
    ∀ f ∈ fields.toList, f.byteOffset + f.byteLength ≤ containerLen := by
  match fields with
  | .nil => intro f hf; simp [FieldList.toList] at hf
  | .cons (.mk name fOff fLen fLE fBody) fs =>
    intro f hf
    simp only [rtFields, Bool.and_eq_true, decide_eq_true_eq] at h
    simp only [FieldList.toList, List.mem_cons] at hf
    rcases hf with rfl | hf
    · exact h.1.1.1
    · exact rtFields_bounds containerLen kvs fs h.2 f hf

theorem rtFields_names_pairwise (containerLen : Nat) (kvs : List (String × Value))
    (fields : FieldList) (h : rtFields fields containerLen kvs = true) :
    List.Pairwise (fun a b => a ≠ b) (fields.toList.map Field.name) := by
  match fields with
  | .nil => simp [FieldList.toList]
  | .cons (.mk name fOff fLen fLE fBody) fs =>
    simp only [rtFields, Bool.and_eq_true, decide_eq_true_eq] at h
    simp only [FieldList.toList, List.map_cons]
    rw [List.pairwise_cons]
    refine ⟨?_, rtFields_names_pairwise containerLen kvs fs h.2⟩
    intro n hn
    simp only [List.mem_map] at hn
    obtain ⟨g, hg, rfl⟩ := hn
    have hsep := fieldSepFrom_spec _ fs h.1.1.2 g hg
    exact hsep.2

/-- With the member keys matching a name list in order and the names
pairwise distinct, rebuilding each pair from `jsGet` reproduces the
record. -/
theorem names_jsGet_eq_self (names : List String) :
    ∀ (kvs : List (String × Value)),
      kvs.map Prod.fst = names →
      List.Pairwise (fun a b => a ≠ b) names →
      names.map (fun n => (n, jsGet kvs n)) = kvs := by
  induction names with
  | nil =>
    intro kvs hkeys _
    cases kvs with
    | nil => rfl
    | cons a t => simp at hkeys
  | cons n rest ih =>
    intro kvs hkeys hpw
    cases kvs with
    | nil => simp at hkeys
    | cons kv kvt =>
      simp only [List.map_cons, List.cons.injEq] at hkeys
      obtain ⟨hk, ht⟩ := hkeys
      have hpwc := List.pairwise_cons.mp hpw
      obtain ⟨k1, v1⟩ := kv
      simp only [] at hk
      have hhead : jsGet ((k1, v1) :: kvt) n = v1 := by
        unfold jsGet
        rw [← hk]
        simp [List.lookup]
      have htail : rest.map (fun n2 => (n2, jsGet ((k1, v1) :: kvt) n2))
          = rest.map (fun n2 => (n2, jsGet kvt n2)) := by
        apply List.map_congr_left
        intro n2 hn2
        have hne : n ≠ n2 := hpwc.1 n2 hn2
        have hne2 : k1 ≠ n2 := by rw [hk]; exact hne
        unfold jsGet
        simp only [List.lookup]
        have hbeq : (n2 == k1) = false := by
          simpa using (Ne.symm hne2)
        rw [hbeq]
      rw [List.map_cons, hhead, htail, ih kvt ht hpwc.2, ← hk]

/-- The statement of the per-body round trip, packaged for the array
item helper. -/
def WriteRT (body : FieldBody) (len : Nat) (le : Bool) : Prop :=
  ∀ (off : Nat) (v : Value) (buf : Buffer), rtBody body len v = true →
    off + len ≤ buf.length →
    ∃ buf', writeBody body off len le v buf = .ok buf' ∧
      buf'.length = buf.length ∧
      (∀ j, j < off ∨ off + len ≤ j → buf'[j]? = buf[j]?) ∧
      (∀ buf2 : Buffer, buf2.length = buf'.length →
        (∀ j, off ≤ j → j < off + len → buf2[j]? = buf'[j]?) →
        readBody body off len le buf2 = .ok (v, buf2))

/-- The array item loop: consecutive disjoint regions, one per element. -/
theorem writeItems_rt (ibody : FieldBody) (itemLen : Nat) (le : Bool)
    (IH : WriteRT ibody itemLen le) (vsAll : List Value) (off : Nat)
    (hall : ∀ x ∈ vsAll, rtBody ibody itemLen x = true) :
    ∀ (k i0 : Nat) (buf : Buffer), i0 + k = vsAll.length →
      off + vsAll.length * itemLen ≤ buf.length →
      ∃ buf', writeLoop (fun i b => writeBody ibody (off + i * itemLen) itemLen le
          (vsAll.getD i Value.undef) b) i0 k buf = .ok buf' ∧
        buf'.length = buf.length ∧
        (∀ j, (j < off + i0 * itemLen ∨ off + vsAll.length * itemLen ≤ j) →
          buf'[j]? = buf[j]?) ∧
        (∀ buf2 : Buffer, buf2.length = buf'.length →
          (∀ j, off + i0 * itemLen ≤ j → j < off + vsAll.length * itemLen →
            buf2[j]? = buf'[j]?) →
          readLoop (fun i b => readBody ibody (off + i * itemLen) itemLen le b) i0 k buf2
            = .ok (vsAll.drop i0, buf2)) := by
  intro k
  induction k with
  | zero =>
    intro i0 buf hk _
    refine ⟨buf, rfl, rfl, fun j _ => rfl, ?_⟩
    intro buf2 _ _
    rw [show i0 = vsAll.length from by omega, List.drop_length]
    rfl
  | succ k ih =>
    intro i0 buf hk hb
    have hi0 : i0 < vsAll.length := by omega
    have hvi : vsAll.getD i0 Value.undef = vsAll[i0] := by
      rw [List.getD_eq_getElem?_getD, List.getElem?_eq_getElem hi0, Option.getD_some]
    have hmul : off + (i0 + 1) * itemLen ≤ off + vsAll.length * itemLen := by
      have := Nat.mul_le_mul_right itemLen (show i0 + 1 ≤ vsAll.length from by omega)
      omega
    obtain ⟨buf1, hw1, hlen1, hframe1, hread1⟩ := IH (off + i0 * itemLen) vsAll[i0] buf
      (hall _ (List.getElem_mem hi0)) (by have : (i0 + 1) * itemLen = i0 * itemLen + itemLen := by ring
                                          omega)
    obtain ⟨buf', hw2, hlen2, hframe2, hread2⟩ := ih (i0 + 1) buf1 (by omega)
      (by omega)
    have hstep : (i0 + 1) * itemLen = i0 * itemLen + itemLen := by ring
    refine ⟨buf', ?_, by rw [hlen2, hlen1], ?_, ?_⟩
    · rw [writeLoop]
      rw [hvi, hw1, ok_bind]
      exact hw2
    · intro j hj
      rw [hframe2 j (by rcases hj with hj | hj
                        · left; omega
                        · right; omega),
        hframe1 j (by rcases hj with hj | hj
                      · left; omega
                      · right; omega)]
    · intro buf2 hl2 hag
      rw [readLoop]
      have hagel : ∀ j, off + i0 * itemLen ≤ j → j < off + i0 * itemLen + itemLen →
          buf2[j]? = buf1[j]? := by
        intro j hj1 hj2
        rw [hag j hj1 (by omega), hframe2 j (by left; omega)]
      have hr1 := hread1 buf2 (by rw [hl2, hlen2]) hagel
      simp only [hr1, ok_bind]
      have hr2 := hread2 buf2 hl2 (fun j hj1 hj2 => hag j (by omega) hj2)
      simp only [hr2, ok_bind]
      rw [List.drop_eq_getElem_cons hi0]

/-! ## The master round trip -/

mutual
/-- A fitting write succeeds, stays within its region, and any buffer
agreeing with the result on the region reads back to the written
value. -/
theorem writeBody_rt (body : FieldBody) (len : Nat) (le : Bool) (off : Nat) (v : Value)
    (buf : Buffer) (h : rtBody body len v = true) (hb : off + len ≤ buf.length) :
    ∃ buf', writeBody body off len le v buf = .ok buf' ∧
      buf'.length = buf.length ∧
      (∀ j, j < off ∨ off + len ≤ j → buf'[j]? = buf[j]?) ∧
      (∀ buf2 : Buffer, buf2.length = buf'.length →
        (∀ j, off ≤ j → j < off + len → buf2[j]? = buf'[j]?) →
        readBody body off len le buf2 = .ok (v, buf2)) := by
  match body with
  | .raw =>
    match v with
    | .bytes bs =>
      simp only [rtBody, Bool.and_eq_true, decide_eq_true_eq, List.all_eq_true] at h
      obtain ⟨hlen0, hbytes⟩ := h
      obtain ⟨buf', hw, hl, hf, hr⟩ := raw_rt off len bs buf hlen0
        (fun b hb2 => hbytes b hb2) hb
      refine ⟨buf', ?_, hl, hf, ?_⟩
      · simp only [writeBody, asBytesE, ok_bind]
        exact hw
      · intro buf2 hl2 hag
        simp only [readBody, hr buf2 hl2 hag, ok_bind]
    | .num i => exact Bool.noConfusion h
    | .f32 b => exact Bool.noConfusion h
    | .str s => exact Bool.noConfusion h
    | .bool b => exact Bool.noConfusion h
    | .bits bl => exact Bool.noConfusion h
    | .arr vs => exact Bool.noConfusion h
    | .obj kvs => exact Bool.noConfusion h
    | Value.undef => exact Bool.noConfusion h
  | .number t =>
    obtain ⟨buf', hw, hl, hf, hr⟩ := numberWrite_rt t off len le v buf h hb
    refine ⟨buf', hw, hl, hf, ?_⟩
    intro buf2 hl2 hag
    simp only [readBody, hr buf2 hl2 hag, ok_bind]
  | .str trimNull =>
    match v with
    | .str s =>
      simp only [rtBody, Bool.and_eq_true, decide_eq_true_eq] at h
      obtain ⟨⟨htrim, henc⟩, hlast0⟩ := h
      have hlast : ∀ c, s.getLast? = some c → c ≠ Char.ofNat 0 := by
        intro c hc
        rw [hc] at hlast0
        exact of_decide_eq_true hlast0
      obtain ⟨buf', hw, hl, hf, hr⟩ := string_rt off len s buf henc hlast hb
      refine ⟨buf', hw, hl, hf, ?_⟩
      intro buf2 hl2 hag
      rw [htrim]
      simp only [readBody, hr buf2 hl2 hag, ok_bind]
    | .bytes bs => exact Bool.noConfusion h
    | .num i => exact Bool.noConfusion h
    | .f32 b => exact Bool.noConfusion h
    | .bool b => exact Bool.noConfusion h
    | .bits bl => exact Bool.noConfusion h
    | .arr vs => exact Bool.noConfusion h
    | .obj kvs => exact Bool.noConfusion h
    | Value.undef => exact Bool.noConfusion h
  | .bitset =>
    match v with
    | .bits bl =>
      have hlen0 : bl.length = len * 8 := by
        simp only [rtBody, decide_eq_true_eq] at h
        exact h
      exact bitset_rt off len le bl buf hlen0 hb
    | .bytes bs => exact Bool.noConfusion h
    | .num i => exact Bool.noConfusion h
    | .f32 b => exact Bool.noConfusion h
    | .str s => exact Bool.noConfusion h
    | .bool b => exact Bool.noConfusion h
    | .arr vs => exact Bool.noConfusion h
    | .obj kvs => exact Bool.noConfusion h
    | Value.undef => exact Bool.noConfusion h
  | .bitmask map =>
    match v with
    | .obj kvs =>
      simp only [rtBody, Bool.and_eq_true, Bool.or_eq_true, decide_eq_true_eq,
        List.all_eq_true] at h
      obtain ⟨⟨⟨hlen3, hmap⟩, hfit⟩, hkeys⟩ := h
      exact bitmask_rt map off len le kvs buf (by tauto) hmap hfit hkeys hb
    | .bytes bs => exact Bool.noConfusion h
    | .num i => exact Bool.noConfusion h
    | .f32 b => exact Bool.noConfusion h
    | .str s => exact Bool.noConfusion h
    | .bool b => exact Bool.noConfusion h
    | .bits bl => exact Bool.noConfusion h
    | .arr vs => exact Bool.noConfusion h
    | Value.undef => exact Bool.noConfusion h
  | .array (.mk itemLen itemLE ibody) =>
    match v with
    | .arr vs =>
      simp only [rtBody, Bool.and_eq_true, decide_eq_true_eq] at h
      obtain ⟨⟨hne, hlen0⟩, hfold⟩ := h
      have hall := foldr_all_rtBody ibody itemLen vs hfold
      have hcount : arrayIter len itemLen = .ok vs.length := by
        unfold arrayIter
        rw [if_neg (by simpa using hne)]
        congr 1
        rw [hlen0]
        have harith : vs.length * itemLen + itemLen - 1
            = itemLen - 1 + itemLen * vs.length := by
          rw [Nat.mul_comm]
          omega
        rw [harith, Nat.add_mul_div_left _ _ (by omega : 0 < itemLen),
          Nat.div_eq_of_lt (by omega)]
        omega
      obtain ⟨buf', hw, hl, hf, hr⟩ := writeItems_rt ibody itemLen (itemLE.getD false)
        (fun off2 v2 buf2 h2 hb2 =>
          writeBody_rt ibody itemLen (itemLE.getD false) off2 v2 buf2 h2 hb2)
        vs off hall vs.length 0 buf (by omega) (by omega)
      refine ⟨buf', ?_, hl, ?_, ?_⟩
      · simp only [writeBody, hcount, ok_bind]
        exact hw
      · intro j hj
        exact hf j (by omega)
      · intro buf2 hl2 hag
        simp only [readBody, hcount, ok_bind]
        have hrr := hr buf2 hl2 (fun j hj1 hj2 => hag j (by omega) (by omega))
        simp only [hrr, ok_bind, List.drop_zero]
    | .bytes bs => exact Bool.noConfusion h
    | .num i => exact Bool.noConfusion h
    | .f32 b => exact Bool.noConfusion h
    | .str s => exact Bool.noConfusion h
    | .bool b => exact Bool.noConfusion h
    | .bits bl => exact Bool.noConfusion h
    | .obj kvs => exact Bool.noConfusion h
    | Value.undef => exact Bool.noConfusion h
  | .object fields =>
    match v with
    | .obj kvs =>
      simp only [rtBody, Bool.and_eq_true, decide_eq_true_eq] at h
      obtain ⟨hkeys, hrt⟩ := h
      obtain ⟨buf', hw, hl, hf, hr⟩ :=
        writeFields_rt fields off len le kvs buf hrt hb
      have hbounds := rtFields_bounds len kvs fields hrt
      refine ⟨buf', hw, hl, ?_, ?_⟩
      · intro j hj
        refine hf j ?_
        intro f hfmem
        have := hbounds f hfmem
        omega
      · intro buf2 hl2 hag
        simp only [readBody, hr buf2 hl2 hag, ok_bind]
        have hpw := rtFields_names_pairwise len kvs fields hrt
        have hmm : fields.toList.map (fun f => (f.name, jsGet kvs f.name))
            = (fields.toList.map Field.name).map (fun n => (n, jsGet kvs n)) := by
          rw [List.map_map]
          rfl
        rw [hmm, names_jsGet_eq_self (fields.toList.map Field.name) kvs hkeys hpw]
    | .bytes bs => exact Bool.noConfusion h
    | .num i => exact Bool.noConfusion h
    | .f32 b => exact Bool.noConfusion h
    | .str s => exact Bool.noConfusion h
    | .bool b => exact Bool.noConfusion h
    | .bits bl => exact Bool.noConfusion h
    | .arr vs => exact Bool.noConfusion h
    | Value.undef => exact Bool.noConfusion h

/-- The object write loop: each present member writes its own region;
the whole list then reads back in field order. -/
theorem writeFields_rt (fields : FieldList) (base containerLen : Nat) (le : Bool)
    (kvs : List (String × Value)) (buf : Buffer)
    (h : rtFields fields containerLen kvs = true)
    (hb : base + containerLen ≤ buf.length) :
    ∃ buf', writeFields fields base le kvs buf = .ok buf' ∧
      buf'.length = buf.length ∧
      (∀ j, (∀ f ∈ fields.toList, j < base + f.byteOffset
          ∨ base + f.byteOffset + f.byteLength ≤ j) → buf'[j]? = buf[j]?) ∧
      (∀ buf2 : Buffer, buf2.length = buf'.length →
        (∀ j, base ≤ j → j < base + containerLen → buf2[j]? = buf'[j]?) →
        readFields fields base le buf2
          = .ok (fields.toList.map (fun f => (f.name, jsGet kvs f.name)), buf2)) := by
  match fields with
  | .nil =>
    refine ⟨buf, rfl, rfl, fun j _ => rfl, ?_⟩
    intro buf2 _ _
    rfl
  | .cons (.mk name fOff fLen fLE fBody) fs =>
    simp only [rtFields, Bool.and_eq_true, decide_eq_true_eq] at h
    obtain ⟨⟨⟨hbound, hsep⟩, hmatch⟩, hrest⟩ := h
    have hnun : jsGet kvs name ≠ Value.undef := by
      intro hcon
      rw [hcon, rtBody_undef] at hmatch
      exact Bool.noConfusion hmatch
    rcases hjv : jsGet kvs name with bs | i | b | s | bo | bl | avs | okvs | _ <;>
      rw [hjv] at hmatch
    case undef => exact absurd hjv hnun
    all_goals (
      obtain ⟨buf1, hw1, hlen1, hframe1, hread1⟩ :=
        writeBody_rt fBody fLen (fLE.getD le) (base + fOff) _ buf hmatch (by omega)
      obtain ⟨buf', hw2, hlen2, hframe2, hread2⟩ :=
        writeFields_rt fs base containerLen le kvs buf1 hrest (by omega)
      have hsepsp := fieldSepFrom_spec (.mk name fOff fLen fLE fBody) fs hsep
      refine ⟨buf', ?_, by rw [hlen2, hlen1], ?_, ?_⟩
      · simp only [writeFields]
        rw [hjv]
        simp only [hw1, ok_bind]
        exact hw2
      · intro j hj
        have hjhead : j < base + fOff ∨ base + fOff + fLen ≤ j :=
          hj (.mk name fOff fLen fLE fBody) (by simp [FieldList.toList])
        rw [hframe2 j (fun f hf => hj f (by simp only [FieldList.toList, List.mem_cons]
                                            exact Or.inr hf))]
        exact hframe1 j (by omega)
      · intro buf2 hl2 hag
        have haghead : ∀ j, base + fOff ≤ j → j < base + fOff + fLen →
            buf2[j]? = buf1[j]? := by
          intro j hj1 hj2
          rw [hag j (by omega) (by omega)]
          refine hframe2 j ?_
          intro g hg
          have hgs : fOff + fLen ≤ g.byteOffset ∨ g.byteOffset + g.byteLength ≤ fOff :=
            (hsepsp g hg).1
          omega
        have hrd1 := hread1 buf2 (by rw [hl2, hlen2]) haghead
        have hrd2 := hread2 buf2 hl2 hag
        simp only [readFields, hrd1, ok_bind, hrd2]
        simp only [FieldList.toList, List.map_cons, Field.name]
        rw [hjv])
end

/-! ## Entry-level round trip -/

theorem processValidation_ok (results : List ValidationResult) (t : Bool)
    (h : results.filter (fun r => r.level == .fatal) = []) :
    processValidationResults results t = .ok () := by
  unfold processValidationResults
  rw [if_neg ?_]
  intro hcon
  exact hcon.1 h

theorem serialize_deserialize_rt (spec : CodecSpec) (v : Value)
    (hval : (validateCodecSpec spec).filter (fun r => r.level == .fatal) = [])
    (hrt : rtBody (.object spec.fields) spec.byteLength v = true) :
    ∃ buf, serialize spec v true true = .ok buf ∧
      buf.length = spec.byteLength ∧
      deserialize spec buf true true = .ok (v, buf) := by
  obtain ⟨buf, hw, hlen, hframe, hread⟩ := writeBody_rt (.object spec.fields)
    spec.byteLength (spec.littleEndian.getD false) 0 v
    (List.replicate spec.byteLength 0) hrt (by simp)
  have hlen' : buf.length = spec.byteLength := by
    rw [hlen, List.length_replicate]
  have hv1 : (validateCodecSpec spec ++ validateRuntimeData spec v).filter
      (fun r => r.level == .fatal) = [] := by
    unfold validateRuntimeData
    rw [List.append_nil]
    exact hval
  have hv2 : (validateCodecSpec spec ++ validateBufferSize spec buf).filter
      (fun r => r.level == .fatal) = [] := by
    unfold validateBufferSize
    rw [if_neg (by omega), List.append_nil]
    exact hval
  refine ⟨buf, ?_, hlen', ?_⟩
  · show (processValidationResults (validateCodecSpec spec ++ validateRuntimeData spec v)
        true >>= fun _ => writeBody (.object spec.fields) 0 spec.byteLength
          (spec.littleEndian.getD false) v (List.replicate spec.byteLength 0)) = .ok buf
    rw [processValidation_ok _ _ hv1, ok_bind]
    exact hw
  · show (processValidationResults (validateCodecSpec spec ++ validateBufferSize spec buf)
        true >>= fun _ => readBody (.object spec.fields) 0 spec.byteLength
          (spec.littleEndian.getD false) buf) = .ok (v, buf)
    rw [processValidation_ok _ _ hv2, ok_bind]
    exact hread buf rfl (fun _ _ _ => rfl)

/-! ## Helpers for the per-claim theorems -/

/-- A successful pure read loop read `rem` elements, the `t`-th produced
by the step at index `i + t` on the unchanged buffer. -/
theorem readLoop_elements {α : Type} (step : Nat → Buffer → Except JsErr (α × Buffer))
    (hpure : ∀ i b p, step i b = .ok p → p.2 = b) :
    ∀ (rem i : Nat) (buf : Buffer) (vs : List α) (buf' : Buffer),
      readLoop step i rem buf = .ok (vs, buf') →
      vs.length = rem ∧ ∀ t, t < rem → ∃ a b2, step (i + t) buf = .ok (a, b2) ∧
        vs[t]? = some a := by
  intro rem
  induction rem with
  | zero =>
    intro i buf vs buf' h
    simp only [readLoop, Except.ok.injEq, Prod.mk.injEq] at h
    rw [← h.1]
    exact ⟨rfl, fun t ht => by omega⟩
  | succ rem ih =>
    intro i buf vs buf' h
    simp only [readLoop] at h
    cases h1 : step i buf with
    | error e => rw [h1] at h; simp at h
    | ok q =>
      rw [h1] at h
      obtain ⟨a0, buf1⟩ := q
      simp only [ok_bind] at h
      cases h2 : readLoop step (i + 1) rem buf1 with
      | error e => rw [h2] at h; simp at h
      | ok q2 =>
        rw [h2] at h
        obtain ⟨vs1, buf2⟩ := q2
        simp only [ok_bind, Except.ok.injEq, Prod.mk.injEq] at h
        have hbeq : buf1 = buf := hpure i buf (a0, buf1) h1
        rw [hbeq] at h2
        obtain ⟨hlen, helem⟩ := ih (i + 1) buf vs1 buf2 h2
        rw [← h.1]
        refine ⟨by simp [hlen], ?_⟩
        intro t ht
        cases t with
        | zero =>
          refine ⟨a0, buf1, ?_, by simp⟩
          rw [Nat.add_zero]
          exact h1
        | succ t =>
          obtain ⟨a, b2, hstep, hget⟩ := helem t (by omega)
          exact ⟨a, b2, by rw [show i + (t + 1) = i + 1 + t from by omega]; exact hstep,
            by simpa using hget⟩

/-- Writing a record the fields of which all miss the window `[lo, hi)`
leaves the window unchanged. -/
theorem writeFields_frame (fields : FieldList) (base : Nat) (le : Bool)
    (kvs : List (String × Value)) (buf buf' : Buffer) (lo hi : Nat)
    (hw : writeFields fields base le kvs buf = .ok buf')
    (hok : ∀ g ∈ fields.toList, jsGet kvs g.name ≠ Value.undef →
      rtBody g.body g.byteLength (jsGet kvs g.name) = true ∧
      base + g.byteOffset + g.byteLength ≤ buf.length ∧
      (base + g.byteOffset + g.byteLength ≤ lo ∨ hi ≤ base + g.byteOffset)) :
    ∀ j, lo ≤ j → j < hi → buf'[j]? = buf[j]? := by
  match fields with
  | .nil =>
    intro j _ _
    simp only [writeFields, Except.ok.injEq] at hw
    rw [hw]
  | .cons (.mk name fOff fLen fLE fBody) fs =>
    intro j hj1 hj2
    rcases hjv : jsGet kvs name with bs | i | b | s | bo | bl | avs | okvs | _ <;>
      simp only [writeFields] at hw <;> rw [hjv] at hw
    case undef =>
      exact writeFields_frame fs base le kvs buf buf' lo hi hw
        (fun g hg => hok g (by simp only [FieldList.toList, List.mem_cons]; exact Or.inr hg))
        j hj1 hj2
    all_goals (
      replace hw : (writeBody fBody (base + fOff) fLen (fLE.getD le) (jsGet kvs name) buf
          >>= writeFields fs base le kvs) = .ok buf' := by rw [hjv]; exact hw
      have hne : jsGet kvs name ≠ Value.undef := by
        rw [hjv]; intro hcon; exact Value.noConfusion hcon
      obtain ⟨hrt0, hbound0, hdisj0⟩ :=
        hok (.mk name fOff fLen fLE fBody) (by simp [FieldList.toList]) hne
      have hbound0' : base + fOff + fLen ≤ buf.length := hbound0
      have hdisj0' : base + fOff + fLen ≤ lo ∨ hi ≤ base + fOff := hdisj0
      obtain ⟨buf1, hw1, hlen1, hframe1, -⟩ :=
        writeBody_rt fBody fLen (fLE.getD le) (base + fOff) (jsGet kvs name) buf hrt0
          (by omega)
      rw [hw1, ok_bind] at hw
      have hrec := writeFields_frame fs base le kvs buf1 buf' lo hi hw
        (fun g hg hne2 => by
          obtain ⟨h1, h2, h3⟩ := hok g
            (by simp only [FieldList.toList, List.mem_cons]; exact Or.inr hg) hne2
          refine ⟨h1, ?_, h3⟩
          rw [hlen1]
          exact h2)
      rw [hrec j hj1 hj2]
      exact hframe1 j (by omega))

/-- The all-ones masked, shifted contribution (`indexOf` miss), at
pattern level. -/
theorem combine_allones (total : Int) (h l : Nat) (hlow : l ≤ h)
    (hwid : h - l + 1 ≤ 31) (hlen32 : h < 32) :
    toUint32 (jsOr total (jsShl (jsAnd (-1) (jsShl 1 ((h : Int) - (l : Int) + 1) - 1))
      (l : Int))) = ((2 ^ (h - l + 1) - 1) <<< l) ||| toUint32 total := by
  have hcastw : ((h : Int) - (l : Int) + 1) = ((h - l + 1 : Nat) : Int) := by
    push_cast [Nat.cast_sub hlow]
    ring
  rw [hcastw, jsAnd_mask _ _ hwid]
  have hm1 : toUint32 (-1) = 4294967295 := by decide
  have hmod : toUint32 (-1) % 2 ^ (h - l + 1) = 2 ^ (h - l + 1) - 1 := by
    rw [hm1]
    have hd : (2 : Nat) ^ (h - l + 1) ∣ 4294967296 := by
      have h32 : (4294967296 : Nat) = 2 ^ 32 := by norm_num
      rw [h32]
      exact pow_dvd_pow 2 (by omega)
    obtain ⟨c, hc⟩ := hd
    have hq : 2 ^ (h - l + 1) * c = 4294967296 := hc.symm
    have hp1 : 0 < (2 : Nat) ^ (h - l + 1) := Nat.two_pow_pos _
    have hc1 : 0 < c := by
      rcases Nat.eq_zero_or_pos c with rfl | hpos
      · rw [Nat.mul_zero] at hq
        omega
      · exact hpos
    have hmul : 2 ^ (h - l + 1) * (c - 1) = 4294967296 - 2 ^ (h - l + 1) := by
      rw [Nat.mul_sub, Nat.mul_one, hq]
    have hPle : 2 ^ (h - l + 1) ≤ 4294967296 := by
      have h5 := Nat.le_mul_of_pos_right (2 ^ (h - l + 1)) hc1
      rw [hq] at h5
      exact h5
    have hdecomp : (4294967295 : Nat)
        = (2 ^ (h - l + 1) - 1) + 2 ^ (h - l + 1) * (c - 1) := by
      rw [hmul]
      omega
    rw [hdecomp, Nat.add_mul_mod_self_left,
      Nat.mod_eq_of_lt (Nat.sub_lt (Nat.two_pow_pos _) one_pos)]
  rw [hmod]
  have hnlt : 2 ^ (h - l + 1) - 1 < 2 ^ (h - l + 1) := by
    have := Nat.two_pow_pos (h - l + 1)
    omega
  have hpow31 : (2 : Nat) ^ (h - l + 1) ≤ 2147483648 := by
    calc (2 : Nat) ^ (h - l + 1) ≤ 2 ^ 31 := Nat.pow_le_pow_right (by norm_num) hwid
    _ = 2147483648 := by norm_num
  have hshl : (2 ^ (h - l + 1) - 1) <<< l < 4294967296 := by
    rw [Nat.shiftLeft_eq]
    have h1 : (2 ^ (h - l + 1) - 1) * 2 ^ l < 2 ^ (h - l + 1) * 2 ^ l :=
      (Nat.mul_lt_mul_right (Nat.two_pow_pos l)).mpr hnlt
    rw [← pow_add] at h1
    have h2 : h - l + 1 + l ≤ 32 := by omega
    have h3 : (2 : Nat) ^ (h - l + 1 + l) ≤ 2 ^ 32 := Nat.pow_le_pow_right (by norm_num) h2
    have h4 : (2 : Nat) ^ 32 = 4294967296 := by norm_num
    omega
  have hshlpat : toUint32 (jsShl (((2 ^ (h - l + 1) - 1 : Nat) : Nat) : Int)
      ((l : Nat) : Int)) = (2 ^ (h - l + 1) - 1) <<< l := by
    rw [toUint32_jsShl, toUint32_natCast, toUint32_natCast]
    have hl32 : l % 4294967296 % 32 = l := by omega
    have hnC : (2 ^ (h - l + 1) - 1) % 4294967296 = 2 ^ (h - l + 1) - 1 := by omega
    rw [hl32, hnC, Nat.mod_eq_of_lt hshl]
  rw [toUint32_jsOr, hshlpat]
  exact Nat.lor_comm _ _

/-! ## The claims -/

/-- C2 (corrected): `Raw.write` copies the input bytes into the buffer at
the field's offset, but the `RangeError` occurs exactly when the input
runs past the end of the **buffer** — the window is sized by the input's
length, not by the field's `byteLength`, so an input longer than the
field succeeds as long as it fits the buffer. -/
theorem C2_raw_write_bounds (buf : Buffer) (off : Nat) (bs : List Nat) :
    (off + bs.length ≤ buf.length →
      ∃ buf', rawWrite buf off bs = .ok buf' ∧ buf'.length = buf.length ∧
        (∀ k, k < bs.length → buf'[off + k]? = some (bs[k]?.getD 0 % 256)) ∧
        (∀ j, j < off ∨ off + bs.length ≤ j → buf'[j]? = buf[j]?)) ∧
    (buf.length < off + bs.length → rawWrite buf off bs = .error .rangeError) := by
  constructor
  · intro hb
    refine ⟨writeBytesAt buf off bs, ?_, length_writeBytesAt _ _ _, ?_, ?_⟩
    · unfold rawWrite
      rw [if_pos hb]
    · intro k hk
      rw [getElem?_writeBytesAt_inside _ _ _ _ hk (by omega),
        List.getElem?_eq_getElem hk, Option.getD_some]
    · intro j hj
      rcases hj with hj | hj
      · exact getElem?_writeBytesAt_lt _ _ _ _ hj
      · exact getElem?_writeBytesAt_ge _ _ _ _ hj
  · intro hb
    unfold rawWrite
    rw [if_neg (by omega)]

/-- C2 witness: a two-byte input at offset 1 of a three-byte buffer
succeeds; at offset 1 of a one-byte buffer it raises `RangeError`. -/
theorem C2_raw_write_bounds_witness :
    (∃ buf', rawWrite [0, 0, 0] 1 [5, 6] = .ok buf' ∧
      buf'.length = ([0, 0, 0] : Buffer).length ∧
      (∀ k, k < ([5, 6] : List Nat).length →
        buf'[1 + k]? = some (([5, 6] : List Nat)[k]?.getD 0 % 256)) ∧
      (∀ j, j < 1 ∨ 1 + ([5, 6] : List Nat).length ≤ j →
        buf'[j]? = ([0, 0, 0] : Buffer)[j]?)) ∧
    rawWrite [9] 1 [5, 6] = .error .rangeError :=
  ⟨(C2_raw_write_bounds [0, 0, 0] 1 [5, 6]).1 (by decide),
   (C2_raw_write_bounds [9] 1 [5, 6]).2 (by decide)⟩

/-- C2 counterexample: two bytes written into a field of `byteLength` 1
succeed (no `RangeError`) because the four-byte buffer has room — the
claim's "destination region (the field's byteLength)" bound is wrong. -/
theorem C2_field_overflow_cex :
    writeBody .raw 0 1 false (.bytes [170, 187]) [0, 0, 0, 0] = .ok [170, 187, 0, 0] ∧
    (1 : Nat) < ([170, 187] : List Nat).length := ⟨rfl, by decide⟩

/-- C3 (corrected): a successful array read leaves the buffer unchanged
and yields one element per loop iteration, the `i`-th read at
`offset + i*item.byteLength`; but JS float division makes the iteration
count `⌈byteLength / item.byteLength⌉`, not the claimed integer quotient
`byteLength / item.byteLength`. -/
theorem C3_array_read_elements (itemLen : Nat) (itemLE : Option Bool) (ibody : FieldBody)
    (off len : Nat) (le : Bool) (buf : Buffer) (v : Value) (buf' : Buffer)
    (hne : itemLen ≠ 0)
    (h : readBody (.array (.mk itemLen itemLE ibody)) off len le buf = .ok (v, buf')) :
    buf' = buf ∧ ∃ vs, v = .arr vs ∧ vs.length = (len + itemLen - 1) / itemLen ∧
      ∀ i, i < vs.length → ∃ a b2, readBody ibody (off + i * itemLen) itemLen
        (itemLE.getD false) buf = .ok (a, b2) ∧ vs[i]? = some a := by
  have hai : arrayIter len itemLen = .ok ((len + itemLen - 1) / itemLen) := by
    unfold arrayIter
    rw [if_neg hne]
  simp only [readBody, hai, ok_bind] at h
  cases hl : readLoop (fun i b => readBody ibody (off + i * itemLen) itemLen
      (itemLE.getD false) b) 0 ((len + itemLen - 1) / itemLen) buf with
  | error e => rw [hl] at h; simp at h
  | ok p =>
    rw [hl] at h
    obtain ⟨vs, bufl⟩ := p
    simp only [ok_bind, Except.ok.injEq, Prod.mk.injEq] at h
    have hpure : ∀ i b (p : Value × Buffer),
        readBody ibody (off + i * itemLen) itemLen (itemLE.getD false) b = .ok p →
        p.2 = b := fun i b p hp => readBody_pure ibody _ _ _ b p.1 p.2 hp
    obtain ⟨hlen, helem⟩ := readLoop_elements _ hpure _ 0 buf vs bufl hl
    have hb2 : bufl = buf := readLoop_pure _ hpure 0 _ buf (vs, bufl) hl
    refine ⟨by rw [← h.2, hb2], vs, h.1.symm, hlen, ?_⟩
    intro i hi
    obtain ⟨a, b2, hstep, hget⟩ := helem i (by omega)
    rw [Nat.zero_add] at hstep
    exact ⟨a, b2, hstep, hget⟩

/-- C3 witness: a 3-byte array field of 2-byte items reads two elements
(`⌈3/2⌉`), each through the item codec at its own offset. -/
theorem C3_array_read_elements_witness :
    ([1, 2, 3, 4] : Buffer) = [1, 2, 3, 4] ∧
    ∃ vs, Value.arr [.num 258, .num 772] = .arr vs ∧
      vs.length = (3 + 2 - 1) / 2 ∧
      ∀ i, i < vs.length → ∃ a b2, readBody (.number .uint) (0 + i * 2) 2
        ((none : Option Bool).getD false) [1, 2, 3, 4] = .ok (a, b2) ∧ vs[i]? = some a :=
  C3_array_read_elements 2 none (.number .uint) 0 3 false [1, 2, 3, 4]
    (.arr [.num 258, .num 772]) [1, 2, 3, 4] (by decide) rfl

/-- C3 counterexample: with `byteLength` 3 and `item.byteLength` 2 the
read yields two elements, not the claimed `3 / 2 = 1`. -/
theorem C3_ceil_count_cex :
    readBody (.array (.mk 2 none (.number .uint))) 0 3 false [1, 2, 3, 4]
      = .ok (.arr [.num 258, .num 772], [1, 2, 3, 4]) ∧
    ([Value.num 258, Value.num 772] : List Value).length ≠ 3 / 2 :=
  ⟨rfl, by decide⟩

/-- C4 (code bug): for an unsupported `(kind, byteLength)` pair the
number codec raises a `TypeError` — the member access
`typeToDataViewMethod[...]['get']` on `undefined` throws before the
`!method` guard that was meant to raise the "Unsupported number type"
error ever runs, so the guard is dead code. -/
theorem C4_unsupported_type_typeerror :
    numberRead .float 0 2 true [0, 0] = .error .typeError ∧
    numberWrite .float 0 2 true (.num 0) [0, 0] = .error .typeError ∧
    JsErr.typeError ≠ .jsError "Unsupported number type" := ⟨rfl, rfl, by decide⟩

/-- C5 (confirmed): a field at `byteOffset` 4 with `byteLength` 6 in a
5-byte container yields exactly one Fatal `FIELD_OUT_OF_BOUNDS`
diagnostic, and both entry operations abort with a `ValidationError`
carrying it, before any decode or encode step runs. -/
theorem C5_out_of_bounds_fatal_aborts :
    validateCodecSpec ⟨5, none, .cons (.mk "f" 4 6 none .raw) .nil⟩
      = [⟨.fatal, "fields[0]", "FIELD_OUT_OF_BOUNDS"⟩] ∧
    deserialize ⟨5, none, .cons (.mk "f" 4 6 none .raw) .nil⟩ [0, 0, 0, 0, 0] true true
      = .error (.validationError [⟨.fatal, "fields[0]", "FIELD_OUT_OF_BOUNDS"⟩]) ∧
    serialize ⟨5, none, .cons (.mk "f" 4 6 none .raw) .nil⟩ (.obj [("f", .bytes [1])])
      true true
      = .error (.validationError [⟨.fatal, "fields[0]", "FIELD_OUT_OF_BOUNDS"⟩]) :=
  ⟨rfl, rfl, rfl⟩

/-- C8 (confirmed): the value `0x1234` in a 2-byte unsigned field is laid
out `[0x34, 0x12]` with `littleEndian = true` and `[0x12, 0x34]` with the
default (big-endian) setting. -/
theorem C8_endianness_bytes :
    serialize ⟨2, some true, .cons (.mk "n" 0 2 none (.number .uint)) .nil⟩
      (.obj [("n", .num 4660)]) true true = .ok [52, 18] ∧
    serialize ⟨2, none, .cons (.mk "n" 0 2 none (.number .uint)) .nil⟩
      (.obj [("n", .num 4660)]) true true = .ok [18, 52] := ⟨rfl, rfl⟩

/-- C10 (confirmed): `deserialize` never writes to the input buffer —
whenever it returns, the buffer it threads out is byte-for-byte the
buffer passed in. -/
theorem C10_deserialize_pure (spec : CodecSpec) (buffer : Buffer)
    (validate throwOnFatal : Bool) (v : Value) (buf' : Buffer)
    (h : deserialize spec buffer validate throwOnFatal = .ok (v, buf')) :
    buf' = buffer := by
  have hread : readBody (.object spec.fields) 0 spec.byteLength
      (spec.littleEndian.getD false) buffer = .ok (v, buf') := by
    unfold deserialize at h
    cases validate with
    | false => exact h
    | true =>
      rw [if_pos rfl] at h
      cases hp : processValidationResults
          (validateCodecSpec spec ++ validateBufferSize spec buffer) throwOnFatal with
      | error e =>
        rw [hp] at h
        simp at h
      | ok u =>
        rw [hp] at h
        simpa using h
  exact readBody_pure (.object spec.fields) 0 spec.byteLength
    (spec.littleEndian.getD false) buffer v buf' hread

/-- C10 witness: a one-field spec read over `[7]` returns the same
buffer. -/
theorem C10_deserialize_pure_witness : ([7] : Buffer) = [7] :=
  C10_deserialize_pure ⟨1, none, .cons (.mk "x" 0 1 none .raw) .nil⟩ [7] true true
    (.obj [("x", .bytes [7])]) [7] rfl

/-- C1 (corrected): for a spec with no fatal diagnostics and a value the
codecs do not truncate or trim — every record supplies every key, strings
fit their field and carry no trailing NUL **and their fields trim
trailing NULs on read**, arrays have exactly the computed element count,
numbers and bitmask members are in range, and sibling fields are disjoint
— `deserialize` of `serialize` returns the value unchanged.  (Without the
NUL-trim condition the round trip fails: see the counterexample.) -/
theorem C1_roundtrip_of_fits (spec : CodecSpec) (v : Value)
    (hval : (validateCodecSpec spec).filter (fun r => r.level == .fatal) = [])
    (hrt : rtBody (.object spec.fields) spec.byteLength v = true) :
    ∃ buf, serialize spec v true true = .ok buf ∧
      buf.length = spec.byteLength ∧
      deserialize spec buf true true = .ok (v, buf) :=
  serialize_deserialize_rt spec v hval hrt

def c1Spec : CodecSpec :=
  ⟨8, none,
    .cons (.mk "n" 0 2 none (.number .uint))
      (.cons (.mk "s" 2 3 none (.str true))
        (.cons (.mk "m" 5 1 none
            (.bitmask [("flag", .boolean 0), ("mode", .enum (.range 2 1) ["x", "y", "z"])]))
          (.cons (.mk "r" 6 2 none .raw) .nil)))⟩

def c1Val : Value :=
  .obj [("n", .num 4660), ("s", .str ['H', 'i']),
    ("m", .obj [("flag", .bool true), ("mode", .str ['z'])]),
    ("r", .bytes [1, 2])]

/-- C1 witness: a spec exercising the number, string, bitmask and raw
codecs round-trips a concrete record. -/
theorem C1_roundtrip_of_fits_witness :
    ∃ buf, serialize c1Spec c1Val true true = .ok buf ∧
      buf.length = c1Spec.byteLength ∧
      deserialize c1Spec buf true true = .ok (c1Val, buf) :=
  C1_roundtrip_of_fits c1Spec c1Val (by decide) (by decide)

/-- C1 counterexample: with `trimNull = false` the claimed unconditional
round trip fails — the NUL fill of the string field is retained on
decode, so the decoded record differs from the encoded one even though
nothing truncated and validation passes. -/
theorem C1_trimNull_padding_cex :
    serialize ⟨2, none, .cons (.mk "s" 0 2 none (.str false)) .nil⟩
      (.obj [("s", .str ['A'])]) true true = .ok [65, 0] ∧
    deserialize ⟨2, none, .cons (.mk "s" 0 2 none (.str false)) .nil⟩
      [65, 0] true true
      = .ok (.obj [("s", .str ['A', Char.ofNat 0])], [65, 0]) ∧
    Value.obj [("s", .str ['A', Char.ofNat 0])] ≠ .obj [("s", .str ['A'])] := by
  refine ⟨rfl, rfl, ?_⟩
  intro hcon
  simp at hcon

/-- C6 (corrected): during `Object.write` a field whose key is absent is
skipped, and — provided every *present* field's region is disjoint from
it — its bytes are left exactly as they were.  The disjointness proviso
is necessary: an overlapping present field does rewrite the absent
field's region (see the counterexample). -/
theorem C6_absent_field_untouched (fields : FieldList) (base : Nat) (le : Bool)
    (kvs : List (String × Value)) (buf buf' : Buffer) (f : Field)
    (hf : f ∈ fields.toList) (habs : jsGet kvs f.name = Value.undef)
    (hw : writeFields fields base le kvs buf = .ok buf')
    (hok : ∀ g ∈ fields.toList, jsGet kvs g.name ≠ Value.undef →
      rtBody g.body g.byteLength (jsGet kvs g.name) = true ∧
      base + g.byteOffset + g.byteLength ≤ buf.length ∧
      (base + g.byteOffset + g.byteLength ≤ base + f.byteOffset ∨
        base + f.byteOffset + f.byteLength ≤ base + g.byteOffset)) :
    ∀ j, base + f.byteOffset ≤ j → j < base + f.byteOffset + f.byteLength →
      buf'[j]? = buf[j]? :=
  writeFields_frame fields base le kvs buf buf' (base + f.byteOffset)
    (base + f.byteOffset + f.byteLength) hw hok

def c6Fields : FieldList :=
  .cons (.mk "a" 0 1 none .raw) (.cons (.mk "b" 1 1 none .raw) .nil)

/-- C6 witness: writing a record that omits "a" over `[0, 0]` leaves
byte 0 ("a"'s region) untouched while "b" is written at byte 1. -/
theorem C6_absent_field_untouched_witness :
    ([0, 7] : Buffer)[0]? = ([0, 0] : Buffer)[0]? :=
  C6_absent_field_untouched c6Fields 0 false [("b", .bytes [7])] [0, 0] [0, 7]
    (.mk "a" 0 1 none .raw) (by simp [c6Fields, FieldList.toList]) rfl rfl
    (by
      intro g hg hne
      simp only [c6Fields, FieldList.toList, List.mem_cons, List.not_mem_nil,
        or_false] at hg
      rcases hg with rfl | rfl
      · exact absurd rfl hne
      · exact ⟨by decide, by decide, by decide⟩)
    0 (by decide) (by decide)

/-- C6 counterexample: with overlapping fields the bytes of the absent
field "a" are **not** left as they were — the present field "b" rewrites
byte 1 of "a"'s region. -/
theorem C6_overlap_cex :
    writeFields (.cons (.mk "a" 0 2 none .raw) (.cons (.mk "b" 1 2 none .raw) .nil))
      0 false [("b", .bytes [9, 9])] [0, 0, 0, 0] = .ok [0, 9, 9, 0] ∧
    jsGet [("b", .bytes [9, 9])] "a" = Value.undef ∧
    ([0, 9, 9, 0] : Buffer)[1]? ≠ ([0, 0, 0, 0] : Buffer)[1]? :=
  ⟨rfl, rfl, by decide⟩

/-- C7 (confirmed): `String.write` encodes, truncates the encoding to the
field's `byteLength`, zero-fills the rest of the region and copies the
slice in; "Hello" in a 4-byte field leaves its first four bytes, and in a
6-byte field "Hello" plus one NUL. -/
theorem C7_string_write_pads_truncates :
    (∀ (off len : Nat) (s : List Char) (buf : Buffer), off + len ≤ buf.length →
      ∃ buf', stringWrite off len (.str s) buf = .ok buf' ∧
        buf'.length = buf.length ∧
        readBytesAt buf' off len
          = (utf8Encode s).take len
            ++ List.replicate (len - ((utf8Encode s).take len).length) 0 ∧
        (∀ j, j < off ∨ off + len ≤ j → buf'[j]? = buf[j]?)) ∧
    stringWrite 0 4 (.str ['H', 'e', 'l', 'l', 'o']) [0, 0, 0, 0]
      = .ok [72, 101, 108, 108] ∧
    stringWrite 0 6 (.str ['H', 'e', 'l', 'l', 'o']) [0, 0, 0, 0, 0, 0]
      = .ok [72, 101, 108, 108, 111, 0] := by
  refine ⟨?_, rfl, rfl⟩
  intro off len s buf hb
  refine ⟨writeBytesAt (writeBytesAt buf off (List.replicate len 0)) off
    ((utf8Encode s).take len), stringWrite_ok off len (.str s) buf hb,
    by rw [length_writeBytesAt, length_writeBytesAt], ?_, ?_⟩
  · exact string_region off len (utf8Encode s) buf hb (utf8Encode_lt s)
  · intro j hj
    have hTL : ((utf8Encode s).take len).length ≤ len := by
      rw [List.length_take]
      omega
    rcases hj with hj | hj
    · rw [getElem?_writeBytesAt_lt _ _ _ _ hj, getElem?_writeBytesAt_lt _ _ _ _ hj]
    · rw [getElem?_writeBytesAt_ge _ _ _ _ (by omega),
        getElem?_writeBytesAt_ge _ _ _ _ (by simp only [List.length_replicate]; omega)]

/-- C7 witness: the general region description instantiated at "Hello"
into a 4-byte window of a dirty buffer. -/
theorem C7_string_write_pads_truncates_witness :
    ∃ buf', stringWrite 0 4 (.str ['H', 'e', 'l', 'l', 'o']) [9, 9, 9, 9] = .ok buf' ∧
      buf'.length = ([9, 9, 9, 9] : Buffer).length ∧
      readBytesAt buf' 0 4
        = (utf8Encode ['H', 'e', 'l', 'l', 'o']).take 4
          ++ List.replicate (4 - ((utf8Encode ['H', 'e', 'l', 'l', 'o']).take 4).length) 0 ∧
      (∀ j, j < 0 ∨ 0 + 4 ≤ j → buf'[j]? = ([9, 9, 9, 9] : Buffer)[j]?) :=
  C7_string_write_pads_truncates.1 0 4 ['H', 'e', 'l', 'l', 'o'] [9, 9, 9, 9] (by decide)

/-- C9 (corrected): an enum member string missing from `values` becomes
`indexOf = -1`, and for ranges of width at most 31 the masked value is
all ones across the range, ORed into the packed integer; at width 32 the
claim fails — `1 << 32` wraps to `1`, the mask collapses to `0`, and the
contribution is zero (see the counterexample). -/
theorem C9_unknown_enum_allones (kvs : List (String × Value)) (total : Int) (k : String)
    (bits : BitsSpec) (vals : List String) (s : List Char) (len : Nat)
    (hv : jsGet kvs k = .str s)
    (hnone : vals.findIdx? (fun x => x = String.mk s) = none)
    (hbits : bitsOK len bits = true) (hlen : 8 * len ≤ 32) :
    toUint32 (combineStep kvs total (k, .enum bits vals))
      = ((2 ^ bitsWidth bits - 1) <<< (bitsHighLow bits).2) ||| toUint32 total := by
  obtain ⟨hlh, hhi, hwd, hw31⟩ := bitsOK_facts hbits
  have hio : jsIndexOf vals (String.mk s) = -1 := by
    unfold jsIndexOf
    rw [hnone]
  cases bits with
  | pos p =>
    simp only [bitsHighLow] at hlh hhi
    simp only [bitsWidth, bitsHighLow] at hwd hw31 ⊢
    simp only [combineStep, hv, BitFieldSpec.bits, bitsHighLow, hio]
    exact combine_allones total p p le_rfl (by omega) (by omega)
  | range a b =>
    simp only [bitsHighLow] at hlh hhi
    simp only [bitsWidth, bitsHighLow] at hwd hw31 ⊢
    simp only [combineStep, hv, BitFieldSpec.bits, bitsHighLow, hio]
    exact combine_allones total a b hlh (by omega) (by omega)

/-- C9 witness: an unknown enum string over bit range `[3, 1]` ORs
`0b111 << 1` into the accumulator. -/
theorem C9_unknown_enum_allones_witness :
    toUint32 (combineStep [("m", .str ['z'])] 5 ("m", .enum (.range 3 1) ["a"]))
      = ((2 ^ bitsWidth (.range 3 1) - 1) <<< (bitsHighLow (.range 3 1)).2)
          ||| toUint32 5 :=
  C9_unknown_enum_allones [("m", .str ['z'])] 5 "m" (.range 3 1) ["a"] ['z'] 1
    rfl rfl (by decide) (by decide)

/-- C9 counterexample: at bit width 32 the mask `(1 << 32) - 1` collapses
to `0` (`1 << 32` wraps to `1`), so the unknown-enum contribution is
zero, not all ones. -/
theorem C9_width32_mask_collapse_cex :
    combineBitFields [("m", .str ['z'])] [("m", .enum (.range 31 0) ["a"])] = 0 ∧
    jsIndexOf ["a"] (String.mk ['z']) = -1 := ⟨rfl, rfl⟩

end BinaryCodec
